import Mathlib

/-!
# canvasrsync: a shallow embedding of `main.go`

The program mirrors the uploaded submissions of one course into a local directory tree.
This file embeds the data model, the submission filter, the fetcher's response checks, the
planning loop and the pruner of `syncCourse`, together with the parts of the Go standard
library they rely on (`strings`, `path/filepath`, `sort`, `os`), and states the properties
of the program as theorems over these definitions.

Go strings are modelled as lists of characters; comparing two such lists character by
character agrees with Go's byte-wise comparison of the UTF-8 encodings. The case table
behind `strings.ToLower` is a parameter of the model (`lowerRune`).
-/

namespace CanvasRsync

/-! ## Strings -/

/-- A Go string. -/
abbrev Str := List Char

/-- The function `strings.ToLower`: every character is mapped through `unicode.ToLower`.
The case table of the package `unicode` is not part of the program; it is the parameter
`lowerRune`, which the filter and every function that runs it receive. -/
def toLower (lowerRune : Char → Char) (s : Str) : Str := s.map lowerRune

/-- The function `strings.HasPrefix`. -/
def hasPrefix : Str → Str → Bool
  | _, [] => true
  | [], _ :: _ => false
  | c :: s, d :: p => c == d && hasPrefix s p

/-- The function `strings.Contains`: `sub` occurs in `s` as a contiguous block. -/
def contains : Str → Str → Bool
  | [], sub => hasPrefix [] sub
  | c :: s, sub => hasPrefix (c :: s) sub || contains s sub

/-- The function `strings.Replace(s, " ", "_", -1)`: every space becomes an underscore. -/
def replaceSpaces (s : Str) : Str := s.map (fun c => if c = ' ' then '_' else c)

/-- The function `normalizeName`; the global `normalize` is passed as an argument. -/
def normalizeName (normalize : Bool) (ugly : Str) : Str :=
  if !normalize then ugly else replaceSpaces ugly

/-! ## Data model

The records carry the fields that `syncCourse` reads. A slice of pointers (`[]*Assignment`,
`[]*Submission`, `[]*Attachment`) is modelled as a list of records: a decoded list holds
no null element.
-/

/-- A point in time, in nanoseconds since the zero time. -/
abbrev Time := Nat

/-- The record `Course`. -/
structure Course where
  ID : Int
  Name : Str
  CourseCode : Str
  StartAt : Time
  EndAt : Time
deriving DecidableEq, Repr

/-- The record `Assignment` (the fields `syncCourse` reads). -/
structure Assignment where
  ID : Int
  Name : Str
  Description : Str
  SubmissionTypes : List Str
  HasSubmittedSubmissions : Bool
  Published : Bool
deriving DecidableEq, Repr

/-- The record `User`. -/
structure User where
  LoginID : Str
  Name : Str
  ShortName : Str
  Email : Str
deriving DecidableEq, Repr

/-- The record `Attachment` (the fields `syncCourse` reads). -/
structure Attachment where
  ID : Int
  DisplayName : Str
  Filename : Str
  URL : Str
  Size : Int
  ModifiedAt : Time
deriving DecidableEq, Repr

/-- The record `Submission`. -/
structure Submission where
  ID : Int
  User : User
  SubmissionType : Str
  Attachments : List Attachment
deriving DecidableEq, Repr

/-! ## Submission filter -/

/-- The string `desc` that the filter terms are matched against (lines 182-187). -/
def filterDesc (lowerRune : Char → Char) (asst : Assignment) (submission : Submission) : Str :=
  toLower lowerRune (asst.Name ++ ",".toList ++
    asst.Description ++ ",".toList ++
    submission.User.LoginID ++ ",".toList ++
    submission.User.Name ++ ",".toList ++
    submission.User.ShortName ++ ",".toList ++
    submission.User.Email)

/-- The inner loop over the terms (lines 188-193): the first term that is not contained in
`desc`, which is the term reported before `continue submissionLoop`. -/
def firstMissingTerm (desc : Str) : List Str → Option Str
  | [] => none
  | term :: rest => if !contains desc term then some term else firstMissingTerm desc rest

/-- The filter of lines 180-194: `some term` when the submission is skipped because of
`term`, `none` when it is processed. -/
def filterSkip (lowerRune : Char → Char)
    (terms : List Str) (asst : Assignment) (submission : Submission) : Option Str :=
  if terms.length > 0 then firstMissingTerm (filterDesc lowerRune asst submission) terms else none

/-! ## Ordering and sorting of strings -/

/-- Go's `a < b` on strings. -/
def strLess : Str → Str → Bool
  | [], [] => false
  | [], _ :: _ => true
  | _ :: _, [] => false
  | a :: s, b :: t => decide (a < b) || (a == b && strLess s t)

/-- Go's `a <= b` on strings. -/
def strLe (a b : Str) : Prop := strLess b a = false

instance strLeDecidable : DecidableRel strLe :=
  fun a b => inferInstanceAs (Decidable (strLess b a = false))

/-- The function `sort.Strings`: the list in increasing order. -/
def sortStrings (l : List Str) : List Str := l.insertionSort strLe

/-! ## Paths: the package `path/filepath` on a system whose separator is the slash -/

/-- The path element `.`. -/
def dot : Str := ['.']

/-- The path element `..`. -/
def dotdot : Str := ['.', '.']

/-- The function `strings.Split(s, "/")`. -/
def splitSlash : Str → List Str
  | [] => [[]]
  | c :: s =>
    if c = '/' then [] :: splitSlash s
    else
      match splitSlash s with
      | [] => [[c]]
      | h :: t => (c :: h) :: t

/-- Whether a path starts with the separator. -/
def isRooted (path : Str) : Bool :=
  match path with
  | c :: _ => c == '/'
  | [] => false

/-- One element of the path read by `Clean`, the elements written so far being held last
first: empty elements and `.` are dropped, `..` removes the element before it, or is kept
at the start of a path that is not rooted, or is dropped at the start of a rooted one. -/
def cleanStep (rooted : Bool) (out : List Str) (elem : Str) : List Str :=
  if elem = [] ∨ elem = dot then out
  else if elem = dotdot then
    match out with
    | [] => if rooted then [] else [dotdot]
    | top :: rest => if top = dotdot then dotdot :: top :: rest else rest
  else elem :: out

/-- The elements written by `Clean` (last first) as a path. -/
def render (rooted : Bool) (out : List Str) : Str :=
  if rooted then '/' :: List.intercalate ['/'] out.reverse
  else if out = [] then dot
  else List.intercalate ['/'] out.reverse

/-- The elements that `Clean` keeps, last first. -/
def cleanElems (path : Str) : List Str :=
  (splitSlash path).foldl (cleanStep (isRooted path)) []

/-- The function `filepath.Clean`. -/
def Clean (path : Str) : Str :=
  if path = [] then dot else render (isRooted path) (cleanElems path)

/-- The function `filepath.Join`: the elements from the first non-empty one on, joined by
the separator and cleaned; the empty string when every element is empty. -/
def Join (elem : List Str) : Str :=
  match elem.dropWhile (fun e => decide (e = [])) with
  | [] => []
  | e :: rest => Clean (List.intercalate ['/'] (e :: rest))

/-- The shape of the elements that `Clean` has written (last first): no element is empty,
is `.` or holds a separator, and a `..` element stands only in a path that is not rooted,
above nothing but `..` elements. -/
def normalElems (rooted : Bool) : List Str → Prop
  | [] => True
  | top :: rest =>
    top ≠ [] ∧ top ≠ dot ∧ '/' ∉ top ∧ normalElems rooted rest ∧
      (top = dotdot → rooted = false ∧ ∀ e ∈ rest, e = dotdot)

/-! ## A model of the local file system

The tree is a finite table from keys to the metadata of the entry found there; a key is
the list of names leading from the root directory to the entry. Symbolic links are absent.
A path is resolved lexically against the working directory; the paths that the program
hands to the package `os` are cleaned, so that the only `..` elements stand at the start
of a path that is not rooted.
-/

/-- The place of an entry: the names from the root directory down to it. -/
abbrev Key := List Str

/-- What `os.FileInfo` reports on an entry. For a directory the size and the modification
time are those it was given at creation; the table does not follow the changes that adding
and removing entries make to them. -/
structure Info where
  isDir : Bool
  size : Int
  modTime : Time
deriving DecidableEq, Repr

/-- The local tree, with the working directory of the process and the metadata that the
system gives to a directory when it creates one. -/
structure FS where
  cwd : Key
  newDir : Info
  clock : Time
  entries : List (Key × Info)
deriving DecidableEq, Repr

/-- The entry stored under a key. -/
def lookup (k : Key) : List (Key × Info) → Option Info
  | [] => none
  | e :: rest => if e.1 = k then some e.2 else lookup k rest

/-- The table without the key. -/
def erase (k : Key) (entries : List (Key × Info)) : List (Key × Info) :=
  entries.filter (fun e => decide (e.1 ≠ k))

/-- The table with the key bound to the metadata. -/
def insert (k : Key) (i : Info) (entries : List (Key × Info)) : List (Key × Info) :=
  (k, i) :: erase k entries

/-- One element of a path during resolution, the names walked so far being held last
first. -/
def resolveStep (out : List Str) (elem : Str) : List Str :=
  if elem = [] ∨ elem = dot then out
  else if elem = dotdot then out.tail
  else elem :: out

/-- The key a path leads to; the empty path leads nowhere. -/
def resolve (cwd : Key) (path : Str) : Option Key :=
  if path = [] then none
  else some ((splitSlash path).foldl resolveStep
    (if isRooted path then [] else cwd.reverse)).reverse

/-- The function `os.Stat` (and `os.Lstat`): `none` stands for an error. -/
def Stat (fs : FS) (path : Str) : Option Info :=
  match resolve fs.cwd path with
  | none => none
  | some k => lookup k fs.entries

/-- Whether the directory holding the key exists. -/
def parentIsDir (k : Key) (entries : List (Key × Info)) : Bool :=
  match lookup k.dropLast entries with
  | some parent => parent.isDir
  | none => false

/-- The function `os.Mkdir`: `none` stands for an error. -/
def Mkdir (fs : FS) (path : Str) : Option FS :=
  match resolve fs.cwd path with
  | none => none
  | some k =>
    match lookup k fs.entries with
    | some _ => none
    | none =>
      if parentIsDir k fs.entries then
        some { fs with entries := insert k { fs.newDir with isDir := true } fs.entries }
      else none

/-- The argument `path[:j-1]` of the recursive call of `os.MkdirAll`: the path without
its trailing separators, its last element and one separator before it, when `j > 1`. -/
def mkdirAllParent (path : Str) : Option Str :=
  let rest := ((path.reverse.dropWhile (fun c => c == '/')).dropWhile (fun c => c != '/'))
  if rest.length > 1 then some rest.tail.reverse else none

/-- The function `os.MkdirAll`, its recursion bounded by `fuel`. The tree is returned also
when the call fails (`Except.error`). -/
def mkdirAllAux : Nat → FS → Str → Except FS FS
  | 0, fs, _ => .error fs
  | fuel + 1, fs, path =>
    match Stat fs path with
    | some dir => if dir.isDir then .ok fs else .error fs
    | none =>
      let made : Except FS FS :=
        match mkdirAllParent path with
        | some parent => mkdirAllAux fuel fs parent
        | none => .ok fs
      match made with
      | .error fs1 => .error fs1
      | .ok fs1 =>
        match Mkdir fs1 path with
        | some fs2 => .ok fs2
        | none =>
          match Stat fs1 path with
          | some dir => if dir.isDir then .ok fs1 else .error fs1
          | none => .error fs1

/-- The function `os.MkdirAll`; every recursive call shortens the path. -/
def MkdirAll (fs : FS) (path : Str) : Except FS FS :=
  mkdirAllAux (path.length + 1) fs path

/-- The function `ioutil.WriteFile` for data of the given length: the file is created in
an existing directory, or an existing file is overwritten. -/
def WriteFile (fs : FS) (path : Str) (len : Nat) : Option FS :=
  match resolve fs.cwd path with
  | none => none
  | some k =>
    let file : Info := { isDir := false, size := len, modTime := fs.clock }
    match lookup k fs.entries with
    | some old =>
      if old.isDir then none else some { fs with entries := insert k file fs.entries }
    | none =>
      if parentIsDir k fs.entries then some { fs with entries := insert k file fs.entries }
      else none

/-- The function `os.Chtimes`, which the program calls with equal access and modification
times. -/
def Chtimes (fs : FS) (path : Str) (mtime : Time) : Option FS :=
  match resolve fs.cwd path with
  | none => none
  | some k =>
    match lookup k fs.entries with
    | some old => some { fs with entries := insert k { old with modTime := mtime } fs.entries }
    | none => none

/-- Whether the table has an entry strictly below the key. -/
def hasEntryBelow (k : Key) (entries : List (Key × Info)) : Bool :=
  entries.any (fun e => decide (k <+: e.1) && decide (e.1 ≠ k))

/-- The function `os.Remove`: a file is removed, a directory only when it is empty. -/
def Remove (fs : FS) (path : Str) : Option FS :=
  match resolve fs.cwd path with
  | none => none
  | some k =>
    match lookup k fs.entries with
    | none => none
    | some old =>
      if old.isDir && hasEntryBelow k fs.entries then none
      else some { fs with entries := erase k fs.entries }

/-- The order in which `filepath.Walk` meets two entries: names are compared as strings,
and a directory comes before what it holds. -/
def keyLess : Key → Key → Bool
  | [], [] => false
  | [], _ :: _ => true
  | _ :: _, [] => false
  | a :: s, b :: t => strLess a b || (decide (a = b) && keyLess s t)

/-- The relation `keyLess` or equal, on the entries of the table. -/
def entryLe (a b : Key × Info) : Prop := keyLess b.1 a.1 = false

instance entryLeDecidable : DecidableRel entryLe :=
  fun a b => inferInstanceAs (Decidable (keyLess b.1 a.1 = false))

/-- The path under which `filepath.Walk` reports the entry reached from `root` through
the names: each step is `filepath.Join(path, name)`. -/
def walkPath (root : Str) (names : List Str) : Str :=
  names.foldl (fun path name => Join [path, name]) root

/-- The function `filepath.Walk` with the callback of `syncCourse`, which returns the
error it is handed: the entries visited, each with its path and metadata, or `none` when
the root cannot be read. In a tree where every entry lies in a directory, the walk visits
the root and, when it is a directory, every entry below it, in lexical order. -/
def Walk (fs : FS) (root : Str) : Option (List (Str × Info)) :=
  match resolve fs.cwd root with
  | none => none
  | some rk =>
    match lookup rk fs.entries with
    | none => none
    | some info =>
      some ((root, info) ::
        (if info.isDir then
          ((fs.entries.filter (fun e => decide (rk <+: e.1) && decide (e.1 ≠ rk))).insertionSort
            entryLe).map (fun e => (walkPath root (e.1.drop rk.length), e.2))
        else []))

/-- A name that a directory entry can bear: not empty, without separator, neither `.`
nor `..`. -/
def plainName (name : Str) : Bool :=
  decide (name ≠ []) && decide ('/' ∉ name) && decide (name ≠ dot) && decide (name ≠ dotdot)

/-- A well-formed tree: the root directory and the working directory exist, every other
entry lies in a directory of the tree, every name is one a directory entry can bear, and
no key is bound twice. -/
def wellFormed (fs : FS) : Bool :=
  (match lookup [] fs.entries with | some i => i.isDir | none => false) &&
  (match lookup fs.cwd fs.entries with | some i => i.isDir | none => false) &&
  fs.entries.all (fun e => decide (e.1 = []) || parentIsDir e.1 fs.entries) &&
  fs.entries.all (fun e => e.1.all plainName) &&
  decide ((fs.entries.map Prod.fst).Nodup)

/-! ## The remote fetcher -/

/-- The ways in which the program ends through `log.Fatal` or `log.Fatalf`. -/
inductive Fatal
  | missingToken
  | getError
  | badStatus (code : Int)
  | partialResult
  | decodeError
  | readError
  | notByteSlice
  | sizeMismatch (got : Nat) (expected : Int)
  | mkdirError (path : Str)
  | writeError
  | chtimesError
  | walkError
  | removeError (path : Str)
deriving DecidableEq, Repr

/-- What `mustFetch` reads of an HTTP response: the status code, the headers `Link` and
`Content-Type` as `Header.Get` returns them, the value that the JSON decoder stores in the
target (`none`: it reports an error) and the bytes of the body (`none`: reading fails). -/
structure Response (α : Type) where
  StatusCode : Int
  Link : Str
  ContentType : Str
  decoded : Option α
  body : Option (List Nat)

/-- The marker of a further page in the header `Link`. -/
def relNext : Str := "rel=".toList ++ ['"'] ++ "next".toList ++ ['"']

/-- The function `mustFetch`. The reply is `none` when the request cannot be built or
`Do` reports an error; `asBytes` is present when the target is a byte slice. The result is
the value left in the target, or the fatal error. -/
def mustFetch {α : Type} (token : Str) (reply : Option (Response α))
    (asBytes : Option (List Nat → α)) : Except Fatal α :=
  if token = [] then .error .missingToken
  else
    match reply with
    | none => .error .getError
    | some resp =>
      if resp.StatusCode < 200 ∨ resp.StatusCode > 299 then .error (.badStatus resp.StatusCode)
      else if contains resp.Link relNext then .error .partialResult
      else if contains resp.ContentType "application/json".toList then
        match resp.decoded with
        | some v => .ok v
        | none => .error .decodeError
      else
        match asBytes with
        | some wrap =>
          match resp.body with
          | some data => .ok (wrap data)
          | none => .error .readError
        | none => .error .notByteSlice

/-! ## The synchronisation of a course -/

/-- The globals set from the environment and the command line. -/
structure Config where
  token : Str
  directory : Str
  dry : Bool
  normalize : Bool
deriving DecidableEq, Repr

/-- The replies of the remote service to the requests of one run: for the course, for its
assignment list, for the submission list of an assignment (by assignment ID) and for the
content of an attachment (by URL). -/
structure Remote where
  course : Option (Response Course)
  assignments : Option (Response (List Assignment))
  submissions : Int → Option (Response (List Submission))
  attachment : Str → Option (Response (List Nat))

/-- What a run reports or does to the local tree, attachment by attachment and path by
path. -/
inductive Event
  | unchanged (path : Str)
  | needDownload (path : Str)
  | downloaded (path : Str)
  | needDeleteFile (path : Str)
  | deletedFile (path : Str)
  | needDeleteDir (path : Str)
  | deletedDir (path : Str)
deriving DecidableEq, Repr

/-- The state of a run: the local tree, the maps `currentDirs` and `currentFiles` (a path
is a member when it is mapped to `true`), and the events so far, oldest first. -/
structure State where
  fs : FS
  currentDirs : List Str
  currentFiles : List Str
  events : List Event
deriving DecidableEq, Repr

/-- A run ends in a state, or in a fatal error with the state reached. -/
abbrev Outcome := Except (Fatal × State) State

/-- The method `Time.Round(time.Second)`: the nearest multiple of a second, halfway values
rounded up. -/
def roundSecond (t : Time) : Time :=
  let r := t % 1000000000
  if r + r < 1000000000 then t - r else t + (1000000000 - r)

/-- The test of line 216 on the result of `os.Stat`. -/
def isUnchanged (found : Option Info) (attachment : Attachment) : Bool :=
  match found with
  | none => false
  | some info =>
    decide (info.size = attachment.Size) &&
      decide (roundSecond info.modTime = roundSecond attachment.ModifiedAt)

/-- The directory of an assignment (line 205). -/
def asstDirOf (cfg : Config) (course : Course) (asst : Assignment) : Str :=
  Join [cfg.directory, normalizeName cfg.normalize course.CourseCode,
    normalizeName cfg.normalize asst.Name]

/-- The directory of a user within an assignment (line 206). -/
def userDirOf (cfg : Config) (course : Course) (asst : Assignment) (submission : Submission) :
    Str :=
  Join [asstDirOf cfg course asst,
    normalizeName cfg.normalize (submission.User.LoginID ++ ":".toList ++ submission.User.Name)]

/-- The path of an attachment (line 207). -/
def pathOf (cfg : Config) (course : Course) (asst : Assignment) (submission : Submission)
    (attachment : Attachment) : Str :=
  Join [userDirOf cfg course asst submission, normalizeName cfg.normalize attachment.Filename]

/-- The body of the loop over the attachments of a submission (lines 203-249). -/
def processAttachment (cfg : Config) (download : Str → Except Fatal (List Nat))
    (course : Course) (asst : Assignment) (submission : Submission) (st : State)
    (attachment : Attachment) : Outcome :=
  let asstDir := asstDirOf cfg course asst
  let userDir := userDirOf cfg course asst submission
  let path := pathOf cfg course asst submission attachment
  let st : State := { st with
    currentDirs := userDir :: asstDir :: st.currentDirs
    currentFiles := path :: st.currentFiles }
  if isUnchanged (Stat st.fs path) attachment then
    .ok { st with events := st.events ++ [.unchanged path] }
  else if cfg.dry then
    .ok { st with events := st.events ++ [.needDownload path] }
  else
    match download attachment.URL with
    | .error e => .error (e, st)
    | .ok data =>
      if (data.length : Int) ≠ attachment.Size then
        .error (.sizeMismatch data.length attachment.Size, st)
      else
        match MkdirAll st.fs userDir with
        | .error fs1 => .error (.mkdirError userDir, { st with fs := fs1 })
        | .ok fs1 =>
          match WriteFile fs1 path data.length with
          | none => .error (.writeError, { st with fs := fs1 })
          | some fs2 =>
            match Chtimes fs2 path attachment.ModifiedAt with
            | none => .error (.chtimesError, { st with fs := fs2 })
            | some fs3 => .ok { st with fs := fs3, events := st.events ++ [.downloaded path] }

/-- The string `online_upload`. -/
def onlineUpload : Str := "online_upload".toList

/-- The body of the loop over the submissions of an assignment (lines 179-253). -/
def processSubmission (lowerRune : Char → Char)
    (cfg : Config) (download : Str → Except Fatal (List Nat))
    (course : Course) (terms : List Str) (asst : Assignment) (st : State)
    (submission : Submission) : Outcome :=
  match filterSkip lowerRune terms asst submission with
  | some _ => .ok st
  | none =>
    if submission.SubmissionType = onlineUpload then
      submission.Attachments.foldlM (processAttachment cfg download course asst submission) st
    else .ok st

/-- The test of lines 154-160: the assignment lists `online_upload` among its submission
types. -/
def acceptsUpload (asst : Assignment) : Bool :=
  asst.SubmissionTypes.any (fun elt => decide (elt = onlineUpload))

/-- The body of the loop over the assignments (lines 148-254). -/
def processAssignment (lowerRune : Char → Char)
    (cfg : Config) (submissionsOf : Int → Except Fatal (List Submission))
    (download : Str → Except Fatal (List Nat)) (course : Course) (terms : List Str)
    (st : State) (asst : Assignment) : Outcome :=
  if !acceptsUpload asst then .ok st
  else if !asst.HasSubmittedSubmissions then .ok st
  else
    match submissionsOf asst.ID with
    | .error e => .error (e, st)
    | .ok submissions =>
      submissions.foldlM (processSubmission lowerRune cfg download course terms asst) st

/-- The loop over the assignments (lines 148-254). -/
def planLoop (lowerRune : Char → Char)
    (cfg : Config) (submissionsOf : Int → Except Fatal (List Submission))
    (download : Str → Except Fatal (List Nat)) (course : Course) (terms : List Str)
    (st : State) (assignments : List Assignment) : Outcome :=
  assignments.foldlM (processAssignment lowerRune cfg submissionsOf download course terms) st

/-- The course root (line 257). -/
def courseRootOf (cfg : Config) (course : Course) : Str :=
  Join [cfg.directory, normalizeName cfg.normalize course.CourseCode]

/-- Line 258: the course root is a current directory. -/
def markCourseRoot (cfg : Config) (course : Course) (st : State) : State :=
  { st with currentDirs := courseRootOf cfg course :: st.currentDirs }

/-- The planning pass: the loop over the assignments, then the course root is marked
(lines 148-258). -/
def planningPass (lowerRune : Char → Char)
    (cfg : Config) (submissionsOf : Int → Except Fatal (List Submission))
    (download : Str → Except Fatal (List Nat)) (course : Course) (terms : List Str)
    (st : State) (assignments : List Assignment) : Outcome :=
  match planLoop lowerRune cfg submissionsOf download course terms st assignments with
  | .error e => .error e
  | .ok st1 => .ok (markCourseRoot cfg course st1)

/-- A removal that the pruner asks for. -/
inductive Removal
  | file (path : Str)
  | dir (path : Str)
deriving DecidableEq, Repr

/-- The path of a removal. -/
def Removal.path : Removal → Str
  | .file p => p
  | .dir p => p

/-- The order of the removals (lines 275-298): the files as the walk met them, then the
directories from the last to the first of the sorted list. -/
def removalOrder (filesToDelete dirsToDelete : List Str) : List Removal :=
  filesToDelete.map Removal.file ++ (sortStrings dirsToDelete).reverse.map Removal.dir

/-- One turn of the loops of lines 275-298. -/
def removeOne (cfg : Config) (st : State) (r : Removal) : Outcome :=
  if cfg.dry then
    .ok { st with events := st.events ++
      [match r with
        | .file p => Event.needDeleteFile p
        | .dir p => Event.needDeleteDir p] }
  else
    match Remove st.fs r.path with
    | none => .error (.removeError r.path, st)
    | some fs1 =>
      .ok { st with fs := fs1, events := st.events ++
        [match r with
          | .file p => Event.deletedFile p
          | .dir p => Event.deletedDir p] }

/-- The list `filesToDelete` collected by the callback of the walk (lines 267-268). -/
def staleFiles (st : State) (visited : List (Str × Info)) : List Str :=
  (visited.filter (fun v => !v.2.isDir && decide (v.1 ∉ st.currentFiles))).map Prod.fst

/-- The list `dirsToDelete` collected by the callback of the walk (lines 265-266). -/
def staleDirs (st : State) (visited : List (Str × Info)) : List Str :=
  (visited.filter (fun v => v.2.isDir && decide (v.1 ∉ st.currentDirs))).map Prod.fst

/-- The pruner (lines 259-298), run on the state in which the course root is marked. -/
def prunePass (cfg : Config) (course : Course) (st : State) : Outcome :=
  match Walk st.fs (courseRootOf cfg course) with
  | none => .error (.walkError, st)
  | some visited =>
    (removalOrder (staleFiles st visited) (staleDirs st visited)).foldlM (removeOne cfg) st

/-- The state in which a run starts. -/
def initialState (fs : FS) : State :=
  { fs := fs, currentDirs := [], currentFiles := [], events := [] }

/-- The function `syncCourse`, on the replies of the remote service and the local tree;
`lowerRune` is the case table that the filter consults. -/
def syncCourse (lowerRune : Char → Char)
    (cfg : Config) (remote : Remote) (terms : List Str) (fs : FS) : Outcome :=
  match mustFetch cfg.token remote.course none with
  | .error e => .error (e, initialState fs)
  | .ok course =>
    match mustFetch cfg.token remote.assignments none with
    | .error e => .error (e, initialState fs)
    | .ok assignments =>
      match planningPass lowerRune cfg (fun id => mustFetch cfg.token (remote.submissions id) none)
          (fun url => mustFetch cfg.token (remote.attachment url) (some id))
          course terms (initialState fs) assignments with
      | .error e => .error e
      | .ok st => prunePass cfg course st

/-! ## Notions used in the statements -/

/-- The state in which a run ends, normally or fatally. -/
def finalState : Outcome → State
  | .ok st => st
  | .error (_, st) => st

/-- The events that only report: nothing is written, and nothing is removed. -/
def Event.isReport : Event → Bool
  | .unchanged _ => true
  | .needDownload _ => true
  | .needDeleteFile _ => true
  | .needDeleteDir _ => true
  | .downloaded _ => false
  | .deletedFile _ => false
  | .deletedDir _ => false

/-- The attachments that the planning loop reaches: the assignment is listed, accepts
`online_upload` and has submissions, its submission list was fetched and holds the
submission, the submission passes the filter and is of type `online_upload`, and the
attachment is one of its attachments. -/
def Reached (lowerRune : Char → Char)
    (submissionsOf : Int → Except Fatal (List Submission)) (terms : List Str)
    (assignments : List Assignment) (asst : Assignment) (submission : Submission)
    (attachment : Attachment) : Prop :=
  asst ∈ assignments ∧ onlineUpload ∈ asst.SubmissionTypes ∧
    asst.HasSubmittedSubmissions = true ∧
    (∃ submissions,
      submissionsOf asst.ID = Except.ok submissions ∧ submission ∈ submissions) ∧
    filterSkip lowerRune terms asst submission = none ∧
    submission.SubmissionType = onlineUpload ∧
    attachment ∈ submission.Attachments

/-- The tree is the given one and every event so far is a report. -/
def untouched (fs : FS) (st : State) : Prop :=
  st.fs = fs ∧ ∀ e ∈ st.events, Event.isReport e = true

/-- The conditions of `wellFormed`, as propositions on the entries found by `lookup`. -/
structure WF (fs : FS) : Prop where
  root : ∃ i, lookup [] fs.entries = some i ∧ i.isDir = true
  cwd : ∃ i, lookup fs.cwd fs.entries = some i ∧ i.isDir = true
  parent : ∀ k i, lookup k fs.entries = some i → k ≠ [] → parentIsDir k fs.entries = true
  names : ∀ k i, lookup k fs.entries = some i → ∀ n ∈ k, plainName n = true
  nodup : (fs.entries.map Prod.fst).Nodup

/-- The key that the path with the given elements (last first) leads to. -/
def keyOfElems (cwd : Key) (rooted : Bool) (st : List Str) : Key :=
  (st.reverse.foldl resolveStep (if rooted then [] else cwd.reverse)).reverse

/-- Whether the course root is a rooted path. -/
def rootRooted (cfg : Config) : Bool :=
  if cfg.directory = [] then false else isRooted cfg.directory

/-- The elements of the course root, last first, when the course code is a plain name. -/
def rootElems (cfg : Config) (course : Course) : List Str :=
  normalizeName cfg.normalize course.CourseCode ::
    (if cfg.directory = [] then [] else cleanElems cfg.directory)

/-- The path of the entry reached from the course root through the names. -/
def pathUnder (cfg : Config) (course : Course) (names : List Str) : Str :=
  render (rootRooted cfg) (names.reverse ++ rootElems cfg course)

/-- The key of the course root. -/
def rootKey (cwd : Key) (cfg : Config) (course : Course) : Key :=
  keyOfElems cwd (rootRooted cfg) (rootElems cfg course)

/-- The second tree is the first with further directories, each at a key that was free and
that is allowed. -/
def Extends (allowed : Key → Prop) (fs fs1 : FS) : Prop :=
  fs1.cwd = fs.cwd ∧ fs1.newDir = fs.newDir ∧ fs1.clock = fs.clock ∧
    ∀ k, lookup k fs1.entries = lookup k fs.entries ∨
      (lookup k fs.entries = none ∧ allowed k ∧
        ∃ i, lookup k fs1.entries = some i ∧ i.isDir = true)

/-- The names that lead from the course root to the file of an attachment. -/
def namesOf (cfg : Config) (asst : Assignment) (submission : Submission)
    (attachment : Attachment) : List Str :=
  [normalizeName cfg.normalize asst.Name,
    normalizeName cfg.normalize (submission.User.LoginID ++ ":".toList ++ submission.User.Name),
    normalizeName cfg.normalize attachment.Filename]

/-- The key of the file of an attachment. -/
def keyOf (cwd : Key) (cfg : Config) (course : Course) (asst : Assignment)
    (submission : Submission) (attachment : Attachment) : Key :=
  rootKey cwd cfg course ++ namesOf cfg asst submission attachment

/-- The metadata are those of a file that the test of line 216 finds unchanged. -/
def Matches (i : Info) (attachment : Attachment) : Prop :=
  i.isDir = false ∧ i.size = attachment.Size ∧
    roundSecond i.modTime = roundSecond attachment.ModifiedAt

/-- The course code and the names of the attachments reached (assignment name, login and
user name, file name) are, once normalised, plain names. -/
def PlainNames (lowerRune : Char → Char) (cfg : Config) (course : Course)
    (submissionsOf : Int → Except Fatal (List Submission)) (terms : List Str)
    (assignments : List Assignment) : Prop :=
  plainName (normalizeName cfg.normalize course.CourseCode) = true ∧
    ∀ asst submission attachment,
      Reached lowerRune submissionsOf terms assignments asst submission attachment →
      ∀ n ∈ namesOf cfg asst submission attachment, plainName n = true

/-- The attachments reached that share a path agree in size and, to the second, in
modification time. -/
def Agree (lowerRune : Char → Char) (cfg : Config) (course : Course)
    (submissionsOf : Int → Except Fatal (List Submission)) (terms : List Str)
    (assignments : List Assignment) : Prop :=
  ∀ asst submission attachment asst1 submission1 attachment1,
    Reached lowerRune submissionsOf terms assignments asst submission attachment →
    Reached lowerRune submissionsOf terms assignments asst1 submission1 attachment1 →
    pathOf cfg course asst submission attachment =
      pathOf cfg course asst1 submission1 attachment1 →
    attachment.Size = attachment1.Size ∧
      roundSecond attachment.ModifiedAt = roundSecond attachment1.ModifiedAt

/-- No path of an attachment reached is a directory of the tree. -/
def NoDirAt (lowerRune : Char → Char) (fs : FS) (cfg : Config) (course : Course)
    (submissionsOf : Int → Except Fatal (List Submission)) (terms : List Str)
    (assignments : List Assignment) : Prop :=
  ∀ asst submission attachment,
    Reached lowerRune submissionsOf terms assignments asst submission attachment →
    ∀ i, Stat fs (pathOf cfg course asst submission attachment) = some i → i.isDir = false

/-- The invariant of the planning pass of a run that downloads: the tree is well formed,
no key of an attachment reached is a directory, and every attachment reached whose path
is in `currentFiles` has its file, with matching metadata. -/
def PlanInv (lowerRune : Char → Char) (cfg : Config) (course : Course)
    (submissionsOf : Int → Except Fatal (List Submission)) (terms : List Str)
    (assignments : List Assignment) (cwd : Key) (st : State) : Prop :=
  WF st.fs ∧ st.fs.cwd = cwd ∧
    (∀ asst submission attachment,
      Reached lowerRune submissionsOf terms assignments asst submission attachment →
      ∀ i, lookup (keyOf cwd cfg course asst submission attachment) st.fs.entries = some i →
        i.isDir = false) ∧
    (∀ asst submission attachment,
      Reached lowerRune submissionsOf terms assignments asst submission attachment →
      pathOf cfg course asst submission attachment ∈ st.currentFiles →
      ∃ i, lookup (keyOf cwd cfg course asst submission attachment) st.fs.entries = some i ∧
        Matches i attachment)

/-- The tree is the given one and every event so far reports an unchanged attachment. -/
def Idle (fs : FS) (st : State) : Prop :=
  st.fs = fs ∧ ∀ e ∈ st.events, ∃ p, e = Event.unchanged p

/-- The submission lists that `mustFetch` returns in a run. -/
def submissionsFrom (cfg : Config) (remote : Remote) (id : Int) :
    Except Fatal (List Submission) :=
  mustFetch cfg.token (remote.submissions id) none

/-- The attachment contents that `mustFetch` returns in a run. -/
def downloadFrom (cfg : Config) (remote : Remote) (url : Str) : Except Fatal (List Nat) :=
  mustFetch cfg.token (remote.attachment url) (some id)

/-! ## Example inputs -/

/-- The case table on the ASCII letters, `A` to `Z` going to `a` to `z` and every other
character to itself. The examples are stated for this table: their runs have no filter
terms, and their filter descriptions hold ASCII characters only, on which the table of
the package `unicode` is this one. -/
def asciiLower : Char → Char := Char.toLower

/-- The assignment named `Lab 1 Report`. -/
def labReport : Assignment :=
  { ID := 1, Name := "Lab 1 Report".toList, Description := [],
    SubmissionTypes := [onlineUpload], HasSubmittedSubmissions := true, Published := true }

/-- A submission of the user with login `alice99` and name `Alice Smith`. -/
def aliceSubmission : Submission :=
  { ID := 1, User := { LoginID := "alice99".toList, Name := "Alice Smith".toList,
                       ShortName := [], Email := [] },
    SubmissionType := onlineUpload, Attachments := [] }

/-- A submission of the user with login `bob` and name `Bob Jones`. -/
def bobSubmission : Submission :=
  { ID := 2, User := { LoginID := "bob".toList, Name := "Bob Jones".toList,
                       ShortName := [], Email := [] },
    SubmissionType := onlineUpload, Attachments := [] }

/-- A response with status 200 and a JSON body whose header `Link` names a further
page. -/
def pagedResponse : Response (List Assignment) :=
  { StatusCode := 200,
    Link := "<https://dixie.instructure.com/api/v1/courses/1/assignments?page=2>; ".toList ++
      relNext,
    ContentType := "application/json; charset=utf-8".toList,
    decoded := some [labReport],
    body := none }

/-- A reply with status 200 and a JSON body that decodes to the value. -/
def okJSON {α : Type} (v : α) : Option (Response α) :=
  some { StatusCode := 200, Link := [], ContentType := "application/json".toList,
         decoded := some v, body := none }

/-- A reply with status 200 whose body is `n` bytes that are not declared as JSON. -/
def okBytes (n : Nat) : Option (Response (List Nat)) :=
  some { StatusCode := 200, Link := [], ContentType := "text/plain".toList,
         decoded := none, body := some (List.replicate n 0) }

/-- The metadata of the directories of the example trees. -/
def exDirInfo : Info := { isDir := true, size := 4096, modTime := 1 }

/-- A tree that holds the root directory and the working directory `/home` only. -/
def exTree : FS :=
  { cwd := ["home".toList], newDir := exDirInfo, clock := 7,
    entries := [([], exDirInfo), (["home".toList], exDirInfo)] }

/-- A configuration: the target directory is `mirror`, spaces are replaced. -/
def exCfg : Config :=
  { token := "secret".toList, directory := "mirror".toList, dry := false, normalize := true }

/-- The configuration `exCfg` with `dry` set. -/
def exDryCfg : Config := { exCfg with dry := true }

/-- A course with the code `CS 1`. -/
def exCourse : Course :=
  { ID := 7, Name := "Computing".toList, CourseCode := "CS 1".toList, StartAt := 0, EndAt := 0 }

/-- An attachment of three bytes named `my report.txt`. -/
def exAttachment : Attachment :=
  { ID := 100, DisplayName := "my report.txt".toList, Filename := "my report.txt".toList,
    URL := "https://files/100".toList, Size := 3, ModifiedAt := 5000000000 }

/-- A submission of `alice99` with the attachment `exAttachment`. -/
def exSubmission : Submission :=
  { ID := 1, User := { LoginID := "alice99".toList, Name := "Alice Smith".toList,
                       ShortName := [], Email := [] },
    SubmissionType := onlineUpload, Attachments := [exAttachment] }

/-- A remote service with the course `exCourse`, the assignment `labReport` and the
submission `exSubmission`. -/
def exRemote : Remote :=
  { course := okJSON exCourse
    assignments := okJSON [labReport]
    submissions := fun i => if i = 1 then okJSON [exSubmission] else none
    attachment := fun _ => okBytes 3 }

/-- The submission lists that `mustFetch` returns for `exRemote`. -/
def exSubmissionsOf (i : Int) : Except Fatal (List Submission) :=
  mustFetch exCfg.token (exRemote.submissions i) none

/-- The attachment contents that `mustFetch` returns for `exRemote`. -/
def exDownload (url : Str) : Except Fatal (List Nat) :=
  mustFetch exCfg.token (exRemote.attachment url) (some id)

/-- An assignment named `Lab 1/2`: the name holds the path separator. -/
def slashAssignment : Assignment :=
  { ID := 1, Name := "Lab 1/2".toList, Description := [],
    SubmissionTypes := [onlineUpload], HasSubmittedSubmissions := true, Published := true }

/-- The remote service `exRemote` with the assignment `slashAssignment`. -/
def slashRemote : Remote := { exRemote with assignments := okJSON [slashAssignment] }

/-- An assignment named `..`. -/
def dotdotAssignment : Assignment :=
  { ID := 1, Name := "..".toList, Description := [],
    SubmissionTypes := [onlineUpload], HasSubmittedSubmissions := true, Published := true }

/-- The remote service `exRemote` with the assignment `dotdotAssignment`. -/
def dotdotRemote : Remote := { exRemote with assignments := okJSON [dotdotAssignment] }

/-- A tree that holds the target directory `/home/mirror` and in it the empty course root
`CS_1`. -/
def exRootTree : FS :=
  { exTree with entries :=
      [([], exDirInfo), (["home".toList], exDirInfo),
       (["home".toList, "mirror".toList], exDirInfo),
       (["home".toList, "mirror".toList, "CS_1".toList], exDirInfo)] }

/-- An attachment of five bytes named `my_report.txt`: its normalised name is that of
`exAttachment`. -/
def twinAttachment : Attachment :=
  { ID := 101, DisplayName := "my_report.txt".toList, Filename := "my_report.txt".toList,
    URL := "https://files/101".toList, Size := 5, ModifiedAt := 5000000000 }

/-- A submission of `alice99` with the attachments `exAttachment` and `twinAttachment`. -/
def twinSubmission : Submission :=
  { exSubmission with Attachments := [exAttachment, twinAttachment] }

/-- The remote service `exRemote` with the submission `twinSubmission`; the content of
each attachment has the size the attachment declares. -/
def twinRemote : Remote :=
  { exRemote with
    submissions := fun i => if i = 1 then okJSON [twinSubmission] else none
    attachment := fun url => if url = "https://files/100".toList then okBytes 3 else okBytes 5 }

/-- An attachment without content named `my report.txt`. -/
def emptyAttachment : Attachment := { exAttachment with Size := 0 }

/-- The remote service `exRemote` with the attachment `emptyAttachment` in place of
`exAttachment`. -/
def emptyRemote : Remote :=
  { exRemote with
    submissions := fun i =>
      if i = 1 then okJSON [{ exSubmission with Attachments := [emptyAttachment] }] else none
    attachment := fun _ => okBytes 0 }

/-- The metadata of an empty directory that the system reports with size 0, whose
modification time is that of `emptyAttachment`. -/
def exTwinDirInfo : Info := { isDir := true, size := 0, modTime := 5000000000 }

/-- A tree in which an empty directory stands where the file of `emptyAttachment`
belongs. -/
def exDirAtFileTree : FS :=
  { exTree with entries :=
      [([], exDirInfo), (["home".toList], exDirInfo),
       (["home".toList, "mirror".toList], exDirInfo),
       (["home".toList, "mirror".toList, "CS_1".toList], exDirInfo),
       (["home".toList, "mirror".toList, "CS_1".toList, "Lab_1_Report".toList], exDirInfo),
       (["home".toList, "mirror".toList, "CS_1".toList, "Lab_1_Report".toList,
         "alice99:Alice_Smith".toList], exDirInfo),
       (["home".toList, "mirror".toList, "CS_1".toList, "Lab_1_Report".toList,
         "alice99:Alice_Smith".toList, "my_report.txt".toList], exTwinDirInfo)] }

/-- A case table that, beyond the ASCII letters, sends `É` to `é` as the table of the
package `unicode` does. -/
def accentLower : Char → Char := fun c => if c = 'É' then 'é' else Char.toLower c

/-- The assignment named `ÉTUDE 1`. -/
def etudeAssignment : Assignment := { labReport with Name := "ÉTUDE 1".toList }

/-! ## Lemmas on strings -/

theorem hasPrefix_iff (s p : Str) : hasPrefix s p = true ↔ p <+: s := by
  induction s generalizing p with
  | nil =>
    cases p with
    | nil => simp [hasPrefix]
    | cons d p => simp [hasPrefix]
  | cons c s ih =>
    cases p with
    | nil => simp [hasPrefix]
    | cons d p =>
      simp only [hasPrefix, Bool.and_eq_true, beq_iff_eq, ih, List.cons_prefix_cons]
      constructor
      · rintro ⟨h1, h2⟩; exact ⟨h1.symm, h2⟩
      · rintro ⟨h1, h2⟩; exact ⟨h1.symm, h2⟩

theorem contains_iff (s sub : Str) : contains s sub = true ↔ sub <:+: s := by
  induction s with
  | nil =>
    simp only [contains, hasPrefix_iff]
    constructor
    · intro h; exact h.isInfix
    · intro h
      have := List.eq_nil_of_infix_nil h
      subst this; exact List.prefix_refl _
  | cons c s ih =>
    simp only [contains, Bool.or_eq_true, hasPrefix_iff, ih]
    rw [List.infix_cons_iff]

theorem firstMissingTerm_eq_none (desc : Str) (terms : List Str) :
    firstMissingTerm desc terms = none ↔ ∀ t ∈ terms, t <:+: desc := by
  induction terms with
  | nil => simp [firstMissingTerm]
  | cons t ts ih =>
    by_cases h : contains desc t = true
    · simp [firstMissingTerm, h, ih, (contains_iff desc t).1 h]
    · have h2 : ¬ t <:+: desc := fun hc => h ((contains_iff desc t).2 hc)
      simp [firstMissingTerm, h, h2]

/-! ## Theorems: the submission filter -/

/-- C7: whatever the case table is, a submission is processed (the filter skips nothing)
exactly when every term is a substring of the lower-cased string name, description, login,
user name, short name and email joined by commas; with no terms every submission is
processed. -/
theorem filter_processes_iff_all_terms_contained (lowerRune : Char → Char)
    (terms : List Str) (asst : Assignment) (submission : Submission) :
    (filterSkip lowerRune terms asst submission = none ↔
      ∀ t ∈ terms, t <:+: toLower lowerRune
        (asst.Name ++ ",".toList ++ asst.Description ++ ",".toList ++
          submission.User.LoginID ++ ",".toList ++ submission.User.Name ++ ",".toList ++
          submission.User.ShortName ++ ",".toList ++ submission.User.Email)) ∧
    filterSkip lowerRune [] asst submission = none := by
  refine ⟨?_, by simp [filterSkip]⟩
  unfold filterSkip
  by_cases h : terms.length > 0
  · rw [if_pos h, firstMissingTerm_eq_none]; rfl
  · have : terms = [] := List.length_eq_zero.1 (by omega)
    subst this; simp

/-! ## Theorems: the filter example -/

/-- C8, counterexample: with the terms `alice` and `lab1` the submission of `alice99` on
`Lab 1 Report` does not pass the filter. -/
theorem filter_example_alice_is_skipped :
    ¬ (filterSkip asciiLower ["alice".toList, "lab1".toList] labReport aliceSubmission = none ∧
      filterSkip asciiLower ["alice".toList, "lab1".toList] labReport bobSubmission =
        some "alice".toList) := by
  decide

/-- C8, amended: with the terms `alice` and `lab1` the submission of `alice99` on
`Lab 1 Report` is skipped, the failing term being `lab1` (the lower-cased name
`lab 1 report` holds a space); with the terms `alice` and `lab 1` it passes; the
submission of `bob` is skipped with either list, the failing term being `alice`. -/
theorem filter_example_amended :
    filterSkip asciiLower ["alice".toList, "lab1".toList] labReport aliceSubmission =
        some "lab1".toList ∧
      filterSkip asciiLower ["alice".toList, "lab 1".toList] labReport aliceSubmission = none ∧
      filterSkip asciiLower ["alice".toList, "lab1".toList] labReport bobSubmission =
        some "alice".toList ∧
      filterSkip asciiLower ["alice".toList, "lab 1".toList] labReport bobSubmission =
        some "alice".toList := by
  decide

/-! ## Theorems: the fetcher -/

/-- C6: when the header `Link` of the response contains `rel="next"`, `mustFetch` ends in
a fatal error and returns no value, whatever the token, the status code, the content type,
the body and the kind of target are. -/
theorem mustFetch_fatal_when_next_page {α : Type} (token : Str) (resp : Response α)
    (asBytes : Option (List Nat → α)) (h : contains resp.Link relNext = true) :
    (∃ e, mustFetch token (some resp) asBytes = Except.error e) ∧
      ∀ v, mustFetch token (some resp) asBytes ≠ Except.ok v := by
  have h1 : ∃ e, mustFetch token (some resp) asBytes = Except.error e := by
    unfold mustFetch
    by_cases ht : token = []
    · exact ⟨_, if_pos ht⟩
    · rw [if_neg ht]
      by_cases hs : resp.StatusCode < 200 ∨ resp.StatusCode > 299
      · exact ⟨_, if_pos hs⟩
      · simp only [if_neg hs, h, if_true]
        exact ⟨_, rfl⟩
  refine ⟨h1, ?_⟩
  obtain ⟨e, he⟩ := h1
  intro v hv
  rw [he] at hv
  cases hv

/-- C6, witness: a response with status 200 and a well-formed JSON body whose header `Link`
names a further page. -/
theorem mustFetch_fatal_when_next_page_witness :
    contains pagedResponse.Link relNext = true ∧
      (∃ e, mustFetch "token".toList (some pagedResponse) none = Except.error e) ∧
      ∀ v, mustFetch "token".toList (some pagedResponse) none ≠ Except.ok v :=
  ⟨by decide, mustFetch_fatal_when_next_page "token".toList pagedResponse none (by decide)⟩

/-! ## Lemmas on the order of strings -/

theorem strLess_irrefl (a : Str) : strLess a a = false := by
  induction a with
  | nil => rfl
  | cons c s ih => simp [strLess, ih]

theorem strLess_trans : ∀ (a b c : Str), strLess a b = true → strLess b c = true →
    strLess a c = true
  | [], [], _, h, _ => by simp [strLess] at h
  | [], _ :: _, [], _, h => by simp [strLess] at h
  | [], _ :: _, _ :: _, _, _ => by simp [strLess]
  | _ :: _, [], _, h, _ => by simp [strLess] at h
  | _ :: _, _ :: _, [], _, h => by simp [strLess] at h
  | x :: a, y :: b, z :: c, h1, h2 => by
    simp only [strLess, Bool.or_eq_true, decide_eq_true_eq, Bool.and_eq_true, beq_iff_eq] at *
    rcases h1 with h1 | ⟨rfl, h1⟩
    · rcases h2 with h2 | ⟨rfl, h2⟩
      · exact Or.inl (lt_trans h1 h2)
      · exact Or.inl h1
    · rcases h2 with h2 | ⟨rfl, h2⟩
      · exact Or.inl h2
      · exact Or.inr ⟨rfl, strLess_trans a b c h1 h2⟩

theorem strLess_connex : ∀ (a b : Str), strLess a b = false → strLess b a = false → a = b
  | [], [], _, _ => rfl
  | [], _ :: _, h, _ => by simp [strLess] at h
  | _ :: _, [], _, h => by simp [strLess] at h
  | x :: a, y :: b, h1, h2 => by
    simp only [strLess, Bool.or_eq_false_iff, decide_eq_false_iff_not, Bool.and_eq_false_imp,
      beq_iff_eq] at *
    have hxy : x = y := le_antisymm (not_lt.1 h2.1) (not_lt.1 h1.1)
    subst hxy
    rw [strLess_connex a b (h1.2 rfl) (h2.2 rfl)]

theorem strLess_asymm (a b : Str) (h : strLess a b = true) : strLess b a = false := by
  cases hb : strLess b a with
  | false => rfl
  | true =>
    have := strLess_trans a b a h hb
    rw [strLess_irrefl] at this
    exact absurd this (by simp)

theorem strLe_total : IsTotal Str strLe := ⟨fun a b => by
  unfold strLe
  cases h : strLess b a with
  | false => exact Or.inl rfl
  | true => exact Or.inr (strLess_asymm b a h)⟩

theorem strLe_trans : IsTrans Str strLe := ⟨fun a b c h1 h2 => by
  unfold strLe at *
  cases h : strLess c a with
  | false => rfl
  | true =>
    cases h3 : strLess a b with
    | false =>
      have := strLess_connex a b h3 h1
      subst this
      rw [h] at h2
      exact absurd h2 (by simp)
    | true =>
      have := strLess_trans c a b h h3
      rw [this] at h2
      exact absurd h2 (by simp)⟩

theorem sorted_sortStrings (l : List Str) : (sortStrings l).Sorted strLe :=
  @List.sorted_insertionSort Str strLe strLeDecidable strLe_total strLe_trans l

theorem mem_sortStrings (l : List Str) (x : Str) : x ∈ sortStrings l ↔ x ∈ l :=
  (List.perm_insertionSort strLe l).mem_iff

theorem strLess_append_right : ∀ (p more : Str), more ≠ [] → strLess p (p ++ more) = true
  | [], [], h => absurd rfl h
  | [], _ :: _, _ => rfl
  | c :: p, more, h => by simp [strLess, strLess_append_right p more h]

/-- In the reversed sorted list, a string stands before every string it is greater
than. -/
theorem index_lt_of_strLess_in_reverse_sorted (l : List Str) (p q : Str) (i j : Nat)
    (hpq : strLess p q = true) (hi : (sortStrings l).reverse[i]? = some p)
    (hj : (sortStrings l).reverse[j]? = some q) : j < i := by
  have hs : (sortStrings l).reverse.Pairwise (fun a b => strLe b a) :=
    List.pairwise_reverse.2 (sorted_sortStrings l)
  rw [List.pairwise_iff_getElem] at hs
  obtain ⟨hi1, hi2⟩ := List.getElem?_eq_some.1 hi
  obtain ⟨hj1, hj2⟩ := List.getElem?_eq_some.1 hj
  by_contra hlt
  rcases Nat.lt_or_eq_of_le (not_lt.1 hlt) with h | h
  · have := hs i j hi1 hj1 h
    rw [hi2, hj2] at this
    unfold strLe at this
    rw [hpq] at this
    exact absurd this (by simp)
  · subst h
    rw [hi2] at hj2
    subst hj2
    rw [strLess_irrefl] at hpq
    exact absurd hpq (by simp)

/-! ## Theorems: the order of the removals -/

/-- C4: in the order in which the pruner removes the stale paths, a directory whose path
is the path of another stale directory followed by the separator and further characters
is removed before that other directory, and every stale file is removed before every
directory. -/
theorem removalOrder_descendants_first_files_before_dirs
    (filesToDelete dirsToDelete : List Str) :
    (∀ (p q more : Str) (i j : Nat), q = p ++ '/' :: more →
      (removalOrder filesToDelete dirsToDelete)[i]? = some (Removal.dir p) →
      (removalOrder filesToDelete dirsToDelete)[j]? = some (Removal.dir q) → j < i) ∧
    (∀ (f d : Str) (i j : Nat),
      (removalOrder filesToDelete dirsToDelete)[i]? = some (Removal.file f) →
      (removalOrder filesToDelete dirsToDelete)[j]? = some (Removal.dir d) → i < j) := by
  have key : ∀ (x : Str) (n : Nat),
      (removalOrder filesToDelete dirsToDelete)[n]? = some (Removal.dir x) →
      filesToDelete.length ≤ n ∧
        (sortStrings dirsToDelete).reverse[n - filesToDelete.length]? = some x := by
    intro x n h
    unfold removalOrder at h
    by_cases hn : n < (filesToDelete.map Removal.file).length
    · rw [List.getElem?_append_left hn, List.getElem?_map] at h
      cases hf : filesToDelete[n]? with
      | none => rw [hf] at h; simp at h
      | some y => rw [hf] at h; simp at h
    · have hn2 : (filesToDelete.map Removal.file).length ≤ n := not_lt.1 hn
      rw [List.getElem?_append_right hn2, List.getElem?_map] at h
      rw [List.length_map] at hn2 h
      refine ⟨hn2, ?_⟩
      cases hd : (sortStrings dirsToDelete).reverse[n - filesToDelete.length]? with
      | none => rw [hd] at h; simp at h
      | some y =>
        rw [hd] at h
        simp only [Option.map_some', Option.some.injEq, Removal.dir.injEq] at h
        rw [h]
  constructor
  · intro p q more i j hq hi hj
    obtain ⟨hi1, hi2⟩ := key p i hi
    obtain ⟨hj1, hj2⟩ := key q j hj
    have hpq : strLess p q = true := by
      rw [hq]; exact strLess_append_right p _ (by simp)
    have := index_lt_of_strLess_in_reverse_sorted dirsToDelete p q _ _ hpq hi2 hj2
    omega
  · intro f d i j hi hj
    obtain ⟨hj1, _⟩ := key d j hj
    by_contra hlt
    have hi2 : (filesToDelete.map Removal.file).length ≤ i := by
      rw [List.length_map]; omega
    unfold removalOrder at hi
    rw [List.getElem?_append_right hi2, List.getElem?_map] at hi
    cases hd : (sortStrings dirsToDelete).reverse[i - (filesToDelete.map Removal.file).length]? with
    | none => rw [hd] at hi; simp at hi
    | some y => rw [hd] at hi; simp at hi

/-- C4, witness: the stale file `root/old.txt` and the stale directories `root/A` and
`root/A/B`. -/
theorem removalOrder_descendants_first_files_before_dirs_witness :
    (removalOrder ["root/old.txt".toList] ["root/A".toList, "root/A/B".toList])[2]? =
        some (Removal.dir "root/A".toList) ∧
      (removalOrder ["root/old.txt".toList] ["root/A".toList, "root/A/B".toList])[1]? =
        some (Removal.dir "root/A/B".toList) ∧
      1 < 2 :=
  ⟨by decide, by decide,
    (removalOrder_descendants_first_files_before_dirs ["root/old.txt".toList]
      ["root/A".toList, "root/A/B".toList]).1 "root/A".toList "root/A/B".toList "B".toList 2 1
      (by decide) (by decide) (by decide)⟩

/-! ## Lemmas on paths -/

theorem splitSlash_ne_nil (s : Str) : splitSlash s ≠ [] := by
  induction s with
  | nil => simp [splitSlash]
  | cons c s ih =>
    unfold splitSlash
    split
    · simp
    · split
      · simp
      · simp

theorem splitSlash_append_slash (a y : Str) :
    splitSlash (a ++ '/' :: y) = splitSlash a ++ splitSlash y := by
  induction a with
  | nil => simp [splitSlash]
  | cons c a ih =>
    by_cases hc : c = '/'
    · simp [splitSlash, hc, ih]
    · cases h : splitSlash a with
      | nil => exact absurd h (splitSlash_ne_nil a)
      | cons x xs =>
        have e1 : splitSlash (c :: (a ++ '/' :: y)) =
            (match splitSlash (a ++ '/' :: y) with
              | [] => [[c]]
              | h :: t => (c :: h) :: t) := by
          rw [splitSlash, if_neg hc]
        have e2 : splitSlash (c :: a) =
            (match splitSlash a with
              | [] => [[c]]
              | h :: t => (c :: h) :: t) := by
          rw [splitSlash, if_neg hc]
        rw [List.cons_append, e1, e2, ih, h]
        rfl

theorem splitSlash_of_not_mem (s : Str) (h : '/' ∉ s) : splitSlash s = [s] := by
  induction s with
  | nil => rfl
  | cons c s ih =>
    have hc : c ≠ '/' := fun e => h (by simp [e])
    have hs : '/' ∉ s := fun e => h (by simp [e])
    simp [splitSlash, hc, ih hs]

theorem not_mem_of_mem_splitSlash (s e : Str) (h : e ∈ splitSlash s) : '/' ∉ e := by
  induction s generalizing e with
  | nil =>
    simp [splitSlash] at h
    subst h; simp
  | cons c s ih =>
    unfold splitSlash at h
    by_cases hc : c = '/'
    · rw [if_pos hc] at h
      rcases List.mem_cons.1 h with h | h
      · subst h; simp
      · exact ih e h
    · rw [if_neg hc] at h
      cases hs : splitSlash s with
      | nil => exact absurd hs (splitSlash_ne_nil s)
      | cons x xs =>
        rw [hs] at h
        simp only [List.mem_cons] at h
        rcases h with h | h
        · subst h
          have hx := ih x (by rw [hs]; simp)
          intro hm
          rcases List.mem_cons.1 hm with hm | hm
          · exact hc hm.symm
          · exact hx hm
        · exact ih e (by rw [hs]; simp [h])

theorem intercalate_cons_cons (x y : Str) (ys : List Str) :
    List.intercalate ['/'] (x :: y :: ys) = x ++ '/' :: List.intercalate ['/'] (y :: ys) := by
  simp [List.intercalate, List.intersperse, List.flatten]

theorem splitSlash_intercalate (l : List Str) (hne : l ≠ []) (h : ∀ e ∈ l, '/' ∉ e) :
    splitSlash (List.intercalate ['/'] l) = l := by
  induction l with
  | nil => exact absurd rfl hne
  | cons x xs ih =>
    cases xs with
    | nil =>
      simp only [List.intercalate, List.intersperse, List.flatten, List.append_nil]
      exact splitSlash_of_not_mem x (h x (by simp))
    | cons y ys =>
      rw [intercalate_cons_cons, splitSlash_append_slash,
        splitSlash_of_not_mem x (h x (by simp)),
        ih (by simp) (fun e he => h e (by simp [he]))]
      rfl

theorem intercalate_concat (l : List Str) (hne : l ≠ []) (s : Str) :
    List.intercalate ['/'] (l ++ [s]) = List.intercalate ['/'] l ++ '/' :: s := by
  induction l with
  | nil => exact absurd rfl hne
  | cons x xs ih =>
    cases xs with
    | nil => simp [List.intercalate, List.intersperse, List.flatten]
    | cons y ys =>
      have := ih (by simp)
      simp only [List.cons_append] at this ⊢
      rw [intercalate_cons_cons, this, intercalate_cons_cons]
      simp

/-! ## Lemmas on `Clean` and `Join` -/

theorem cleanStep_normal (r : Bool) (out : List Str) (e : Str) (hn : normalElems r out)
    (he : '/' ∉ e) : normalElems r (cleanStep r out e) := by
  unfold cleanStep
  by_cases h1 : e = [] ∨ e = dot
  · rw [if_pos h1]; exact hn
  · rw [if_neg h1]
    push_neg at h1
    by_cases h2 : e = dotdot
    · rw [if_pos h2]
      cases out with
      | nil =>
        cases r with
        | true => simp [normalElems]
        | false => simp [normalElems, dotdot, dot]
      | cons top rest =>
        obtain ⟨a1, a2, a3, a4, a5⟩ := hn
        by_cases h3 : top = dotdot
        · simp only [if_pos h3]
          obtain ⟨b1, b2⟩ := a5 h3
          refine ⟨by simp [dotdot], by simp [dotdot, dot], by simp [dotdot],
            ⟨a1, a2, a3, a4, a5⟩, fun _ => ⟨b1, ?_⟩⟩
          intro x hx
          rcases List.mem_cons.1 hx with hx | hx
          · rw [hx, h3]
          · exact b2 x hx
        · simp only [if_neg h3]
          exact a4
    · rw [if_neg h2]
      exact ⟨h1.1, h1.2, he, hn, fun h => absurd h h2⟩

theorem foldl_cleanStep_normal (r : Bool) (l : List Str) (out : List Str)
    (hl : ∀ e ∈ l, '/' ∉ e) (hn : normalElems r out) :
    normalElems r (l.foldl (cleanStep r) out) := by
  induction l generalizing out with
  | nil => exact hn
  | cons e l ih =>
    exact ih _ (fun x hx => hl x (by simp [hx])) (cleanStep_normal r out e hn (hl e (by simp)))

theorem cleanElems_normal (x : Str) : normalElems (isRooted x) (cleanElems x) :=
  foldl_cleanStep_normal _ _ _ (fun e he => not_mem_of_mem_splitSlash x e he) trivial

theorem normalElems_no_slash (r : Bool) (st : List Str) (hn : normalElems r st) :
    ∀ e ∈ st, '/' ∉ e := by
  induction st with
  | nil => simp
  | cons top rest ih =>
    obtain ⟨_, _, a3, a4, _⟩ := hn
    intro e he
    rcases List.mem_cons.1 he with he | he
    · rw [he]; exact a3
    · exact ih a4 e he

theorem foldl_cleanStep_reverse (r : Bool) (st : List Str) (hn : normalElems r st) :
    st.reverse.foldl (cleanStep r) [] = st := by
  induction st with
  | nil => rfl
  | cons top rest ih =>
    obtain ⟨a1, a2, _, a4, a5⟩ := hn
    rw [List.reverse_cons, List.foldl_append, ih a4]
    simp only [List.foldl_cons, List.foldl_nil]
    unfold cleanStep
    rw [if_neg (by push_neg; exact ⟨a1, a2⟩)]
    by_cases h2 : top = dotdot
    · rw [if_pos h2]
      obtain ⟨b1, b2⟩ := a5 h2
      cases rest with
      | nil => simp [b1, h2]
      | cons y ys =>
        have hy : y = dotdot := b2 y (by simp)
        simp [hy, h2]
    · rw [if_neg h2]

theorem intercalate_ne_nil (l : List Str) (hne : l ≠ []) (h : ∀ e ∈ l, e ≠ []) :
    List.intercalate ['/'] l ≠ [] := by
  cases l with
  | nil => exact absurd rfl hne
  | cons x xs =>
    cases xs with
    | nil =>
      simp only [List.intercalate, List.intersperse, List.flatten, List.append_nil]
      exact h x (by simp)
    | cons y ys =>
      rw [intercalate_cons_cons]
      have := h x (by simp)
      simp [this]

theorem isRooted_append (a b : Str) (ha : a ≠ []) : isRooted (a ++ b) = isRooted a := by
  cases a with
  | nil => exact absurd rfl ha
  | cons c a => rfl

theorem isRooted_intercalate (l : List Str) (x : Str) (hx : x ≠ []) (hs : '/' ∉ x) :
    isRooted (List.intercalate ['/'] (x :: l)) = false := by
  have h1 : isRooted x = false := by
    cases x with
    | nil => exact absurd rfl hx
    | cons c x =>
      have : c ≠ '/' := fun e => hs (by simp [e])
      simp [isRooted, this]
  cases l with
  | nil =>
    simp only [List.intercalate, List.intersperse, List.flatten, List.append_nil]
    exact h1
  | cons y ys =>
    rw [intercalate_cons_cons, isRooted_append _ _ hx, h1]

theorem normalElems_ne_nil (r : Bool) (st : List Str) (hn : normalElems r st) :
    ∀ e ∈ st, e ≠ [] := by
  induction st with
  | nil => simp
  | cons top rest ih =>
    obtain ⟨a1, _, _, a4, _⟩ := hn
    intro e he
    rcases List.mem_cons.1 he with he | he
    · rw [he]; exact a1
    · exact ih a4 e he

theorem render_ne_nil (r : Bool) (st : List Str) (hn : normalElems r st) :
    render r st ≠ [] := by
  unfold render
  cases r with
  | true => simp
  | false =>
    by_cases h : st = []
    · simp [h, dot]
    · simp only [Bool.false_eq_true, if_false, if_neg h]
      exact intercalate_ne_nil _ (by simpa using h)
        (fun e he => normalElems_ne_nil _ st hn e (by simpa using he))

theorem isRooted_render (r : Bool) (st : List Str) (hn : normalElems r st) :
    isRooted (render r st) = r := by
  unfold render
  cases r with
  | true => simp [isRooted]
  | false =>
    by_cases h : st = []
    · simp [h, dot, isRooted]
    · simp only [Bool.false_eq_true, if_false, if_neg h]
      cases hrev : st.reverse with
      | nil => simp at hrev; exact absurd hrev h
      | cons x xs =>
        have hx : x ∈ st := by
          have : x ∈ st.reverse := by rw [hrev]; simp
          simpa using this
        exact isRooted_intercalate xs x (normalElems_ne_nil _ st hn x hx)
          (normalElems_no_slash _ st hn x hx)

theorem splitSlash_render_foldl (r : Bool) (st : List Str) (hn : normalElems r st) :
    (splitSlash (render r st)).foldl (cleanStep r) [] = st := by
  have hrev : ∀ e ∈ st.reverse, '/' ∉ e :=
    fun e he => normalElems_no_slash r st hn e (by simpa using he)
  unfold render
  cases r with
  | true =>
    simp only [if_true]
    by_cases h : st = []
    · subst h
      simp [splitSlash, List.intercalate, cleanStep]
    · have e1 : splitSlash ('/' :: List.intercalate ['/'] st.reverse) =
          [] :: splitSlash (List.intercalate ['/'] st.reverse) := by
        rw [splitSlash, if_pos rfl]
      rw [e1, splitSlash_intercalate _ (by simpa using h) hrev, List.foldl_cons]
      have : cleanStep true [] [] = [] := by simp [cleanStep]
      rw [this]
      exact foldl_cleanStep_reverse true st hn
  | false =>
    by_cases h : st = []
    · subst h
      simp [splitSlash, dot, cleanStep]
    · simp only [Bool.false_eq_true, if_false, if_neg h]
      rw [splitSlash_intercalate _ (by simpa using h) hrev]
      exact foldl_cleanStep_reverse false st hn

theorem Clean_ne_nil (x : Str) : Clean x ≠ [] := by
  unfold Clean
  by_cases h : x = []
  · simp [h, dot]
  · rw [if_neg h]
    exact render_ne_nil _ _ (cleanElems_normal x)

theorem isRooted_Clean (x : Str) (h : x ≠ []) : isRooted (Clean x) = isRooted x := by
  unfold Clean
  rw [if_neg h]
  exact isRooted_render _ _ (cleanElems_normal x)

theorem cleanElems_Clean (x : Str) (h : x ≠ []) : cleanElems (Clean x) = cleanElems x := by
  have h1 := isRooted_Clean x h
  unfold cleanElems
  rw [h1]
  unfold Clean
  rw [if_neg h]
  exact splitSlash_render_foldl _ _ (cleanElems_normal x)

theorem Clean_of_ne (x : Str) (h : x ≠ []) : Clean x = render (isRooted x) (cleanElems x) := by
  unfold Clean
  rw [if_neg h]

theorem Clean_idem (x : Str) : Clean (Clean x) = Clean x := by
  by_cases h : x = []
  · subst h; decide
  · rw [Clean_of_ne (Clean x) (Clean_ne_nil x), isRooted_Clean x h, cleanElems_Clean x h,
      Clean_of_ne x h]

theorem cleanElems_append_slash (a y : Str) (ha : a ≠ []) :
    cleanElems (a ++ '/' :: y) =
      (splitSlash y).foldl (cleanStep (isRooted a)) (cleanElems a) := by
  unfold cleanElems
  rw [isRooted_append _ _ ha, splitSlash_append_slash, List.foldl_append]

theorem Clean_append_slash (x y : Str) (h : x ≠ []) :
    Clean (Clean x ++ '/' :: y) = Clean (x ++ '/' :: y) := by
  have h2 := Clean_ne_nil x
  rw [Clean_of_ne (Clean x ++ '/' :: y) (by simp [h2]), Clean_of_ne (x ++ '/' :: y) (by simp [h]),
    cleanElems_append_slash _ _ h, isRooted_append _ _ h,
    cleanElems_append_slash _ _ h2, isRooted_append _ _ h2, isRooted_Clean x h,
    cleanElems_Clean x h]

theorem Join_cons_nil (l : List Str) : Join ([] :: l) = Join l := by
  simp [Join]

theorem Join_cons_of_ne (x : Str) (l : List Str) (h : x ≠ []) :
    Join (x :: l) = Clean (List.intercalate ['/'] (x :: l)) := by
  simp [Join, h]

theorem intercalate_append (l1 l2 : List Str) (h1 : l1 ≠ []) (h2 : l2 ≠ []) :
    List.intercalate ['/'] (l1 ++ l2) =
      List.intercalate ['/'] l1 ++ '/' :: List.intercalate ['/'] l2 := by
  induction l1 with
  | nil => exact absurd rfl h1
  | cons x xs ih =>
    cases xs with
    | nil =>
      cases l2 with
      | nil => exact absurd rfl h2
      | cons y ys =>
        simp only [List.cons_append, List.nil_append]
        rw [intercalate_cons_cons]
        simp [List.intercalate, List.intersperse, List.flatten]
    | cons y ys =>
      have := ih (by simp)
      simp only [List.cons_append] at this ⊢
      rw [intercalate_cons_cons, this, intercalate_cons_cons]
      simp

theorem intercalate_cons_ne_nil (x : Str) (l : List Str) (h : x ≠ []) :
    List.intercalate ['/'] (x :: l) ≠ [] := by
  cases l with
  | nil =>
    simp only [List.intercalate, List.intersperse, List.flatten, List.append_nil]
    exact h
  | cons y ys =>
    rw [intercalate_cons_cons]
    simp [h]

/-- Joining in two steps gives the same path as joining at once. -/
theorem Join_Join (xs ys : List Str) : Join (Join xs :: ys) = Join (xs ++ ys) := by
  induction xs with
  | nil => simp [Join]
  | cons x xs ih =>
    by_cases hx : x = []
    · subst hx
      rw [Join_cons_nil, List.cons_append, Join_cons_nil]
      exact ih
    · rw [Join_cons_of_ne x xs hx, List.cons_append, Join_cons_of_ne x (xs ++ ys) hx,
        Join_cons_of_ne _ ys (Clean_ne_nil _)]
      cases ys with
      | nil =>
        simp only [List.append_nil]
        have : List.intercalate ['/'] [Clean (List.intercalate ['/'] (x :: xs))] =
            Clean (List.intercalate ['/'] (x :: xs)) := by
          simp [List.intercalate, List.intersperse, List.flatten]
        rw [this, Clean_idem]
      | cons y ys =>
        rw [intercalate_cons_cons]
        have := intercalate_append (x :: xs) (y :: ys) (by simp) (by simp)
        simp only [List.cons_append] at this
        rw [this]
        exact Clean_append_slash _ _ (intercalate_cons_ne_nil x xs hx)

theorem userDirOf_eq (cfg : Config) (course : Course) (asst : Assignment)
    (submission : Submission) :
    userDirOf cfg course asst submission =
      Join [cfg.directory, normalizeName cfg.normalize course.CourseCode,
        normalizeName cfg.normalize asst.Name,
        normalizeName cfg.normalize
          (submission.User.LoginID ++ ":".toList ++ submission.User.Name)] := by
  unfold userDirOf asstDirOf
  rw [Join_Join]
  rfl

theorem pathOf_eq (cfg : Config) (course : Course) (asst : Assignment)
    (submission : Submission) (attachment : Attachment) :
    pathOf cfg course asst submission attachment =
      Join [cfg.directory, normalizeName cfg.normalize course.CourseCode,
        normalizeName cfg.normalize asst.Name,
        normalizeName cfg.normalize
          (submission.User.LoginID ++ ":".toList ++ submission.User.Name),
        normalizeName cfg.normalize attachment.Filename] := by
  unfold pathOf
  rw [userDirOf_eq, Join_Join]
  rfl

/-! ## Lemmas on the loops -/

theorem foldlM_cons_ok {β : Type} (f : State → β → Outcome) (b : β) (l : List β)
    (st st1 : State) (h : f st b = Except.ok st1) :
    (b :: l).foldlM f st = l.foldlM f st1 := by
  rw [List.foldlM_cons, h]
  rfl

theorem foldlM_cons_error {β : Type} (f : State → β → Outcome) (b : β) (l : List β)
    (st : State) (e : Fatal × State) (h : f st b = Except.error e) :
    (b :: l).foldlM f st = Except.error e := by
  rw [List.foldlM_cons, h]
  rfl

theorem foldlM_nil_ok {β : Type} (f : State → β → Outcome) (st : State) :
    ([] : List β).foldlM f st = Except.ok st := rfl

/-- A property of the state that every turn of a loop keeps, also when the turn ends
fatally, holds when the loop ends. -/
theorem foldlM_preserves {β : Type} (P : State → Prop) (f : State → β → Outcome)
    (hf : ∀ st b, P st → P (finalState (f st b))) (l : List β) (st : State) (h : P st) :
    P (finalState (l.foldlM f st)) := by
  induction l generalizing st with
  | nil => exact h
  | cons b l ih =>
    cases hb : f st b with
    | error e =>
      rw [foldlM_cons_error f b l st e hb]
      have := hf st b h
      rw [hb] at this
      exact this
    | ok st1 =>
      rw [foldlM_cons_ok f b l st st1 hb]
      have := hf st b h
      rw [hb] at this
      exact ih st1 this

/-- Membership in a list of the state that every turn of a loop extends. -/
theorem foldlM_mem {β : Type} (proj : State → List Str) (f : State → β → Outcome)
    (Q : β → Str → Prop)
    (hf : ∀ st b st1, f st b = Except.ok st1 →
      ∀ p, p ∈ proj st1 ↔ p ∈ proj st ∨ Q b p)
    (l : List β) (st st1 : State) (h : l.foldlM f st = Except.ok st1) (p : Str) :
    p ∈ proj st1 ↔ p ∈ proj st ∨ ∃ b ∈ l, Q b p := by
  induction l generalizing st with
  | nil =>
    rw [foldlM_nil_ok] at h
    cases h
    simp
  | cons b l ih =>
    cases hb : f st b with
    | error e =>
      rw [foldlM_cons_error f b l st e hb] at h
      cases h
    | ok st2 =>
      rw [foldlM_cons_ok f b l st st2 hb] at h
      rw [ih st2 h, hf st b st2 hb p]
      simp only [List.mem_cons, exists_eq_or_imp]
      tauto

/-! ## Theorems: the live sets -/

theorem processAttachment_sets (cfg : Config) (download : Str → Except Fatal (List Nat))
    (course : Course) (asst : Assignment) (submission : Submission) (st st1 : State)
    (attachment : Attachment)
    (h : processAttachment cfg download course asst submission st attachment = Except.ok st1) :
    st1.currentFiles = pathOf cfg course asst submission attachment :: st.currentFiles ∧
      st1.currentDirs =
        userDirOf cfg course asst submission :: asstDirOf cfg course asst :: st.currentDirs := by
  unfold processAttachment at h
  simp only at h
  split at h
  · cases h; exact ⟨rfl, rfl⟩
  · split at h
    · cases h; exact ⟨rfl, rfl⟩
    · split at h
      · cases h
      · split at h
        · cases h
        · split at h
          · cases h
          · split at h
            · cases h
            · split at h
              · cases h
              · cases h; exact ⟨rfl, rfl⟩

theorem acceptsUpload_iff (asst : Assignment) :
    acceptsUpload asst = true ↔ onlineUpload ∈ asst.SubmissionTypes := by
  unfold acceptsUpload
  simp [List.any_eq_true]

theorem processSubmission_mem {lowerRune : Char → Char} (proj : State → List Str)
    (Q : Assignment → Submission → Attachment → Str → Prop)
    (cfg : Config) (download : Str → Except Fatal (List Nat)) (course : Course)
    (terms : List Str) (asst : Assignment)
    (hQ : ∀ submission st attachment st1,
      processAttachment cfg download course asst submission st attachment = Except.ok st1 →
      ∀ p, p ∈ proj st1 ↔ p ∈ proj st ∨ Q asst submission attachment p)
    (st st1 : State) (submission : Submission)
    (h : processSubmission lowerRune cfg download course terms asst st submission = Except.ok st1)
    (p : Str) :
    p ∈ proj st1 ↔ p ∈ proj st ∨
      (filterSkip lowerRune terms asst submission = none ∧ submission.SubmissionType = onlineUpload
          ∧
        ∃ attachment ∈ submission.Attachments, Q asst submission attachment p) := by
  unfold processSubmission at h
  split at h
  · cases h
    rename_i t ht
    simp [ht]
  · rename_i ht
    split at h
    · rename_i hty
      rw [foldlM_mem proj _ (Q asst submission) (hQ submission) _ _ _ h p]
      simp [ht, hty]
    · rename_i hty
      cases h
      simp [hty]

theorem processAssignment_mem {lowerRune : Char → Char} (proj : State → List Str)
    (Q : Assignment → Submission → Attachment → Str → Prop)
    (cfg : Config) (submissionsOf : Int → Except Fatal (List Submission))
    (download : Str → Except Fatal (List Nat)) (course : Course) (terms : List Str)
    (hQ : ∀ asst submission st attachment st1,
      processAttachment cfg download course asst submission st attachment = Except.ok st1 →
      ∀ p, p ∈ proj st1 ↔ p ∈ proj st ∨ Q asst submission attachment p)
    (st st1 : State) (asst : Assignment)
    (h : processAssignment lowerRune cfg submissionsOf download course terms st asst = Except.ok
        st1)
    (p : Str) :
    p ∈ proj st1 ↔ p ∈ proj st ∨
      (onlineUpload ∈ asst.SubmissionTypes ∧ asst.HasSubmittedSubmissions = true ∧
        ∃ submissions, submissionsOf asst.ID = Except.ok submissions ∧
          ∃ submission ∈ submissions, filterSkip lowerRune terms asst submission = none ∧
            submission.SubmissionType = onlineUpload ∧
            ∃ attachment ∈ submission.Attachments, Q asst submission attachment p) := by
  unfold processAssignment at h
  split at h
  · rename_i hu
    cases h
    have : ¬ onlineUpload ∈ asst.SubmissionTypes := by
      rw [← acceptsUpload_iff]; simpa using hu
    simp [this]
  · rename_i hu
    have hu2 : onlineUpload ∈ asst.SubmissionTypes := by
      rw [← acceptsUpload_iff]; simpa using hu
    split at h
    · rename_i hs
      cases h
      have : asst.HasSubmittedSubmissions = false := by simpa using hs
      simp [this]
    · rename_i hs
      have hs2 : asst.HasSubmittedSubmissions = true := by simpa using hs
      split at h
      · cases h
      · rename_i submissions hsub
        rw [foldlM_mem proj _ _
          (fun st b st1 hb p => processSubmission_mem proj Q cfg download course terms asst
            (hQ asst) st st1 b hb p) _ _ _ h p]
        simp [hu2, hs2, hsub]

theorem planLoop_mem {lowerRune : Char → Char} (proj : State → List Str)
    (Q : Assignment → Submission → Attachment → Str → Prop)
    (cfg : Config) (submissionsOf : Int → Except Fatal (List Submission))
    (download : Str → Except Fatal (List Nat)) (course : Course) (terms : List Str)
    (hQ : ∀ asst submission st attachment st1,
      processAttachment cfg download course asst submission st attachment = Except.ok st1 →
      ∀ p, p ∈ proj st1 ↔ p ∈ proj st ∨ Q asst submission attachment p)
    (st st1 : State) (assignments : List Assignment)
    (h : planLoop lowerRune cfg submissionsOf download course terms st assignments = Except.ok st1)
    (p : Str) :
    p ∈ proj st1 ↔ p ∈ proj st ∨
      ∃ asst submission attachment,
        Reached lowerRune submissionsOf terms assignments asst submission attachment ∧
          Q asst submission attachment p := by
  unfold planLoop at h
  rw [foldlM_mem proj _ _
    (fun st b st1 hb p => processAssignment_mem proj Q cfg submissionsOf download course terms
      hQ st st1 b hb p) _ _ _ h p]
  unfold Reached
  constructor
  · rintro (h1 | ⟨asst, ha, h2, h3, subs, h4, sub, h5, h6, h7, att, h8, h9⟩)
    · exact Or.inl h1
    · exact Or.inr ⟨asst, sub, att, ⟨ha, h2, h3, ⟨subs, h4, h5⟩, h6, h7, h8⟩, h9⟩
  · rintro (h1 | ⟨asst, sub, att, ⟨ha, h2, h3, ⟨subs, h4, h5⟩, h6, h7, h8⟩, h9⟩)
    · exact Or.inl h1
    · exact Or.inr ⟨asst, ha, h2, h3, subs, h4, sub, h5, h6, h7, att, h8, h9⟩

/-- C1: when the planning pass completes, `currentFiles` holds exactly the canonical
paths of the attachments reached (submission of type `online_upload`, filter passed,
assignment accepting `online_upload` with submissions), and `currentDirs` exactly the
course root and the assignment and user directories of these attachments; the tree, the
flag `dry` and the downloads do not occur in the description. -/
theorem planningPass_live_sets (lowerRune : Char → Char) (cfg : Config)
    (submissionsOf : Int → Except Fatal (List Submission))
    (download : Str → Except Fatal (List Nat)) (course : Course) (terms : List Str) (fs : FS)
    (assignments : List Assignment) (st : State)
    (h : planningPass lowerRune cfg submissionsOf download course terms (initialState fs)
        assignments =
      Except.ok st) :
    (∀ p, p ∈ st.currentFiles ↔
      ∃ asst submission attachment,
        Reached lowerRune submissionsOf terms assignments asst submission attachment ∧
        p = Join [cfg.directory, normalizeName cfg.normalize course.CourseCode,
          normalizeName cfg.normalize asst.Name,
          normalizeName cfg.normalize
            (submission.User.LoginID ++ ":".toList ++ submission.User.Name),
          normalizeName cfg.normalize attachment.Filename]) ∧
    (∀ p, p ∈ st.currentDirs ↔
      p = Join [cfg.directory, normalizeName cfg.normalize course.CourseCode] ∨
      ∃ asst submission attachment,
        Reached lowerRune submissionsOf terms assignments asst submission attachment ∧
        (p = Join [cfg.directory, normalizeName cfg.normalize course.CourseCode,
            normalizeName cfg.normalize asst.Name] ∨
          p = Join [cfg.directory, normalizeName cfg.normalize course.CourseCode,
            normalizeName cfg.normalize asst.Name,
            normalizeName cfg.normalize
              (submission.User.LoginID ++ ":".toList ++ submission.User.Name)])) := by
  unfold planningPass at h
  split at h
  · cases h
  · rename_i st1 hloop
    cases h
    constructor
    · intro p
      show p ∈ st1.currentFiles ↔ _
      rw [planLoop_mem State.currentFiles
        (fun asst submission attachment p => p = pathOf cfg course asst submission attachment)
        cfg submissionsOf download course terms
        (fun asst submission st attachment st1 hst p => by
          rw [(processAttachment_sets cfg download course asst submission st st1 attachment
            hst).1]
          simp only [List.mem_cons]
          tauto)
        _ _ _ hloop p]
      simp only [initialState, List.not_mem_nil, false_or, pathOf_eq]
    · intro p
      simp only [markCourseRoot, List.mem_cons, courseRootOf]
      rw [planLoop_mem State.currentDirs
        (fun asst submission _ p => p = asstDirOf cfg course asst ∨
          p = userDirOf cfg course asst submission)
        cfg submissionsOf download course terms
        (fun asst submission st attachment st1 hst p => by
          rw [(processAttachment_sets cfg download course asst submission st st1 attachment
            hst).2]
          simp only [List.mem_cons]
          tauto)
        _ _ _ hloop p]
      simp only [initialState, List.not_mem_nil, false_or, userDirOf_eq]
      rfl

/-- C1, witness: the planning pass of a run that downloads one attachment into an empty
tree. -/
theorem planningPass_live_sets_witness :
    ∃ st, planningPass asciiLower exCfg exSubmissionsOf exDownload exCourse [] (initialState exTree)
        [labReport] = Except.ok st ∧
      st.currentFiles = ["mirror/CS_1/Lab_1_Report/alice99:Alice_Smith/my_report.txt".toList] ∧
      (∀ p, p ∈ st.currentFiles ↔
        ∃ asst submission attachment,
          Reached asciiLower exSubmissionsOf [] [labReport] asst submission attachment ∧
          p = Join [exCfg.directory, normalizeName exCfg.normalize exCourse.CourseCode,
            normalizeName exCfg.normalize asst.Name,
            normalizeName exCfg.normalize
              (submission.User.LoginID ++ ":".toList ++ submission.User.Name),
            normalizeName exCfg.normalize attachment.Filename]) :=
  ⟨_, rfl, rfl,
    (planningPass_live_sets asciiLower exCfg exSubmissionsOf exDownload exCourse [] exTree
        [labReport] _
      rfl).1⟩

/-! ## Theorems: dry runs -/

theorem processAttachment_dry (cfg : Config) (hdry : cfg.dry = true)
    (download : Str → Except Fatal (List Nat)) (course : Course) (asst : Assignment)
    (submission : Submission) (fs : FS) (st : State) (attachment : Attachment)
    (h : untouched fs st) :
    untouched fs (finalState (processAttachment cfg download course asst submission st
      attachment)) := by
  obtain ⟨h1, h2⟩ := h
  unfold processAttachment
  simp only [hdry, if_true]
  split
  · refine ⟨h1, ?_⟩
    intro e he
    simp only [finalState, List.mem_append, List.mem_singleton] at he
    rcases he with he | he
    · exact h2 e he
    · rw [he]; rfl
  · refine ⟨h1, ?_⟩
    intro e he
    simp only [finalState, List.mem_append, List.mem_singleton] at he
    rcases he with he | he
    · exact h2 e he
    · rw [he]; rfl

theorem planLoop_dry {lowerRune : Char → Char} (cfg : Config) (hdry : cfg.dry = true)
    (submissionsOf : Int → Except Fatal (List Submission))
    (download : Str → Except Fatal (List Nat)) (course : Course) (terms : List Str) (fs : FS)
    (st : State) (assignments : List Assignment) (h : untouched fs st) :
    untouched fs (finalState (planLoop lowerRune cfg submissionsOf download course terms st
      assignments)) := by
  unfold planLoop
  refine foldlM_preserves (untouched fs) _ ?_ assignments st h
  intro st asst hst
  unfold processAssignment
  split
  · exact hst
  · split
    · exact hst
    · split
      · exact hst
      · refine foldlM_preserves (untouched fs) _ ?_ _ st hst
        intro st submission hst
        unfold processSubmission
        split
        · exact hst
        · split
          · exact foldlM_preserves (untouched fs) _
              (fun st a ha => processAttachment_dry cfg hdry download course asst submission fs
                st a ha) _ st hst
          · exact hst

theorem prunePass_dry (cfg : Config) (hdry : cfg.dry = true) (course : Course) (fs : FS)
    (st : State) (h : untouched fs st) :
    untouched fs (finalState (prunePass cfg course st)) := by
  unfold prunePass
  split
  · exact h
  · refine foldlM_preserves (untouched fs) _ ?_ _ st h
    intro st r hst
    obtain ⟨h1, h2⟩ := hst
    unfold removeOne
    simp only [hdry, if_true]
    refine ⟨h1, ?_⟩
    intro e he
    simp only [finalState, List.mem_append, List.mem_singleton] at he
    rcases he with he | he
    · exact h2 e he
    · rw [he]; cases r <;> rfl

/-- C5: with `dry` set, whatever the remote replies, the filter terms and the tree are,
the tree in which `syncCourse` ends (normally or fatally) is the tree it started from, and
every event of the run is a report (unchanged, need to download, need to delete): nothing
is created, written, re-timed or removed. -/
theorem dry_run_leaves_tree_unchanged (lowerRune : Char → Char)
    (cfg : Config) (remote : Remote) (terms : List Str)
    (fs : FS) (hdry : cfg.dry = true) :
    (finalState (syncCourse lowerRune cfg remote terms fs)).fs = fs ∧
      ∀ e ∈ (finalState (syncCourse lowerRune cfg remote terms fs)).events, Event.isReport e = true
          := by
  have h0 : untouched fs (initialState fs) := ⟨rfl, by simp [initialState]⟩
  show untouched fs (finalState (syncCourse lowerRune cfg remote terms fs))
  unfold syncCourse
  cases hc : mustFetch cfg.token remote.course none with
  | error e => exact h0
  | ok course =>
    cases ha : mustFetch cfg.token remote.assignments none with
    | error e => exact h0
    | ok assignments =>
      have hp := @planLoop_dry lowerRune cfg hdry
        (fun id => mustFetch cfg.token (remote.submissions id) none)
        (fun url => mustFetch cfg.token (remote.attachment url) (some id))
        course terms fs (initialState fs) assignments h0
      simp only [planningPass]
      cases hl : planLoop lowerRune cfg (fun id => mustFetch cfg.token (remote.submissions id) none)
        (fun url => mustFetch cfg.token (remote.attachment url) (some id))
        course terms (initialState fs) assignments with
      | error e =>
        rw [hl] at hp
        exact hp
      | ok st1 =>
        rw [hl] at hp
        exact prunePass_dry cfg hdry course fs _ hp

/-- C5, witness: a dry run against a tree that holds the course root and lacks the
attachment. -/
theorem dry_run_leaves_tree_unchanged_witness :
    exDryCfg.dry = true ∧
      (finalState (syncCourse asciiLower exDryCfg exRemote [] exRootTree)).fs = exRootTree ∧
      ∀ e ∈ (finalState (syncCourse asciiLower exDryCfg exRemote [] exRootTree)).events,
        Event.isReport e = true :=
  ⟨rfl, dry_run_leaves_tree_unchanged asciiLower exDryCfg exRemote [] exRootTree rfl⟩

/-! ## Theorems: the missing course root -/

theorem Walk_eq_none_of_Stat (fs : FS) (root : Str) (h : Stat fs root = none) :
    Walk fs root = none := by
  unfold Stat at h
  unfold Walk
  cases hr : resolve fs.cwd root with
  | none => rfl
  | some rk =>
    rw [hr] at h
    simp only at h
    simp only [h]

theorem planningPass_dry_fs {lowerRune : Char → Char} (cfg : Config) (hdry : cfg.dry = true)
    (submissionsOf : Int → Except Fatal (List Submission))
    (download : Str → Except Fatal (List Nat)) (course : Course) (terms : List Str) (fs : FS)
    (assignments : List Assignment) (st : State)
    (h : planningPass lowerRune cfg submissionsOf download course terms (initialState fs)
        assignments =
      Except.ok st) : st.fs = fs := by
  have hp := @planLoop_dry lowerRune cfg hdry submissionsOf download course terms fs
    (initialState fs)
    assignments ⟨rfl, by simp [initialState]⟩
  unfold planningPass at h
  split at h
  · cases h
  · rename_i st1 hl
    cases h
    rw [hl] at hp
    exact hp.1

/-- C10: when the course and the assignment list were fetched and the planning pass has
completed, and the course root does not exist in the tree the pruner starts from,
`syncCourse` ends in the fatal error of the walk, in the state the planning pass left; in
a dry run this is the case as soon as the course root does not exist in the tree the run
starts from. -/
theorem missing_course_root_is_fatal (lowerRune : Char → Char)
    (cfg : Config) (remote : Remote) (terms : List Str)
    (fs : FS) (course : Course) (assignments : List Assignment) (st : State)
    (hc : mustFetch cfg.token remote.course none = Except.ok course)
    (ha : mustFetch cfg.token remote.assignments none = Except.ok assignments)
    (hp : planningPass lowerRune cfg (fun id => mustFetch cfg.token (remote.submissions id) none)
        (fun url => mustFetch cfg.token (remote.attachment url) (some id))
        course terms (initialState fs) assignments = Except.ok st) :
    (Stat st.fs (Join [cfg.directory, normalizeName cfg.normalize course.CourseCode]) = none →
      syncCourse lowerRune cfg remote terms fs = Except.error (Fatal.walkError, st)) ∧
    (cfg.dry = true →
      Stat fs (Join [cfg.directory, normalizeName cfg.normalize course.CourseCode]) = none →
      syncCourse lowerRune cfg remote terms fs = Except.error (Fatal.walkError, st)) := by
  have main : Stat st.fs (courseRootOf cfg course) = none →
      syncCourse lowerRune cfg remote terms fs = Except.error (Fatal.walkError, st) := by
    intro hroot
    unfold syncCourse
    simp only [hc, ha, hp]
    unfold prunePass
    rw [Walk_eq_none_of_Stat _ _ hroot]
  refine ⟨main, ?_⟩
  intro hdry hroot
  apply main
  rw [planningPass_dry_fs cfg hdry _ _ course terms fs assignments st hp]
  exact hroot

/-- C10, witness: a dry run against a tree that does not hold the course root. -/
theorem missing_course_root_is_fatal_witness :
    ∃ st, mustFetch exDryCfg.token exRemote.course none = Except.ok exCourse ∧
      mustFetch exDryCfg.token exRemote.assignments none = Except.ok [labReport] ∧
      planningPass asciiLower exDryCfg (fun id => mustFetch exDryCfg.token (exRemote.submissions
          id) none)
        (fun url => mustFetch exDryCfg.token (exRemote.attachment url) (some id))
        exCourse [] (initialState exTree) [labReport] = Except.ok st ∧
      Stat exTree (Join [exDryCfg.directory,
        normalizeName exDryCfg.normalize exCourse.CourseCode]) = none ∧
      syncCourse asciiLower exDryCfg exRemote [] exTree = Except.error (Fatal.walkError, st) :=
  ⟨_, rfl, rfl, rfl, rfl,
    (missing_course_root_is_fatal asciiLower exDryCfg exRemote [] exTree exCourse [labReport] _
      rfl rfl rfl).2 rfl rfl⟩

/-! ## Theorems: names that are not path elements -/

/-- C9, at the failing input: for an assignment named `Lab 1/2` the file is written below
`mirror/CS_1/Lab_1/2`, the directory `mirror/CS_1/Lab_1` between the course root and the
file is not in `currentDirs`, the pruner asks for its removal, and the run ends in the
fatal error of that removal while the file is in the tree below it. The run has no filter
terms, so that it is the same for every case table (`syncCourse_terms_nil`). -/
theorem slash_in_name_removes_live_directory :
    ∃ st, syncCourse asciiLower exCfg slashRemote [] exTree =
        Except.error (Fatal.removeError "mirror/CS_1/Lab_1".toList, st) ∧
      "mirror/CS_1/Lab_1/2/alice99:Alice_Smith/my_report.txt".toList ∈ st.currentFiles ∧
      "mirror/CS_1".toList ∈ st.currentDirs ∧
      "mirror/CS_1/Lab_1".toList ∉ st.currentDirs ∧
      Stat st.fs "mirror/CS_1/Lab_1/2/alice99:Alice_Smith/my_report.txt".toList =
        some { isDir := false, size := 3, modTime := 5000000000 } ∧
      Stat st.fs "mirror/CS_1/Lab_1".toList = some exDirInfo :=
  ⟨_, rfl, by decide, by decide, by decide, by decide, by decide⟩

/-- C2, at the failing input: for an assignment named `..` the run completes, the one path
of `currentFiles` is `mirror/alice99:Alice_Smith/my_report.txt`, which is written outside
the course root `mirror/CS_1`, and the walk of the course root in the final tree meets
the root directory alone: no file is below it. The run has no filter terms, so that it is
the same for every case table (`syncCourse_terms_nil`). -/
theorem dotdot_name_escapes_course_root :
    ∃ st, syncCourse asciiLower exCfg dotdotRemote [] exRootTree = Except.ok st ∧
      st.currentFiles = ["mirror/alice99:Alice_Smith/my_report.txt".toList] ∧
      Stat st.fs "mirror/alice99:Alice_Smith/my_report.txt".toList =
        some { isDir := false, size := 3, modTime := 5000000000 } ∧
      Walk st.fs "mirror/CS_1".toList = some [("mirror/CS_1".toList, exDirInfo)] :=
  ⟨_, rfl, by decide, by decide, by decide⟩

/-! ## Lemmas on the table of the tree -/

theorem lookup_erase (k k1 : Key) (es : List (Key × Info)) :
    lookup k1 (erase k es) = if k = k1 then none else lookup k1 es := by
  induction es with
  | nil => simp [erase, lookup]
  | cons e es ih =>
    unfold erase at ih ⊢
    by_cases he : e.1 = k
    · have : List.filter (fun e => decide (e.1 ≠ k)) (e :: es) =
          List.filter (fun e => decide (e.1 ≠ k)) es := by
        simp [List.filter, he]
      rw [this, ih]
      by_cases hk : k = k1
      · simp [hk]
      · have : e.1 ≠ k1 := fun h => hk (he ▸ h)
        simp [hk, lookup, this]
    · have : List.filter (fun e => decide (e.1 ≠ k)) (e :: es) =
          e :: List.filter (fun e => decide (e.1 ≠ k)) es := by
        simp [List.filter, he]
      rw [this]
      by_cases hk : k = k1
      · subst hk
        simp only [lookup, if_neg he, ih, if_true]
      · by_cases h1 : e.1 = k1
        · simp [lookup, h1, hk]
        · simp only [lookup, if_neg h1, ih, if_neg hk]

theorem lookup_insert (k k1 : Key) (i : Info) (es : List (Key × Info)) :
    lookup k1 (insert k i es) = if k = k1 then some i else lookup k1 es := by
  unfold insert
  by_cases hk : k = k1
  · simp [lookup, hk]
  · simp only [lookup, if_neg hk, lookup_erase]

theorem mem_of_lookup (k : Key) (i : Info) (es : List (Key × Info))
    (h : lookup k es = some i) : (k, i) ∈ es := by
  induction es with
  | nil => simp [lookup] at h
  | cons e es ih =>
    by_cases he : e.1 = k
    · simp only [lookup, if_pos he, Option.some.injEq] at h
      have : e = (k, i) := by
        cases e
        simp only at he h
        rw [he, h]
      rw [this]
      exact List.mem_cons_self _ _
    · simp only [lookup, if_neg he] at h
      exact List.mem_cons_of_mem _ (ih h)

/-! ## Lemmas on well-formed trees -/

theorem lookup_eq_of_mem_nodup (k : Key) (i : Info) (es : List (Key × Info))
    (hn : (es.map Prod.fst).Nodup) (h : (k, i) ∈ es) : lookup k es = some i := by
  induction es with
  | nil => simp at h
  | cons e es ih =>
    rw [List.map_cons, List.nodup_cons] at hn
    rcases List.mem_cons.1 h with h | h
    · rw [← h]; simp [lookup]
    · have : e.1 ≠ k := by
        intro he
        apply hn.1
        rw [he]
        exact List.mem_map.2 ⟨(k, i), h, rfl⟩
      simp only [lookup, if_neg this]
      exact ih hn.2 h

theorem WF_of_wellFormed (fs : FS) (h : wellFormed fs = true) : WF fs := by
  unfold wellFormed at h
  simp only [Bool.and_eq_true, List.all_eq_true, Bool.or_eq_true, decide_eq_true_eq] at h
  obtain ⟨⟨⟨⟨h1, h2⟩, h3⟩, h4⟩, h5⟩ := h
  refine ⟨?_, ?_, ?_, ?_, h5⟩
  · cases hl : lookup [] fs.entries with
    | none => rw [hl] at h1; simp at h1
    | some i => rw [hl] at h1; exact ⟨i, rfl, h1⟩
  · cases hl : lookup fs.cwd fs.entries with
    | none => rw [hl] at h2; simp at h2
    | some i => rw [hl] at h2; exact ⟨i, rfl, h2⟩
  · intro k i hk hne
    rcases h3 (k, i) (mem_of_lookup k i _ hk) with h | h
    · exact absurd h hne
    · exact h
  · intro k i hk n hn
    exact h4 (k, i) (mem_of_lookup k i _ hk) n hn

theorem nodup_erase (k : Key) (es : List (Key × Info)) (hn : (es.map Prod.fst).Nodup) :
    ((erase k es).map Prod.fst).Nodup := by
  unfold erase
  exact hn.sublist (List.Sublist.map _ (List.filter_sublist es))

theorem not_mem_keys_erase (k : Key) (es : List (Key × Info)) :
    k ∉ (erase k es).map Prod.fst := by
  unfold erase
  intro h
  obtain ⟨e, he, hk⟩ := List.mem_map.1 h
  have := (List.mem_filter.1 he).2
  simp only [ne_eq, decide_not, Bool.not_eq_eq_eq_not, Bool.not_true,
    decide_eq_false_iff_not] at this
  exact this hk

theorem nodup_insert (k : Key) (i : Info) (es : List (Key × Info))
    (hn : (es.map Prod.fst).Nodup) : ((insert k i es).map Prod.fst).Nodup := by
  unfold insert
  rw [List.map_cons, List.nodup_cons]
  exact ⟨not_mem_keys_erase k es, nodup_erase k es hn⟩

theorem parentIsDir_insert (k k1 : Key) (i : Info) (es : List (Key × Info))
    (hp : parentIsDir k1 es = true)
    (hk : ∀ old, lookup k es = some old → i.isDir = old.isDir) :
    parentIsDir k1 (insert k i es) = true := by
  unfold parentIsDir at hp ⊢
  rw [lookup_insert]
  by_cases h : k = k1.dropLast
  · rw [if_pos h]
    rw [← h] at hp
    cases hl : lookup k es with
    | none => rw [hl] at hp; simp at hp
    | some old =>
      rw [hl] at hp
      simp only at hp ⊢
      rw [hk old hl]
      exact hp
  · rw [if_neg h]
    exact hp

/-- Binding a key whose parent is a directory and whose names are plain, to metadata of
the kind (directory or not) that the key bore if it was bound, keeps the tree well
formed. -/
theorem WF_insert (fs : FS) (k : Key) (i : Info) (hwf : WF fs)
    (hk : ∀ old, lookup k fs.entries = some old → i.isDir = old.isDir)
    (hp : k ≠ [] → parentIsDir k fs.entries = true)
    (hn : ∀ n ∈ k, plainName n = true) :
    WF { fs with entries := insert k i fs.entries } := by
  have keep : ∀ k1 j, lookup k1 fs.entries = some j → j.isDir = true →
      ∃ j1, lookup k1 (insert k i fs.entries) = some j1 ∧ j1.isDir = true := by
    intro k1 j hj hd
    rw [lookup_insert]
    by_cases h : k = k1
    · rw [if_pos h]
      subst h
      exact ⟨i, rfl, by rw [hk j hj]; exact hd⟩
    · rw [if_neg h]
      exact ⟨j, hj, hd⟩
  refine ⟨?_, ?_, ?_, ?_, nodup_insert k i _ hwf.nodup⟩
  · obtain ⟨j, hj, hd⟩ := hwf.root
    exact keep [] j hj hd
  · obtain ⟨j, hj, hd⟩ := hwf.cwd
    exact keep fs.cwd j hj hd
  · intro k1 j hj hne
    simp only at hj
    rw [lookup_insert] at hj
    by_cases h : k = k1
    · subst h
      exact parentIsDir_insert k k i _ (hp hne) hk
    · rw [if_neg h] at hj
      exact parentIsDir_insert k k1 i _ (hwf.parent k1 j hj hne) hk
  · intro k1 j hj
    simp only at hj
    rw [lookup_insert] at hj
    by_cases h : k = k1
    · subst h
      exact hn
    · rw [if_neg h] at hj
      exact hwf.names k1 j hj

/-! ## Lemmas on the operations of the package `os` -/

theorem resolveStep_plain (out : List Str) (e : Str) (ho : ∀ n ∈ out, plainName n = true)
    (he : '/' ∉ e) : ∀ n ∈ resolveStep out e, plainName n = true := by
  unfold resolveStep
  by_cases h1 : e = [] ∨ e = dot
  · rw [if_pos h1]; exact ho
  · rw [if_neg h1]
    push_neg at h1
    by_cases h2 : e = dotdot
    · rw [if_pos h2]
      intro n hn
      exact ho n (List.mem_of_mem_tail hn)
    · rw [if_neg h2]
      intro n hn
      rcases List.mem_cons.1 hn with hn | hn
      · rw [hn]
        simp [plainName, h1.1, h1.2, h2, he]
      · exact ho n hn

theorem foldl_resolveStep_plain (l : List Str) (out : List Str)
    (ho : ∀ n ∈ out, plainName n = true) (hl : ∀ e ∈ l, '/' ∉ e) :
    ∀ n ∈ l.foldl resolveStep out, plainName n = true := by
  induction l generalizing out with
  | nil => exact ho
  | cons e l ih =>
    exact ih _ (resolveStep_plain out e ho (hl e (by simp))) (fun x hx => hl x (by simp [hx]))

theorem resolve_plain (cwd : Key) (path : Str) (k : Key)
    (hc : ∀ n ∈ cwd, plainName n = true) (h : resolve cwd path = some k) :
    ∀ n ∈ k, plainName n = true := by
  unfold resolve at h
  split at h
  · cases h
  · simp only [Option.some.injEq] at h
    subst h
    intro n hn
    rw [List.mem_reverse] at hn
    refine foldl_resolveStep_plain _ _ ?_ (fun e he => not_mem_of_mem_splitSlash path e he) n hn
    split
    · simp
    · intro m hm
      exact hc m (by simpa using hm)

theorem WF_cwd_plain (fs : FS) (hwf : WF fs) : ∀ n ∈ fs.cwd, plainName n = true := by
  obtain ⟨i, hi, _⟩ := hwf.cwd
  exact hwf.names fs.cwd i hi

theorem Mkdir_spec (fs fs1 : FS) (path : Str) (h : Mkdir fs path = some fs1) :
    ∃ k, resolve fs.cwd path = some k ∧ lookup k fs.entries = none ∧
      parentIsDir k fs.entries = true ∧
      fs1 = { fs with entries := insert k { fs.newDir with isDir := true } fs.entries } := by
  unfold Mkdir at h
  cases hk : resolve fs.cwd path with
  | none => rw [hk] at h; cases h
  | some k =>
    rw [hk] at h
    simp only at h
    cases hl : lookup k fs.entries with
    | some old => rw [hl] at h; cases h
    | none =>
      rw [hl] at h
      simp only at h
      by_cases hp : parentIsDir k fs.entries = true
      · rw [if_pos hp] at h
        simp only [Option.some.injEq] at h
        exact ⟨k, rfl, hl, hp, h.symm⟩
      · rw [if_neg hp] at h; cases h

theorem WriteFile_spec (fs fs1 : FS) (path : Str) (len : Nat)
    (h : WriteFile fs path len = some fs1) :
    ∃ k, resolve fs.cwd path = some k ∧
      ((∃ old, lookup k fs.entries = some old ∧ old.isDir = false) ∨
        (lookup k fs.entries = none ∧ parentIsDir k fs.entries = true)) ∧
      fs1 = { fs with entries := insert k (Info.mk false len fs.clock) fs.entries } := by
  unfold WriteFile at h
  cases hk : resolve fs.cwd path with
  | none => rw [hk] at h; cases h
  | some k =>
    rw [hk] at h
    simp only at h
    cases hl : lookup k fs.entries with
    | some old =>
      rw [hl] at h
      simp only at h
      by_cases hd : old.isDir = true
      · rw [if_pos hd] at h; cases h
      · rw [if_neg hd] at h
        simp only [Option.some.injEq] at h
        exact ⟨k, rfl, Or.inl ⟨old, hl, by simpa using hd⟩, h.symm⟩
    | none =>
      rw [hl] at h
      simp only at h
      by_cases hp : parentIsDir k fs.entries = true
      · rw [if_pos hp] at h
        simp only [Option.some.injEq] at h
        exact ⟨k, rfl, Or.inr ⟨hl, hp⟩, h.symm⟩
      · rw [if_neg hp] at h; cases h

theorem Chtimes_spec (fs fs1 : FS) (path : Str) (t : Time)
    (h : Chtimes fs path t = some fs1) :
    ∃ k old, resolve fs.cwd path = some k ∧ lookup k fs.entries = some old ∧
      fs1 = { fs with entries := insert k { old with modTime := t } fs.entries } := by
  unfold Chtimes at h
  cases hk : resolve fs.cwd path with
  | none => rw [hk] at h; cases h
  | some k =>
    rw [hk] at h
    simp only at h
    cases hl : lookup k fs.entries with
    | none => rw [hl] at h; cases h
    | some old =>
      rw [hl] at h
      simp only [Option.some.injEq] at h
      exact ⟨k, old, rfl, hl, h.symm⟩

theorem Remove_spec (fs fs1 : FS) (path : Str) (h : Remove fs path = some fs1) :
    ∃ k old, resolve fs.cwd path = some k ∧ lookup k fs.entries = some old ∧
      fs1 = { fs with entries := erase k fs.entries } := by
  unfold Remove at h
  cases hk : resolve fs.cwd path with
  | none => rw [hk] at h; cases h
  | some k =>
    rw [hk] at h
    simp only at h
    cases hl : lookup k fs.entries with
    | none => rw [hl] at h; cases h
    | some old =>
      rw [hl] at h
      simp only at h
      split at h
      · cases h
      · simp only [Option.some.injEq] at h
        exact ⟨k, old, rfl, hl, h.symm⟩

theorem Mkdir_WF (fs fs1 : FS) (path : Str) (hwf : WF fs) (h : Mkdir fs path = some fs1) :
    WF fs1 := by
  obtain ⟨k, hk, hl, hp, rfl⟩ := Mkdir_spec fs fs1 path h
  exact WF_insert fs k _ hwf (fun old ho => by rw [hl] at ho; cases ho) (fun _ => hp)
    (resolve_plain fs.cwd path k (WF_cwd_plain fs hwf) hk)

theorem WriteFile_WF (fs fs1 : FS) (path : Str) (len : Nat) (hwf : WF fs)
    (h : WriteFile fs path len = some fs1) : WF fs1 := by
  obtain ⟨k, hk, hcase, rfl⟩ := WriteFile_spec fs fs1 path len h
  refine WF_insert fs k _ hwf ?_ ?_ (resolve_plain fs.cwd path k (WF_cwd_plain fs hwf) hk)
  · intro old ho
    rcases hcase with ⟨old1, h1, h2⟩ | ⟨h1, _⟩
    · rw [h1] at ho; cases ho; exact h2.symm
    · rw [h1] at ho; cases ho
  · intro hne
    rcases hcase with ⟨old1, h1, _⟩ | ⟨_, h2⟩
    · exact hwf.parent k old1 h1 hne
    · exact h2

theorem Chtimes_WF (fs fs1 : FS) (path : Str) (t : Time) (hwf : WF fs)
    (h : Chtimes fs path t = some fs1) : WF fs1 := by
  obtain ⟨k, old, hk, hl, rfl⟩ := Chtimes_spec fs fs1 path t h
  refine WF_insert fs k _ hwf ?_ (fun hne => hwf.parent k old hl hne)
    (resolve_plain fs.cwd path k (WF_cwd_plain fs hwf) hk)
  intro old1 ho
  rw [hl] at ho
  cases ho
  rfl

/-! ## Lemmas on paths given by their elements -/

theorem plainName_iff (n : Str) :
    plainName n = true ↔ n ≠ [] ∧ '/' ∉ n ∧ n ≠ dot ∧ n ≠ dotdot := by
  unfold plainName
  simp only [Bool.and_eq_true, decide_eq_true_eq]
  tauto

theorem cleanStep_plain (r : Bool) (out : List Str) (s : Str) (h : plainName s = true) :
    cleanStep r out s = s :: out := by
  obtain ⟨h1, _, h3, h4⟩ := (plainName_iff s).1 h
  unfold cleanStep
  rw [if_neg (by push_neg; exact ⟨h1, h3⟩), if_neg h4]

theorem resolveStep_plain_eq (out : List Str) (s : Str) (h : plainName s = true) :
    resolveStep out s = s :: out := by
  obtain ⟨h1, _, h3, h4⟩ := (plainName_iff s).1 h
  unfold resolveStep
  rw [if_neg (by push_neg; exact ⟨h1, h3⟩), if_neg h4]

theorem normalElems_cons_plain (r : Bool) (st : List Str) (s : Str)
    (hn : normalElems r st) (h : plainName s = true) : normalElems r (s :: st) := by
  obtain ⟨h1, h2, h3, h4⟩ := (plainName_iff s).1 h
  exact ⟨h1, h3, h2, hn, fun e => absurd e h4⟩

theorem normalElems_append_plain (r : Bool) (st names : List Str)
    (hn : normalElems r st) (h : ∀ n ∈ names, plainName n = true) :
    normalElems r (names ++ st) := by
  induction names with
  | nil => exact hn
  | cons s names ih =>
    exact normalElems_cons_plain r _ s (ih (fun n hn => h n (by simp [hn]))) (h s (by simp))

theorem render_cons (r : Bool) (st : List Str) (s : Str) (hne : st ≠ []) :
    render r (s :: st) = render r st ++ '/' :: s := by
  unfold render
  have h1 : st.reverse ≠ [] := by simpa using hne
  cases r with
  | true =>
    simp only [if_true, List.reverse_cons]
    rw [intercalate_concat _ h1]
    rfl
  | false =>
    simp only [Bool.false_eq_true, if_false, if_neg hne, List.reverse_cons]
    rw [if_neg (by simp), intercalate_concat _ h1]

theorem cleanElems_render (r : Bool) (st : List Str) (hn : normalElems r st) :
    cleanElems (render r st) = st := by
  unfold cleanElems
  rw [isRooted_render r st hn]
  exact splitSlash_render_foldl r st hn

/-- Joining a plain name to a cleaned path that has an element appends the name. -/
theorem Join_render (r : Bool) (st : List Str) (s : Str) (hn : normalElems r st)
    (h : plainName s = true) :
    Join [render r st, s] = render r (s :: st) := by
  have h0 := render_ne_nil r st hn
  have hs : '/' ∉ s := ((plainName_iff s).1 h).2.1
  rw [Join_cons_of_ne _ _ h0]
  have e : List.intercalate ['/'] [render r st, s] = render r st ++ '/' :: s := by
    simp [List.intercalate, List.intersperse, List.flatten]
  rw [e, Clean_of_ne _ (by simp [h0]), isRooted_append _ _ h0, isRooted_render r st hn,
    cleanElems_append_slash _ _ h0, isRooted_render r st hn, cleanElems_render r st hn,
    splitSlash_of_not_mem s hs]
  simp only [List.foldl_cons, List.foldl_nil]
  rw [cleanStep_plain r st s h]

theorem walkPath_render (r : Bool) (st names : List Str) (hn : normalElems r st)
    (h : ∀ n ∈ names, plainName n = true) :
    walkPath (render r st) names = render r (names.reverse ++ st) := by
  unfold walkPath
  induction names generalizing st with
  | nil => rfl
  | cons s names ih =>
    simp only [List.foldl_cons]
    rw [Join_render r st s hn (h s (by simp)),
      ih (s :: st) (normalElems_cons_plain r st s hn (h s (by simp)))
        (fun n hn => h n (by simp [hn]))]
    simp

theorem keyOfElems_cons (cwd : Key) (r : Bool) (st : List Str) (s : Str)
    (h : plainName s = true) :
    keyOfElems cwd r (s :: st) = keyOfElems cwd r st ++ [s] := by
  unfold keyOfElems
  rw [List.reverse_cons, List.foldl_append]
  simp only [List.foldl_cons, List.foldl_nil]
  rw [resolveStep_plain_eq _ s h, List.reverse_cons]

theorem keyOfElems_append (cwd : Key) (r : Bool) (st names : List Str)
    (h : ∀ n ∈ names, plainName n = true) :
    keyOfElems cwd r (names.reverse ++ st) = keyOfElems cwd r st ++ names := by
  induction names using List.reverseRecOn with
  | nil => simp
  | append_singleton names s ih =>
    rw [List.reverse_append, List.reverse_singleton, List.singleton_append, List.cons_append,
      keyOfElems_cons cwd r _ s (h s (by simp)), ih (fun n hn => h n (by simp [hn]))]
    simp

theorem resolveStep_nil (out : List Str) : resolveStep out [] = out := by
  simp [resolveStep]

theorem resolve_render (cwd : Key) (r : Bool) (st : List Str) (hn : normalElems r st) :
    resolve cwd (render r st) = some (keyOfElems cwd r st) := by
  unfold resolve
  rw [if_neg (render_ne_nil r st hn), isRooted_render r st hn]
  have hrev : ∀ e ∈ st.reverse, '/' ∉ e :=
    fun e he => normalElems_no_slash r st hn e (by simpa using he)
  unfold keyOfElems
  congr 2
  unfold render
  cases r with
  | true =>
    simp only [if_true]
    have e1 : splitSlash ('/' :: List.intercalate ['/'] st.reverse) =
        [] :: splitSlash (List.intercalate ['/'] st.reverse) := by
      rw [splitSlash, if_pos rfl]
    rw [e1, List.foldl_cons, resolveStep_nil]
    by_cases h : st = []
    · subst h
      simp [splitSlash, List.intercalate, resolveStep]
    · rw [splitSlash_intercalate _ (by simpa using h) hrev]
  | false =>
    by_cases h : st = []
    · subst h
      simp [splitSlash, dot, resolveStep]
    · simp only [Bool.false_eq_true, if_false, if_neg h]
      rw [splitSlash_intercalate _ (by simpa using h) hrev]

/-! ## Lemmas on the paths below the course root -/

theorem isRooted_plain (s : Str) (h : plainName s = true) : isRooted s = false := by
  obtain ⟨h1, h2, _, _⟩ := (plainName_iff s).1 h
  cases s with
  | nil => exact absurd rfl h1
  | cons c s =>
    have : c ≠ '/' := fun e => h2 (by simp [e])
    simp [isRooted, this]

theorem rootElems_normal (cfg : Config) (course : Course)
    (hc : plainName (normalizeName cfg.normalize course.CourseCode) = true) :
    normalElems (rootRooted cfg) (rootElems cfg course) := by
  unfold rootElems rootRooted
  apply normalElems_cons_plain _ _ _ _ hc
  by_cases hd : cfg.directory = []
  · simp [hd, normalElems]
  · simp only [if_neg hd]
    exact cleanElems_normal _

theorem courseRootOf_eq (cfg : Config) (course : Course)
    (hc : plainName (normalizeName cfg.normalize course.CourseCode) = true) :
    courseRootOf cfg course = pathUnder cfg course [] := by
  obtain ⟨h1, h2, _, _⟩ := (plainName_iff _).1 hc
  unfold courseRootOf pathUnder rootRooted rootElems
  simp only [List.reverse_nil, List.nil_append]
  by_cases hd : cfg.directory = []
  · simp only [hd, if_true]
    rw [Join_cons_nil, Join_cons_of_ne _ _ h1]
    have e : List.intercalate ['/'] [normalizeName cfg.normalize course.CourseCode] =
        normalizeName cfg.normalize course.CourseCode := by
      simp [List.intercalate, List.intersperse, List.flatten]
    rw [e, Clean_of_ne _ h1, isRooted_plain _ hc]
    unfold cleanElems
    rw [splitSlash_of_not_mem _ h2]
    simp only [List.foldl_cons, List.foldl_nil]
    rw [cleanStep_plain _ _ _ hc]
  · simp only [if_neg hd]
    rw [Join_cons_of_ne _ _ hd]
    have e : List.intercalate ['/']
        [cfg.directory, normalizeName cfg.normalize course.CourseCode] =
        cfg.directory ++ '/' :: normalizeName cfg.normalize course.CourseCode := by
      simp [List.intercalate, List.intersperse, List.flatten]
    rw [e, Clean_of_ne _ (by simp [hd]), isRooted_append _ _ hd,
      cleanElems_append_slash _ _ hd, splitSlash_of_not_mem _ h2]
    simp only [List.foldl_cons, List.foldl_nil]
    rw [cleanStep_plain _ _ _ hc]

theorem pathUnder_normal (cfg : Config) (course : Course) (names : List Str)
    (hc : plainName (normalizeName cfg.normalize course.CourseCode) = true)
    (h : ∀ n ∈ names, plainName n = true) :
    normalElems (rootRooted cfg) (names.reverse ++ rootElems cfg course) :=
  normalElems_append_plain _ _ _ (rootElems_normal cfg course hc)
    (fun n hn => h n (by simpa using hn))

theorem Join_pathUnder (cfg : Config) (course : Course) (names : List Str) (s : Str)
    (hc : plainName (normalizeName cfg.normalize course.CourseCode) = true)
    (h : ∀ n ∈ names, plainName n = true) (hs : plainName s = true) :
    Join [pathUnder cfg course names, s] = pathUnder cfg course (names ++ [s]) := by
  unfold pathUnder
  rw [Join_render _ _ s (pathUnder_normal cfg course names hc h) hs]
  simp

theorem walkPath_courseRoot (cfg : Config) (course : Course) (names : List Str)
    (hc : plainName (normalizeName cfg.normalize course.CourseCode) = true)
    (h : ∀ n ∈ names, plainName n = true) :
    walkPath (courseRootOf cfg course) names = pathUnder cfg course names := by
  rw [courseRootOf_eq cfg course hc]
  unfold pathUnder
  simp only [List.reverse_nil, List.nil_append]
  exact walkPath_render _ _ names (rootElems_normal cfg course hc) h

theorem resolve_pathUnder (cwd : Key) (cfg : Config) (course : Course) (names : List Str)
    (hc : plainName (normalizeName cfg.normalize course.CourseCode) = true)
    (h : ∀ n ∈ names, plainName n = true) :
    resolve cwd (pathUnder cfg course names) = some (rootKey cwd cfg course ++ names) := by
  unfold pathUnder rootKey
  rw [resolve_render cwd _ _ (pathUnder_normal cfg course names hc h),
    keyOfElems_append cwd _ _ names h]

theorem pathUnder_injective (cfg : Config) (course : Course) (names1 names2 : List Str)
    (hc : plainName (normalizeName cfg.normalize course.CourseCode) = true)
    (h1 : ∀ n ∈ names1, plainName n = true) (h2 : ∀ n ∈ names2, plainName n = true)
    (h : pathUnder cfg course names1 = pathUnder cfg course names2) : names1 = names2 := by
  have e1 := resolve_pathUnder [] cfg course names1 hc h1
  have e2 := resolve_pathUnder [] cfg course names2 hc h2
  rw [h, e2] at e1
  simp only [Option.some.injEq] at e1
  exact (List.append_cancel_left e1).symm

theorem asstDirOf_eq_pathUnder (cfg : Config) (course : Course) (asst : Assignment)
    (hc : plainName (normalizeName cfg.normalize course.CourseCode) = true)
    (ha : plainName (normalizeName cfg.normalize asst.Name) = true) :
    asstDirOf cfg course asst = pathUnder cfg course [normalizeName cfg.normalize asst.Name] := by
  have e : asstDirOf cfg course asst =
      Join [courseRootOf cfg course, normalizeName cfg.normalize asst.Name] := by
    unfold asstDirOf courseRootOf
    rw [Join_Join]
    rfl
  rw [e, courseRootOf_eq cfg course hc, Join_pathUnder cfg course [] _ hc (by simp) ha]
  rfl

theorem userDirOf_eq_pathUnder (cfg : Config) (course : Course) (asst : Assignment)
    (submission : Submission)
    (hc : plainName (normalizeName cfg.normalize course.CourseCode) = true)
    (ha : plainName (normalizeName cfg.normalize asst.Name) = true)
    (hu : plainName (normalizeName cfg.normalize
      (submission.User.LoginID ++ ":".toList ++ submission.User.Name)) = true) :
    userDirOf cfg course asst submission =
      pathUnder cfg course [normalizeName cfg.normalize asst.Name,
        normalizeName cfg.normalize
          (submission.User.LoginID ++ ":".toList ++ submission.User.Name)] := by
  unfold userDirOf
  rw [asstDirOf_eq_pathUnder cfg course asst hc ha,
    Join_pathUnder cfg course _ _ hc (by simpa using ha) hu]
  rfl

theorem pathOf_eq_pathUnder (cfg : Config) (course : Course) (asst : Assignment)
    (submission : Submission) (attachment : Attachment)
    (hc : plainName (normalizeName cfg.normalize course.CourseCode) = true)
    (ha : plainName (normalizeName cfg.normalize asst.Name) = true)
    (hu : plainName (normalizeName cfg.normalize
      (submission.User.LoginID ++ ":".toList ++ submission.User.Name)) = true)
    (hf : plainName (normalizeName cfg.normalize attachment.Filename) = true) :
    pathOf cfg course asst submission attachment =
      pathUnder cfg course [normalizeName cfg.normalize asst.Name,
        normalizeName cfg.normalize
          (submission.User.LoginID ++ ":".toList ++ submission.User.Name),
        normalizeName cfg.normalize attachment.Filename] := by
  unfold pathOf
  rw [userDirOf_eq_pathUnder cfg course asst submission hc ha hu,
    Join_pathUnder cfg course _ _ hc (by
      intro n hn
      simp only [List.mem_cons, List.mem_singleton, List.not_mem_nil, or_false] at hn
      rcases hn with hn | hn
      · rw [hn]; exact ha
      · rw [hn]; exact hu) hf]
  rfl

/-! ## Lemmas on `MkdirAll` -/

theorem Extends_refl (allowed : Key → Prop) (fs : FS) : Extends allowed fs fs :=
  ⟨rfl, rfl, rfl, fun _ => Or.inl rfl⟩

theorem Extends_trans (a1 a2 : Key → Prop) (fs fs1 fs2 : FS) (h1 : Extends a1 fs fs1)
    (h2 : Extends a2 fs1 fs2) : Extends (fun k => a1 k ∨ a2 k) fs fs2 := by
  obtain ⟨c1, n1, t1, e1⟩ := h1
  obtain ⟨c2, n2, t2, e2⟩ := h2
  refine ⟨c2.trans c1, n2.trans n1, t2.trans t1, ?_⟩
  intro k
  rcases e2 k with h | ⟨h, ha, i, hi, hd⟩
  · rcases e1 k with g | ⟨g, ga, j, hj, hd⟩
    · exact Or.inl (h.trans g)
    · exact Or.inr ⟨g, Or.inl ga, j, h.trans hj, hd⟩
  · rcases e1 k with g | ⟨g, ga, j, hj, hd1⟩
    · exact Or.inr ⟨g ▸ h, Or.inr ha, i, hi, hd⟩
    · rw [hj] at h; cases h

theorem Extends_mono (a1 a2 : Key → Prop) (fs fs1 : FS) (h : Extends a1 fs fs1)
    (ha : ∀ k, a1 k → a2 k) : Extends a2 fs fs1 := by
  obtain ⟨c1, n1, t1, e1⟩ := h
  refine ⟨c1, n1, t1, ?_⟩
  intro k
  rcases e1 k with g | ⟨g, ga, j, hj, hd⟩
  · exact Or.inl g
  · exact Or.inr ⟨g, ha k ga, j, hj, hd⟩

theorem Mkdir_Extends (fs fs1 : FS) (path : Str) (k : Key) (hk : resolve fs.cwd path = some k)
    (h : Mkdir fs path = some fs1) : Extends (fun k1 => k1 = k) fs fs1 := by
  obtain ⟨k0, hk0, hl, _, rfl⟩ := Mkdir_spec fs fs1 path h
  rw [hk] at hk0
  cases hk0
  refine ⟨rfl, rfl, rfl, ?_⟩
  intro k1
  simp only
  rw [lookup_insert]
  by_cases e : k = k1
  · subst e
    exact Or.inr ⟨hl, rfl, _, by rw [if_pos rfl], rfl⟩
  · exact Or.inl (by rw [if_neg e])

theorem dropWhile_append_stop {α : Type} (p : α → Bool) (l : List α) (x : α) (t : List α)
    (hl : ∀ a ∈ l, p a = true) (hx : p x = false) :
    (l ++ x :: t).dropWhile p = x :: t := by
  induction l with
  | nil => simp [List.dropWhile, hx]
  | cons a l ih =>
    simp only [List.cons_append, List.dropWhile, hl a (by simp)]
    exact ih (fun b hb => hl b (by simp [hb]))

theorem dropWhile_all {α : Type} (p : α → Bool) (l : List α) (hl : ∀ a ∈ l, p a = true) :
    l.dropWhile p = [] := by
  induction l with
  | nil => rfl
  | cons a l ih =>
    simp only [List.dropWhile, hl a (by simp)]
    exact ih (fun b hb => hl b (by simp [hb]))

theorem dropWhile_head_false {α : Type} (p : α → Bool) (l : List α)
    (h : ∀ a, l.head? = some a → p a = false) :
    l.dropWhile p = l := by
  cases l with
  | nil => rfl
  | cons a l => simp [List.dropWhile, h a rfl]

theorem mkdirAllParent_append (q s : Str) (hs : plainName s = true) :
    mkdirAllParent (q ++ '/' :: s) = if q = [] then none else some q := by
  obtain ⟨h1, h2, _, _⟩ := (plainName_iff s).1 hs
  unfold mkdirAllParent
  have e : (q ++ '/' :: s).reverse = s.reverse ++ '/' :: q.reverse := by simp
  have hnot : ∀ a ∈ s.reverse, (a != '/') = true := by
    intro a ha
    have : a ∈ s := by simpa using ha
    simp only [bne_iff_ne, ne_eq]
    intro e
    exact h2 (e ▸ this)
  have e1 : (s.reverse ++ '/' :: q.reverse).dropWhile (fun c => c == '/') =
      s.reverse ++ '/' :: q.reverse := by
    apply dropWhile_head_false
    intro a ha
    cases hr : s.reverse with
    | nil => simp at hr; exact absurd hr h1
    | cons b t =>
      rw [hr] at ha
      simp only [List.cons_append, List.head?_cons, Option.some.injEq] at ha
      have hb := hnot b (by rw [hr]; simp)
      rw [← ha]
      simpa using hb
  have e2 : (s.reverse ++ '/' :: q.reverse).dropWhile (fun c => c != '/') =
      '/' :: q.reverse := dropWhile_append_stop _ _ _ _ hnot (by simp)
  simp only [e, e1, e2, List.length_cons, List.length_reverse, List.tail_cons,
    List.reverse_reverse]
  by_cases hq : q = []
  · simp [hq]
  · have : 0 < q.length := List.length_pos.2 hq
    rw [if_pos (by omega), if_neg hq]

theorem mkdirAllParent_plain (s : Str) (hs : plainName s = true) :
    mkdirAllParent s = none := by
  obtain ⟨h1, h2, _, _⟩ := (plainName_iff s).1 hs
  unfold mkdirAllParent
  have hnot : ∀ a ∈ s.reverse, (a != '/') = true := by
    intro a ha
    have : a ∈ s := by simpa using ha
    simp only [bne_iff_ne, ne_eq]
    intro e
    exact h2 (e ▸ this)
  have e1 : s.reverse.dropWhile (fun c => c == '/') = s.reverse := by
    apply dropWhile_head_false
    intro a ha
    have : a ∈ s.reverse := List.mem_of_mem_head? ha
    simpa using hnot a this
  have e2 : s.reverse.dropWhile (fun c => c != '/') = [] := dropWhile_all _ _ hnot
  simp [e1, e2]

theorem WF_prefix (fs : FS) (hwf : WF fs) (k : Key) :
    ∀ i, lookup k fs.entries = some i → ∀ k1, k1 <+: k →
      ∃ j, lookup k1 fs.entries = some j ∧ (k1 ≠ k → j.isDir = true) := by
  induction k using List.reverseRecOn with
  | nil =>
    intro i hi k1 hk1
    have : k1 = [] := List.prefix_nil.1 hk1
    subst this
    exact ⟨i, hi, fun h => absurd rfl h⟩
  | append_singleton k0 n ih =>
    intro i hi k1 hk1
    by_cases e : k1 = k0 ++ [n]
    · subst e
      exact ⟨i, hi, fun h => absurd rfl h⟩
    · have hp := hwf.parent (k0 ++ [n]) i hi (by simp)
      unfold parentIsDir at hp
      rw [List.dropLast_concat] at hp
      cases hl : lookup k0 fs.entries with
      | none => rw [hl] at hp; simp at hp
      | some j =>
        rw [hl] at hp
        simp only at hp
        have hk0 : k1 <+: k0 := by
          rcases List.prefix_concat_iff.1 hk1 with h | h
          · exact absurd h e
          · exact h
        obtain ⟨j1, hj1, hd⟩ := ih j hl k1 hk0
        refine ⟨j1, hj1, fun _ => ?_⟩
        by_cases e2 : k1 = k0
        · subst e2
          rw [hl] at hj1
          cases hj1
          exact hp
        · exact hd e2

theorem foldl_resolveStep_dotdot (l : List Str) (out : List Str) (h : ∀ e ∈ l, e = dotdot) :
    l.foldl resolveStep out = out.drop l.length := by
  induction l generalizing out with
  | nil => simp
  | cons e l ih =>
    have he : e = dotdot := h e (by simp)
    subst he
    simp only [List.foldl_cons, List.length_cons]
    rw [ih _ (fun x hx => h x (by simp [hx]))]
    have : resolveStep out dotdot = out.tail := by
      simp [resolveStep, dotdot, dot]
    rw [this]
    cases out with
    | nil => simp
    | cons a out => simp

theorem keyOfElems_dotdot (cwd : Key) (st : List Str) (h : ∀ e ∈ st, e = dotdot) :
    keyOfElems cwd false st <+: cwd := by
  unfold keyOfElems
  simp only [Bool.false_eq_true, if_false]
  rw [foldl_resolveStep_dotdot _ _ (fun e he => h e (by simpa using he))]
  have : List.drop st.reverse.length cwd.reverse <:+ cwd.reverse := List.drop_suffix _ _
  have := List.reverse_prefix.2 this
  simpa using this

theorem Stat_render (fs : FS) (r : Bool) (st : List Str) (hn : normalElems r st) :
    Stat fs (render r st) = lookup (keyOfElems fs.cwd r st) fs.entries := by
  unfold Stat
  rw [resolve_render fs.cwd r st hn]

theorem render_singleton (r : Bool) (s : Str) :
    render r [s] = if r then '/' :: s else s := by
  unfold render
  cases r <;> simp [List.intercalate, List.intersperse, List.flatten]

theorem mkdirAllParent_render (r : Bool) (rest : List Str) (top : Str)
    (hn : normalElems r rest) (ht : plainName top = true) :
    mkdirAllParent (render r (top :: rest)) =
      if rest = [] then none else some (render r rest) := by
  by_cases hrest : rest = []
  · subst hrest
    rw [render_singleton, if_pos rfl]
    cases r with
    | true =>
      simp only [if_true]
      have := mkdirAllParent_append [] top ht
      simpa using this
    | false =>
      simp only [Bool.false_eq_true, if_false]
      exact mkdirAllParent_plain top ht
  · rw [if_neg hrest, render_cons r rest top hrest, mkdirAllParent_append _ _ ht,
      if_neg (render_ne_nil r rest hn)]

theorem mkdirAll_finish (fs1 fs2 : FS) (path : Str) (k : Key) (hwf : WF fs1)
    (hk : resolve fs1.cwd path = some k)
    (h : (match Mkdir fs1 path with
      | some fs2 => (Except.ok fs2 : Except FS FS)
      | none =>
        match Stat fs1 path with
        | some dir => if dir.isDir then Except.ok fs1 else Except.error fs1
        | none => Except.error fs1) = Except.ok fs2) :
    WF fs2 ∧ Extends (fun k1 => k1 = k) fs1 fs2 := by
  cases hm : Mkdir fs1 path with
  | some fs3 =>
    rw [hm] at h
    simp only [Except.ok.injEq] at h
    subst h
    exact ⟨Mkdir_WF fs1 fs3 path hwf hm, Mkdir_Extends fs1 fs3 path k hk hm⟩
  | none =>
    rw [hm] at h
    simp only at h
    cases hs : Stat fs1 path with
    | none => rw [hs] at h; cases h
    | some dir =>
      rw [hs] at h
      simp only at h
      split at h
      · simp only [Except.ok.injEq] at h
        subst h
        exact ⟨hwf, Extends_refl _ _⟩
      · cases h

/-- On a cleaned path, `MkdirAll` creates directories only at keys on the way to the
path, and keeps the tree well formed. -/
theorem mkdirAllAux_clean (n : Nat) (r : Bool) (st : List Str) (fs fs1 : FS) (hwf : WF fs)
    (hn : normalElems r st) (h : mkdirAllAux n fs (render r st) = Except.ok fs1) :
    WF fs1 ∧ Extends (fun k => k <+: keyOfElems fs.cwd r st) fs fs1 := by
  induction n generalizing st fs fs1 with
  | zero => simp [mkdirAllAux] at h
  | succ n ih =>
    unfold mkdirAllAux at h
    rw [Stat_render fs r st hn] at h
    cases hl : lookup (keyOfElems fs.cwd r st) fs.entries with
    | some dir =>
      rw [hl] at h
      simp only at h
      split at h
      · simp only [Except.ok.injEq] at h
        subst h
        exact ⟨hwf, Extends_refl _ _⟩
      · cases h
    | none =>
      rw [hl] at h
      simp only at h
      cases st with
      | nil =>
        exfalso
        unfold keyOfElems at hl
        cases r with
        | true =>
          obtain ⟨i, hi, _⟩ := hwf.root
          simp only [List.reverse_nil, List.foldl_nil, if_true] at hl
          rw [hi] at hl
          cases hl
        | false =>
          obtain ⟨i, hi, _⟩ := hwf.cwd
          simp only [List.reverse_nil, List.foldl_nil, Bool.false_eq_true, if_false,
            List.reverse_reverse] at hl
          rw [hi] at hl
          cases hl
      | cons top rest =>
        obtain ⟨a1, a2, a3, a4, a5⟩ := hn
        by_cases htop : top = dotdot
        · exfalso
          obtain ⟨b1, b2⟩ := a5 htop
          subst b1
          have hpre := keyOfElems_dotdot fs.cwd (top :: rest) (by
            intro e he
            rcases List.mem_cons.1 he with he | he
            · rw [he, htop]
            · exact b2 e he)
          obtain ⟨i, hi, _⟩ := hwf.cwd
          obtain ⟨j, hj, _⟩ := WF_prefix fs hwf fs.cwd i hi _ hpre
          rw [hj] at hl
          cases hl
        · have hplain : plainName top = true := by
            rw [plainName_iff]
            exact ⟨a1, a3, a2, htop⟩
          have hkey := keyOfElems_cons fs.cwd r rest top hplain
          rw [mkdirAllParent_render r rest top a4 hplain] at h
          by_cases hrest : rest = []
          · rw [if_pos hrest] at h
            simp only at h
            obtain ⟨w, e⟩ := mkdirAll_finish fs fs1 _ _ hwf
              (resolve_render fs.cwd r (top :: rest) ⟨a1, a2, a3, a4, a5⟩) h
            exact ⟨w, Extends_mono _ _ _ _ e (fun k hk => by rw [hk])⟩
          · rw [if_neg hrest] at h
            simp only at h
            cases hrec : mkdirAllAux n fs (render r rest) with
            | error fs2 => rw [hrec] at h; cases h
            | ok fs2 =>
              rw [hrec] at h
              simp only at h
              obtain ⟨w2, e2⟩ := ih rest fs fs2 hwf a4 hrec
              have hc : fs2.cwd = fs.cwd := e2.1
              obtain ⟨w, e⟩ := mkdirAll_finish fs2 fs1 _ (keyOfElems fs.cwd r (top :: rest)) w2
                (by rw [hc]; exact resolve_render fs.cwd r (top :: rest) ⟨a1, a2, a3, a4, a5⟩) h
              refine ⟨w, Extends_mono _ _ _ _ (Extends_trans _ _ _ _ _ e2 e) ?_⟩
              intro k hk
              rcases hk with hk | hk
              · rw [hkey]
                exact hk.trans (List.prefix_append _ _)
              · rw [hk]

/-! ## Lemmas on the planning pass of a run that downloads -/

theorem pathOf_eq_namesOf (cfg : Config) (course : Course) (asst : Assignment)
    (submission : Submission) (attachment : Attachment)
    (hc : plainName (normalizeName cfg.normalize course.CourseCode) = true)
    (hn : ∀ n ∈ namesOf cfg asst submission attachment, plainName n = true) :
    pathOf cfg course asst submission attachment =
      pathUnder cfg course (namesOf cfg asst submission attachment) :=
  pathOf_eq_pathUnder cfg course asst submission attachment hc
    (hn _ (by simp [namesOf])) (hn _ (by simp [namesOf])) (hn _ (by simp [namesOf]))

theorem userDirOf_eq_render (cfg : Config) (course : Course) (asst : Assignment)
    (submission : Submission) (attachment : Attachment)
    (hc : plainName (normalizeName cfg.normalize course.CourseCode) = true)
    (hn : ∀ n ∈ namesOf cfg asst submission attachment, plainName n = true) :
    userDirOf cfg course asst submission =
      pathUnder cfg course (namesOf cfg asst submission attachment).dropLast :=
  userDirOf_eq_pathUnder cfg course asst submission hc
    (hn _ (by simp [namesOf])) (hn _ (by simp [namesOf]))

theorem Stat_pathOf (fs : FS) (cfg : Config) (course : Course) (asst : Assignment)
    (submission : Submission) (attachment : Attachment)
    (hc : plainName (normalizeName cfg.normalize course.CourseCode) = true)
    (hn : ∀ n ∈ namesOf cfg asst submission attachment, plainName n = true) :
    Stat fs (pathOf cfg course asst submission attachment) =
      lookup (keyOf fs.cwd cfg course asst submission attachment) fs.entries := by
  unfold Stat keyOf
  rw [pathOf_eq_namesOf cfg course asst submission attachment hc hn,
    resolve_pathUnder fs.cwd cfg course _ hc hn]

theorem resolve_pathOf (cwd : Key) (cfg : Config) (course : Course) (asst : Assignment)
    (submission : Submission) (attachment : Attachment)
    (hc : plainName (normalizeName cfg.normalize course.CourseCode) = true)
    (hn : ∀ n ∈ namesOf cfg asst submission attachment, plainName n = true) :
    resolve cwd (pathOf cfg course asst submission attachment) =
      some (keyOf cwd cfg course asst submission attachment) := by
  unfold keyOf
  rw [pathOf_eq_namesOf cfg course asst submission attachment hc hn,
    resolve_pathUnder cwd cfg course _ hc hn]

theorem keyOf_eq_iff (cwd : Key) (cfg : Config) (course : Course) (asst asst1 : Assignment)
    (submission submission1 : Submission) (attachment attachment1 : Attachment)
    (hc : plainName (normalizeName cfg.normalize course.CourseCode) = true)
    (hn : ∀ n ∈ namesOf cfg asst submission attachment, plainName n = true)
    (hn1 : ∀ n ∈ namesOf cfg asst1 submission1 attachment1, plainName n = true) :
    keyOf cwd cfg course asst submission attachment =
        keyOf cwd cfg course asst1 submission1 attachment1 ↔
      pathOf cfg course asst submission attachment =
        pathOf cfg course asst1 submission1 attachment1 := by
  rw [pathOf_eq_namesOf cfg course asst submission attachment hc hn,
    pathOf_eq_namesOf cfg course asst1 submission1 attachment1 hc hn1]
  unfold keyOf
  constructor
  · intro h
    rw [List.append_cancel_left h]
  · intro h
    rw [pathUnder_injective cfg course _ _ hc hn hn1 h]

theorem isUnchanged_iff (found : Option Info) (attachment : Attachment) :
    isUnchanged found attachment = true ↔
      ∃ i, found = some i ∧ i.size = attachment.Size ∧
        roundSecond i.modTime = roundSecond attachment.ModifiedAt := by
  unfold isUnchanged
  cases found with
  | none => simp
  | some i => simp

theorem download_effect (fs1 fs2 fs3 : FS) (pk : Key) (p : Str) (len : Nat) (t : Time)
    (hwf1 : WF fs1) (hres : resolve fs1.cwd p = some pk)
    (hw : WriteFile fs1 p len = some fs2) (hc : Chtimes fs2 p t = some fs3) :
    WF fs3 ∧ fs3.cwd = fs1.cwd ∧
      ∀ k, lookup k fs3.entries =
        if pk = k then some (Info.mk false len t) else lookup k fs1.entries := by
  have hwf2 := WriteFile_WF fs1 fs2 p len hwf1 hw
  have hwf3 := Chtimes_WF fs2 fs3 p t hwf2 hc
  obtain ⟨k2, hk2, _, e2⟩ := WriteFile_spec fs1 fs2 p len hw
  rw [hres] at hk2
  cases hk2
  obtain ⟨k3, old, hk3, hold, e3⟩ := Chtimes_spec fs2 fs3 p t hc
  have hcwd2 : fs2.cwd = fs1.cwd := by rw [e2]
  rw [hcwd2, hres] at hk3
  cases hk3
  refine ⟨hwf3, by rw [e3, hcwd2], ?_⟩
  intro k
  have hl2 : ∀ k1, lookup k1 fs2.entries =
      if pk = k1 then some (Info.mk false len fs1.clock) else lookup k1 fs1.entries := by
    intro k1
    rw [e2]
    exact lookup_insert pk k1 _ _
  rw [hl2 pk, if_pos rfl] at hold
  cases hold
  rw [e3]
  simp only
  rw [lookup_insert, hl2 k]
  by_cases e : pk = k
  · rw [if_pos e, if_pos e]
  · rw [if_neg e, if_neg e, if_neg e]

theorem MkdirAll_userDir (fs fs1 : FS) (cfg : Config) (course : Course) (asst : Assignment)
    (submission : Submission) (attachment : Attachment) (hwf : WF fs)
    (hc : plainName (normalizeName cfg.normalize course.CourseCode) = true)
    (hn : ∀ n ∈ namesOf cfg asst submission attachment, plainName n = true)
    (h : MkdirAll fs (userDirOf cfg course asst submission) = Except.ok fs1) :
    WF fs1 ∧ Extends (fun k => k.length ≤ (rootKey fs.cwd cfg course).length + 2) fs fs1 := by
  unfold MkdirAll at h
  have hn2 : ∀ n ∈ (namesOf cfg asst submission attachment).dropLast, plainName n = true :=
    fun n hx => hn n (List.mem_of_mem_dropLast hx)
  rw [userDirOf_eq_render cfg course asst submission attachment hc hn] at h
  unfold pathUnder at h
  obtain ⟨w, e⟩ := mkdirAllAux_clean _ _ _ fs fs1 hwf (pathUnder_normal cfg course _ hc hn2) h
  refine ⟨w, Extends_mono _ _ _ _ e ?_⟩
  intro k hk
  rw [keyOfElems_append fs.cwd _ _ _ hn2] at hk
  have := hk.length_le
  rw [List.length_append] at this
  unfold rootKey
  simp only [namesOf, List.dropLast_cons₂, List.dropLast_single, List.length_cons,
    List.length_nil] at this
  omega


theorem keyOf_length (cwd : Key) (cfg : Config) (course : Course) (asst : Assignment)
    (submission : Submission) (attachment : Attachment) :
    (keyOf cwd cfg course asst submission attachment).length =
      (rootKey cwd cfg course).length + 3 := by
  simp [keyOf, namesOf]

/-- One turn of the attachment loop keeps the invariant of the planning pass. -/
theorem processAttachment_inv {lowerRune : Char → Char} (cfg : Config) (hdry : cfg.dry = false)
    (download : Str → Except Fatal (List Nat)) (course : Course)
    (submissionsOf : Int → Except Fatal (List Submission)) (terms : List Str)
    (assignments : List Assignment) (cwd : Key)
    (hP : PlainNames lowerRune cfg course submissionsOf terms assignments)
    (hA : Agree lowerRune cfg course submissionsOf terms assignments)
    (asst : Assignment) (submission : Submission) (attachment : Attachment)
    (hR : Reached lowerRune submissionsOf terms assignments asst submission attachment)
    (st st1 : State)
    (hinv : PlanInv lowerRune cfg course submissionsOf terms assignments cwd st)
    (h : processAttachment cfg download course asst submission st attachment = Except.ok st1) :
    PlanInv lowerRune cfg course submissionsOf terms assignments cwd st1 := by
  obtain ⟨hwf, hcwd, h4, h5⟩ := hinv
  have hc := hP.1
  have hn := hP.2 asst submission attachment hR
  have hstat : Stat st.fs (pathOf cfg course asst submission attachment) =
      lookup (keyOf cwd cfg course asst submission attachment) st.fs.entries := by
    rw [Stat_pathOf st.fs cfg course asst submission attachment hc hn, hcwd]
  have same : ∀ asst1 submission1 attachment1,
      Reached lowerRune submissionsOf terms assignments asst1 submission1 attachment1 →
      pathOf cfg course asst1 submission1 attachment1 =
        pathOf cfg course asst submission attachment →
      ∀ i, Matches i attachment → Matches i attachment1 := by
    intro asst1 submission1 attachment1 hR1 hp i hm
    obtain ⟨g1, g2⟩ :=
      hA asst submission attachment asst1 submission1 attachment1 hR hR1 hp.symm
    exact ⟨hm.1, hm.2.1.trans g1, hm.2.2.trans g2⟩
  unfold processAttachment at h
  simp only at h
  rw [hstat] at h
  by_cases hu : isUnchanged (lookup (keyOf cwd cfg course asst submission attachment)
      st.fs.entries) attachment = true
  · rw [if_pos hu] at h
    simp only [Except.ok.injEq] at h
    subst h
    obtain ⟨i, hi, hs, ht⟩ := (isUnchanged_iff _ _).1 hu
    refine ⟨hwf, hcwd, h4, ?_⟩
    intro asst1 submission1 attachment1 hR1 hmem
    simp only [List.mem_cons] at hmem
    rcases hmem with hmem | hmem
    · have hk := (keyOf_eq_iff cwd cfg course asst1 asst submission1 submission attachment1
        attachment hc (hP.2 _ _ _ hR1) hn).2 hmem
      rw [hk]
      exact ⟨i, hi, same _ _ _ hR1 hmem i ⟨h4 _ _ _ hR i hi, hs, ht⟩⟩
    · exact h5 _ _ _ hR1 hmem
  · rw [if_neg hu] at h
    simp only [hdry, Bool.false_eq_true, if_false] at h
    cases hd : download attachment.URL with
    | error e => rw [hd] at h; cases h
    | ok data =>
      rw [hd] at h
      simp only at h
      by_cases hlen : (data.length : Int) ≠ attachment.Size
      · rw [if_pos hlen] at h; cases h
      · rw [if_neg hlen] at h
        cases hm : MkdirAll st.fs (userDirOf cfg course asst submission) with
        | error fs1 => rw [hm] at h; cases h
        | ok fs1 =>
          rw [hm] at h
          simp only at h
          cases hw : WriteFile fs1 (pathOf cfg course asst submission attachment)
              data.length with
          | none => rw [hw] at h; cases h
          | some fs2 =>
            rw [hw] at h
            simp only at h
            cases hch : Chtimes fs2 (pathOf cfg course asst submission attachment)
                attachment.ModifiedAt with
            | none => rw [hch] at h; cases h
            | some fs3 =>
              rw [hch] at h
              simp only [Except.ok.injEq] at h
              subst h
              obtain ⟨wf1, ext1⟩ := MkdirAll_userDir st.fs fs1 cfg course asst submission
                attachment hwf hc hn hm
              have hcwd1 : fs1.cwd = cwd := ext1.1.trans hcwd
              have hres : resolve fs1.cwd (pathOf cfg course asst submission attachment) =
                  some (keyOf cwd cfg course asst submission attachment) := by
                rw [hcwd1]
                exact resolve_pathOf cwd cfg course asst submission attachment hc hn
              obtain ⟨wf3, hcwd3, hl3⟩ := download_effect fs1 fs2 fs3
                (keyOf cwd cfg course asst submission attachment) _ data.length
                attachment.ModifiedAt wf1 hres hw hch
              have hsize : (data.length : Int) = attachment.Size := not_not.1 hlen
              have old : ∀ asst1 submission1 attachment1,
                  lookup (keyOf cwd cfg course asst1 submission1 attachment1) fs1.entries =
                    lookup (keyOf cwd cfg course asst1 submission1 attachment1)
                      st.fs.entries := by
                intro asst1 submission1 attachment1
                rcases ext1.2.2.2 (keyOf cwd cfg course asst1 submission1 attachment1) with
                  g | ⟨_, g, _⟩
                · exact g
                · rw [keyOf_length, hcwd] at g
                  omega
              refine ⟨wf3, hcwd3.trans hcwd1, ?_, ?_⟩
              · intro asst1 submission1 attachment1 hR1 i hi
                simp only at hi
                rw [hl3] at hi
                by_cases e : keyOf cwd cfg course asst submission attachment =
                    keyOf cwd cfg course asst1 submission1 attachment1
                · rw [if_pos e] at hi
                  cases hi
                  rfl
                · rw [if_neg e, old] at hi
                  exact h4 _ _ _ hR1 i hi
              · intro asst1 submission1 attachment1 hR1 hmem
                simp only at hmem ⊢
                rw [hl3]
                by_cases e : keyOf cwd cfg course asst submission attachment =
                    keyOf cwd cfg course asst1 submission1 attachment1
                · rw [if_pos e]
                  have hp := (keyOf_eq_iff cwd cfg course asst1 asst submission1 submission
                    attachment1 attachment hc (hP.2 _ _ _ hR1) hn).1 e.symm
                  exact ⟨_, rfl, same _ _ _ hR1 hp _ ⟨rfl, hsize, rfl⟩⟩
                · rw [if_neg e, old]
                  simp only [List.mem_cons] at hmem
                  rcases hmem with hmem | hmem
                  · exact absurd ((keyOf_eq_iff cwd cfg course asst1 asst submission1
                      submission attachment1 attachment hc (hP.2 _ _ _ hR1) hn).2 hmem).symm e
                  · exact h5 _ _ _ hR1 hmem

/-! ## Lemmas on the loops of a run that completes -/

theorem foldlM_ok_inv {β : Type} (P : State → Prop) (f : State → β → Outcome) (l : List β)
    (hf : ∀ st b st1, b ∈ l → P st → f st b = Except.ok st1 → P st1)
    (st st1 : State) (h0 : P st) (h : l.foldlM f st = Except.ok st1) : P st1 := by
  induction l generalizing st with
  | nil =>
    rw [foldlM_nil_ok] at h
    cases h
    exact h0
  | cons b l ih =>
    cases hb : f st b with
    | error e =>
      rw [foldlM_cons_error f b l st e hb] at h
      cases h
    | ok st2 =>
      rw [foldlM_cons_ok f b l st st2 hb] at h
      exact ih (fun s c s1 hc => hf s c s1 (List.mem_cons_of_mem _ hc)) st2
        (hf st b st2 (List.mem_cons_self _ _) h0 hb) h

theorem foldlM_ok_exists {β : Type} (P : State → Prop) (f : State → β → Outcome)
    (l : List β) (hf : ∀ st b, b ∈ l → P st → ∃ st1, f st b = Except.ok st1 ∧ P st1)
    (st : State) (h0 : P st) : ∃ st1, l.foldlM f st = Except.ok st1 ∧ P st1 := by
  induction l generalizing st with
  | nil => exact ⟨st, rfl, h0⟩
  | cons b l ih =>
    obtain ⟨st2, hb, h2⟩ := hf st b (List.mem_cons_self _ _) h0
    rw [foldlM_cons_ok f b l st st2 hb]
    exact ih (fun s c hc => hf s c (List.mem_cons_of_mem _ hc)) st2 h2

theorem foldlM_ok_each {β : Type} (f : State → β → Outcome) (l : List β) (st st1 : State)
    (h : l.foldlM f st = Except.ok st1) : ∀ b ∈ l, ∃ s s1, f s b = Except.ok s1 := by
  induction l generalizing st with
  | nil => simp
  | cons b l ih =>
    cases hb : f st b with
    | error e =>
      rw [foldlM_cons_error f b l st e hb] at h
      cases h
    | ok st2 =>
      rw [foldlM_cons_ok f b l st st2 hb] at h
      intro c hc
      rcases List.mem_cons.1 hc with hc | hc
      · rw [hc]; exact ⟨st, st2, hb⟩
      · exact ih st2 h c hc

/-- A property kept by every turn of the attachment loop on an attachment reached holds
when the planning loop ends. -/
theorem planLoop_inv {lowerRune : Char → Char} (P : State → Prop) (cfg : Config)
    (submissionsOf : Int → Except Fatal (List Submission))
    (download : Str → Except Fatal (List Nat)) (course : Course) (terms : List Str)
    (assignments : List Assignment)
    (hstep : ∀ asst submission attachment st st1,
      Reached lowerRune submissionsOf terms assignments asst submission attachment → P st →
      processAttachment cfg download course asst submission st attachment = Except.ok st1 →
      P st1)
    (st st1 : State) (h0 : P st)
    (h : planLoop lowerRune cfg submissionsOf download course terms st assignments = Except.ok st1)
        :
    P st1 := by
  unfold planLoop at h
  refine foldlM_ok_inv P _ assignments ?_ st st1 h0 h
  intro s asst s1 hasst hs hproc
  unfold processAssignment at hproc
  split at hproc
  · cases hproc; exact hs
  · rename_i hu
    have hu2 : onlineUpload ∈ asst.SubmissionTypes := by
      rw [← acceptsUpload_iff]; simpa using hu
    split at hproc
    · cases hproc; exact hs
    · rename_i hh
      have hh2 : asst.HasSubmittedSubmissions = true := by simpa using hh
      split at hproc
      · cases hproc
      · rename_i submissions hsub
        refine foldlM_ok_inv P _ submissions ?_ s s1 hs hproc
        intro s2 submission s3 hsubm hs2 hps
        unfold processSubmission at hps
        split at hps
        · cases hps; exact hs2
        · rename_i hfil
          split at hps
          · rename_i hty
            refine foldlM_ok_inv P _ submission.Attachments ?_ s2 s3 hs2 hps
            intro s4 attachment s5 hatt hs4 hpa
            exact hstep asst submission attachment s4 s5
              ⟨hasst, hu2, hh2, ⟨submissions, hsub, hsubm⟩, hfil, hty, hatt⟩ hs4 hpa
          · cases hps; exact hs2

theorem planLoop_ok_fetch {lowerRune : Char → Char} (cfg : Config)
    (submissionsOf : Int → Except Fatal (List Submission))
    (download : Str → Except Fatal (List Nat)) (course : Course) (terms : List Str)
    (assignments : List Assignment) (st st1 : State)
    (h : planLoop lowerRune cfg submissionsOf download course terms st assignments = Except.ok st1)
        :
    ∀ asst ∈ assignments, onlineUpload ∈ asst.SubmissionTypes →
      asst.HasSubmittedSubmissions = true → ∃ submissions, submissionsOf asst.ID =
        Except.ok submissions := by
  intro asst hasst hu hh
  unfold planLoop at h
  obtain ⟨s, s1, hs⟩ := foldlM_ok_each _ assignments st st1 h asst hasst
  unfold processAssignment at hs
  rw [← acceptsUpload_iff] at hu
  simp only [hu, hh, Bool.not_true, Bool.false_eq_true, if_false] at hs
  cases hsub : submissionsOf asst.ID with
  | error e => rw [hsub] at hs; cases hs
  | ok submissions => exact ⟨submissions, rfl⟩

/-- When every attachment reached is found unchanged, the planning loop completes, leaves
the tree as it is and reports unchanged attachments only. -/
theorem planLoop_all_unchanged {lowerRune : Char → Char} (cfg : Config)
    (submissionsOf : Int → Except Fatal (List Submission))
    (download : Str → Except Fatal (List Nat)) (course : Course) (terms : List Str)
    (assignments : List Assignment) (fs : FS)
    (hfetch : ∀ asst ∈ assignments, onlineUpload ∈ asst.SubmissionTypes →
      asst.HasSubmittedSubmissions = true → ∃ submissions, submissionsOf asst.ID =
        Except.ok submissions)
    (hun : ∀ asst submission attachment,
      Reached lowerRune submissionsOf terms assignments asst submission attachment →
      isUnchanged (Stat fs (pathOf cfg course asst submission attachment)) attachment = true)
    (st : State) (h0 : Idle fs st) :
    ∃ st1, planLoop lowerRune cfg submissionsOf download course terms st assignments = Except.ok
        st1 ∧
      Idle fs st1 := by
  unfold planLoop
  refine foldlM_ok_exists (Idle fs) _ assignments ?_ st h0
  intro s asst hasst hs
  unfold processAssignment
  by_cases hu : acceptsUpload asst = true
  · have hu2 : onlineUpload ∈ asst.SubmissionTypes := (acceptsUpload_iff asst).1 hu
    by_cases hh : asst.HasSubmittedSubmissions = true
    · obtain ⟨submissions, hsub⟩ := hfetch asst hasst hu2 hh
      simp only [hu, hh, Bool.not_true, Bool.false_eq_true, if_false, hsub]
      refine foldlM_ok_exists (Idle fs) _ submissions ?_ s hs
      intro s2 submission hsubm hs2
      unfold processSubmission
      cases hfil : filterSkip lowerRune terms asst submission with
      | some t => exact ⟨s2, rfl, hs2⟩
      | none =>
        simp only
        by_cases hty : submission.SubmissionType = onlineUpload
        · rw [if_pos hty]
          refine foldlM_ok_exists (Idle fs) _ submission.Attachments ?_ s2 hs2
          intro s4 attachment hatt hs4
          have := hun asst submission attachment
            ⟨hasst, hu2, hh, ⟨submissions, hsub, hsubm⟩, hfil, hty, hatt⟩
          unfold processAttachment
          simp only
          rw [hs4.1, if_pos this]
          refine ⟨_, rfl, rfl, ?_⟩
          intro e he
          simp only [List.mem_append, List.mem_singleton] at he
          rcases he with he | he
          · exact hs4.2 e he
          · exact ⟨_, he⟩
        · rw [if_neg hty]
          exact ⟨s2, rfl, hs2⟩
    · simp only [hu, hh, Bool.not_true, Bool.false_eq_true, if_false, Bool.not_false, if_true]
      exact ⟨s, rfl, hs⟩
  · simp only [hu, Bool.not_false, if_true]
    exact ⟨s, rfl, hs⟩

/-! ## Lemmas on the walk and the removals -/

theorem mem_erase (k : Key) (es : List (Key × Info)) (e : Key × Info) :
    e ∈ erase k es ↔ e ∈ es ∧ e.1 ≠ k := by
  unfold erase
  simp [List.mem_filter]

theorem walkPath_drop_self (root : Str) (rk : Key) :
    walkPath root (rk.drop rk.length) = root := by
  rw [List.drop_length]
  rfl

theorem Walk_visited (fs : FS) (root : Str) (rk : Key) (visited : List (Str × Info))
    (hr : resolve fs.cwd root = some rk) (h : Walk fs root = some visited) :
    ∀ p i, (p, i) ∈ visited →
      ∃ k, (k, i) ∈ fs.entries ∧ rk <+: k ∧ p = walkPath root (k.drop rk.length) := by
  unfold Walk at h
  rw [hr] at h
  simp only at h
  cases hl : lookup rk fs.entries with
  | none => rw [hl] at h; cases h
  | some info =>
    rw [hl] at h
    simp only [Option.some.injEq] at h
    subst h
    intro p i hm
    rcases List.mem_cons.1 hm with hm | hm
    · cases hm
      exact ⟨rk, mem_of_lookup rk _ _ hl, List.prefix_refl _, (walkPath_drop_self _ _).symm⟩
    · split at hm
      · obtain ⟨e, he, hpe⟩ := List.mem_map.1 hm
        rw [(List.perm_insertionSort entryLe _).mem_iff, List.mem_filter] at he
        simp only [Bool.and_eq_true, decide_eq_true_eq] at he
        cases hpe
        exact ⟨e.1, he.1, he.2.1, rfl⟩
      · simp at hm

theorem Walk_complete (fs : FS) (root : Str) (rk : Key) (visited : List (Str × Info))
    (hwf : WF fs) (hr : resolve fs.cwd root = some rk) (h : Walk fs root = some visited) :
    ∀ k i, lookup k fs.entries = some i → rk <+: k →
      (walkPath root (k.drop rk.length), i) ∈ visited := by
  unfold Walk at h
  rw [hr] at h
  simp only at h
  cases hl : lookup rk fs.entries with
  | none => rw [hl] at h; cases h
  | some info =>
    rw [hl] at h
    simp only [Option.some.injEq] at h
    subst h
    intro k i hk hpre
    by_cases e : k = rk
    · subst e
      rw [hl] at hk
      cases hk
      rw [walkPath_drop_self]
      exact List.mem_cons_self _ _
    · obtain ⟨j, hj, hd⟩ := WF_prefix fs hwf k i hk rk hpre
      rw [hl] at hj
      cases hj
      have hdir := hd (fun x => e x.symm)
      apply List.mem_cons_of_mem
      rw [if_pos hdir]
      refine List.mem_map.2 ⟨(k, i), ?_, rfl⟩
      rw [(List.perm_insertionSort entryLe _).mem_iff, List.mem_filter]
      simp only [Bool.and_eq_true, decide_eq_true_eq]
      exact ⟨mem_of_lookup k i _ hk, hpre, e⟩

theorem Walk_isSome_iff (fs : FS) (root : Str) :
    Walk fs root = none ↔ Stat fs root = none := by
  constructor
  · intro h
    unfold Walk at h
    unfold Stat
    cases hr : resolve fs.cwd root with
    | none => rfl
    | some rk =>
      rw [hr] at h
      simp only at h ⊢
      cases hl : lookup rk fs.entries with
      | none => rfl
      | some info => rw [hl] at h; cases h
  · exact Walk_eq_none_of_Stat fs root

/-- What the removal loops of a run that is not dry leave, when they complete. -/
theorem removals_effect (cfg : Config) (hdry : cfg.dry = false) (rs : List Removal)
    (st st1 : State) (h : rs.foldlM (removeOne cfg) st = Except.ok st1) :
    st1.currentDirs = st.currentDirs ∧ st1.currentFiles = st.currentFiles ∧
      st1.fs.cwd = st.fs.cwd ∧
      (∀ e ∈ st1.fs.entries, e ∈ st.fs.entries) ∧
      (∀ r ∈ rs, ∀ k, resolve st.fs.cwd r.path = some k →
        ∀ i, (k, i) ∉ st1.fs.entries) ∧
      (∀ k, (∀ r ∈ rs, resolve st.fs.cwd r.path ≠ some k) →
        lookup k st1.fs.entries = lookup k st.fs.entries) := by
  induction rs generalizing st with
  | nil =>
    rw [foldlM_nil_ok] at h
    cases h
    exact ⟨rfl, rfl, rfl, fun e he => he, by simp, fun _ _ => rfl⟩
  | cons r rs ih =>
    cases hb : removeOne cfg st r with
    | error e =>
      rw [foldlM_cons_error _ r rs st e hb] at h
      cases h
    | ok st2 =>
      rw [foldlM_cons_ok _ r rs st st2 hb] at h
      obtain ⟨a1, a2, a3, a4, a5, a6⟩ := ih st2 h
      unfold removeOne at hb
      simp only [hdry, Bool.false_eq_true, if_false] at hb
      cases hrm : Remove st.fs r.path with
      | none => rw [hrm] at hb; cases hb
      | some fs1 =>
        rw [hrm] at hb
        simp only [Except.ok.injEq] at hb
        subst hb
        obtain ⟨k0, old, hk0, _, e1⟩ := Remove_spec st.fs fs1 r.path hrm
        subst e1
        simp only at a1 a2 a3 a4 a5 a6
        refine ⟨a1, a2, a3, ?_, ?_, ?_⟩
        · intro e he
          exact ((mem_erase k0 _ e).1 (a4 e he)).1
        · intro r1 hr1 k hk i hmem
          rcases List.mem_cons.1 hr1 with hr1 | hr1
          · subst hr1
            rw [hk0] at hk
            cases hk
            exact ((mem_erase k0 _ (k0, i)).1 (a4 _ hmem)).2 rfl
          · exact a5 r1 hr1 k hk i hmem
        · intro k hk
          rw [a6 k (fun r1 hr1 => hk r1 (List.mem_cons_of_mem _ hr1)), lookup_erase]
          have : k0 ≠ k := by
            intro e
            apply hk r (List.mem_cons_self _ _)
            rw [hk0, e]
          rw [if_neg this]

theorem mem_removalOrder (files dirs : List Str) (r : Removal) :
    r ∈ removalOrder files dirs ↔
      (∃ p ∈ files, r = Removal.file p) ∨ (∃ p ∈ dirs, r = Removal.dir p) := by
  unfold removalOrder
  simp only [List.mem_append, List.mem_map, List.mem_reverse, mem_sortStrings]
  constructor
  · rintro (⟨p, hp, rfl⟩ | ⟨p, hp, rfl⟩)
    · exact Or.inl ⟨p, hp, rfl⟩
    · exact Or.inr ⟨p, hp, rfl⟩
  · rintro (⟨p, hp, rfl⟩ | ⟨p, hp, rfl⟩)
    · exact Or.inl ⟨p, hp, rfl⟩
    · exact Or.inr ⟨p, hp, rfl⟩

theorem mem_staleFiles (st : State) (visited : List (Str × Info)) (p : Str) :
    p ∈ staleFiles st visited ↔
      ∃ i, (p, i) ∈ visited ∧ i.isDir = false ∧ p ∉ st.currentFiles := by
  unfold staleFiles
  simp only [List.mem_map, List.mem_filter, Bool.and_eq_true, Bool.not_eq_true',
    decide_eq_true_eq, Prod.exists, exists_and_right, exists_eq_right]

theorem mem_staleDirs (st : State) (visited : List (Str × Info)) (p : Str) :
    p ∈ staleDirs st visited ↔
      ∃ i, (p, i) ∈ visited ∧ i.isDir = true ∧ p ∉ st.currentDirs := by
  unfold staleDirs
  simp only [List.mem_map, List.mem_filter, Bool.and_eq_true,
    decide_eq_true_eq, Prod.exists, exists_and_right, exists_eq_right]

/-! ## Lemmas on a run that completes -/

theorem planLoop_currentFiles {lowerRune : Char → Char} (cfg : Config)
    (submissionsOf : Int → Except Fatal (List Submission))
    (download : Str → Except Fatal (List Nat)) (course : Course) (terms : List Str) (fs : FS)
    (assignments : List Assignment) (st : State)
    (h : planLoop lowerRune cfg submissionsOf download course terms (initialState fs) assignments =
      Except.ok st) (p : Str) :
    p ∈ st.currentFiles ↔
      ∃ asst submission attachment,
        Reached lowerRune submissionsOf terms assignments asst submission attachment ∧
          p = pathOf cfg course asst submission attachment := by
  rw [planLoop_mem State.currentFiles
    (fun asst submission attachment p => p = pathOf cfg course asst submission attachment)
    cfg submissionsOf download course terms
    (fun asst submission st attachment st1 hst p => by
      rw [(processAttachment_sets cfg download course asst submission st st1 attachment hst).1]
      simp only [List.mem_cons]
      tauto)
    _ _ _ h p]
  simp only [initialState, List.not_mem_nil, false_or]

theorem planLoop_currentDirs {lowerRune : Char → Char} (cfg : Config)
    (submissionsOf : Int → Except Fatal (List Submission))
    (download : Str → Except Fatal (List Nat)) (course : Course) (terms : List Str) (fs : FS)
    (assignments : List Assignment) (st : State)
    (h : planLoop lowerRune cfg submissionsOf download course terms (initialState fs) assignments =
      Except.ok st) (p : Str) :
    p ∈ st.currentDirs ↔
      ∃ asst submission attachment,
        Reached lowerRune submissionsOf terms assignments asst submission attachment ∧
          (p = asstDirOf cfg course asst ∨ p = userDirOf cfg course asst submission) := by
  rw [planLoop_mem State.currentDirs
    (fun asst submission _ p => p = asstDirOf cfg course asst ∨
      p = userDirOf cfg course asst submission)
    cfg submissionsOf download course terms
    (fun asst submission st attachment st1 hst p => by
      rw [(processAttachment_sets cfg download course asst submission st st1 attachment hst).2]
      simp only [List.mem_cons]
      tauto)
    _ _ _ h p]
  simp only [initialState, List.not_mem_nil, false_or]

theorem resolve_courseRoot (cwd : Key) (cfg : Config) (course : Course)
    (hc : plainName (normalizeName cfg.normalize course.CourseCode) = true) :
    resolve cwd (courseRootOf cfg course) = some (rootKey cwd cfg course) := by
  rw [courseRootOf_eq cfg course hc, resolve_pathUnder cwd cfg course [] hc (by simp)]
  simp

theorem prefix_eq_append_drop (rk k : Key) (h : rk <+: k) : k = rk ++ k.drop rk.length := by
  obtain ⟨t, rfl⟩ := h
  simp

/-- What the walk reports on an entry of a well-formed tree: its path resolves to its
key. -/
theorem visited_entry (fs : FS) (cfg : Config) (course : Course)
    (visited : List (Str × Info)) (hwf : WF fs)
    (hc : plainName (normalizeName cfg.normalize course.CourseCode) = true)
    (h : Walk fs (courseRootOf cfg course) = some visited) (p : Str) (i : Info)
    (hm : (p, i) ∈ visited) :
    ∃ names, (∀ n ∈ names, plainName n = true) ∧ p = pathUnder cfg course names ∧
      lookup (rootKey fs.cwd cfg course ++ names) fs.entries = some i ∧
      resolve fs.cwd p = some (rootKey fs.cwd cfg course ++ names) := by
  obtain ⟨k, hk, hpre, hp⟩ :=
    Walk_visited fs _ _ visited (resolve_courseRoot fs.cwd cfg course hc) h p i hm
  have hl := lookup_eq_of_mem_nodup k i fs.entries hwf.nodup hk
  have hk2 := prefix_eq_append_drop _ k hpre
  have hn : ∀ n ∈ k.drop (rootKey fs.cwd cfg course).length, plainName n = true :=
    fun n hx => hwf.names k i hl n (List.mem_of_mem_drop hx)
  refine ⟨k.drop (rootKey fs.cwd cfg course).length, hn, ?_, ?_, ?_⟩
  · rw [hp, walkPath_courseRoot cfg course _ hc hn]
  · rw [← hk2]; exact hl
  · rw [hp, walkPath_courseRoot cfg course _ hc hn, resolve_pathUnder fs.cwd cfg course _ hc hn]

/-- A pruner that completes in a run that is not dry keeps the files of the attachments
reached and leaves below the course root only entries whose path is current. -/
theorem prunePass_converges {lowerRune : Char → Char}
    (cfg : Config) (hdry : cfg.dry = false) (course : Course)
    (cwd : Key) (submissionsOf : Int → Except Fatal (List Submission)) (terms : List Str)
    (assignments : List Assignment)
    (hP : PlainNames lowerRune cfg course submissionsOf terms assignments)
    (st st1 : State) (hwf : WF st.fs) (hcwd : st.fs.cwd = cwd)
    (h4 : ∀ asst submission attachment,
      Reached lowerRune submissionsOf terms assignments asst submission attachment →
      ∀ i, lookup (keyOf cwd cfg course asst submission attachment) st.fs.entries = some i →
        i.isDir = false)
    (hfiles : ∀ asst submission attachment,
      Reached lowerRune submissionsOf terms assignments asst submission attachment →
      pathOf cfg course asst submission attachment ∈ st.currentFiles)
    (h : prunePass cfg course st = Except.ok st1) :
    st1.fs.cwd = cwd ∧
      (∀ asst submission attachment,
        Reached lowerRune submissionsOf terms assignments asst submission attachment →
        lookup (keyOf cwd cfg course asst submission attachment) st1.fs.entries =
          lookup (keyOf cwd cfg course asst submission attachment) st.fs.entries) ∧
      (∀ k i, (k, i) ∈ st1.fs.entries → rootKey cwd cfg course <+: k →
        (∀ n ∈ k, plainName n = true) ∧
        (i.isDir = true →
          walkPath (courseRootOf cfg course) (k.drop (rootKey cwd cfg course).length) ∈
            st.currentDirs) ∧
        (i.isDir = false →
          walkPath (courseRootOf cfg course) (k.drop (rootKey cwd cfg course).length) ∈
            st.currentFiles)) := by
  have hc := hP.1
  unfold prunePass at h
  cases hw : Walk st.fs (courseRootOf cfg course) with
  | none => rw [hw] at h; cases h
  | some visited =>
    rw [hw] at h
    simp only at h
    obtain ⟨_, _, a3, a4, a5, a6⟩ := removals_effect cfg hdry _ st st1 h
    have hstale : ∀ r ∈ removalOrder (staleFiles st visited) (staleDirs st visited),
        ∃ i, (r.path, i) ∈ visited ∧
          ((i.isDir = false ∧ r.path ∉ st.currentFiles) ∨ i.isDir = true) := by
      intro r hr
      rcases (mem_removalOrder _ _ r).1 hr with ⟨p, hp, rfl⟩ | ⟨p, hp, rfl⟩
      · obtain ⟨i, hi, hd, hn⟩ := (mem_staleFiles st visited p).1 hp
        exact ⟨i, hi, Or.inl ⟨hd, hn⟩⟩
      · obtain ⟨i, hi, hd, _⟩ := (mem_staleDirs st visited p).1 hp
        exact ⟨i, hi, Or.inr hd⟩
    refine ⟨a3.trans hcwd, ?_, ?_⟩
    · intro asst submission attachment hR
      apply a6
      intro r hr hres
      obtain ⟨i, hi, hcase⟩ := hstale r hr
      obtain ⟨names, hn, hp, hl, hres2⟩ := visited_entry st.fs cfg course visited hwf hc hw _ i hi
      rw [hres2, hcwd] at hres
      simp only [Option.some.injEq] at hres
      rw [hcwd, hres] at hl
      rcases hcase with ⟨_, hnot⟩ | hd
      · apply hnot
        have e : names = namesOf cfg asst submission attachment := by
          unfold keyOf at hres
          exact List.append_cancel_left hres
        rw [hp, e, ← pathOf_eq_namesOf cfg course asst submission attachment hc
          (hP.2 _ _ _ hR)]
        exact hfiles _ _ _ hR
      · have := h4 _ _ _ hR i hl
        rw [hd] at this
        cases this
    · intro k i hk hpre
      have hk0 := a4 _ hk
      have hl := lookup_eq_of_mem_nodup k i st.fs.entries hwf.nodup hk0
      have hk2 := prefix_eq_append_drop _ k hpre
      have hn : ∀ n ∈ k.drop (rootKey cwd cfg course).length, plainName n = true :=
        fun n hx => hwf.names k i hl n (List.mem_of_mem_drop hx)
      have hvis := Walk_complete st.fs _ _ visited hwf
        (resolve_courseRoot st.fs.cwd cfg course hc) hw k i hl (by rw [hcwd]; exact hpre)
      rw [hcwd] at hvis
      have hres : resolve st.fs.cwd
          (walkPath (courseRootOf cfg course) (k.drop (rootKey cwd cfg course).length)) =
          some k := by
        rw [walkPath_courseRoot cfg course _ hc hn, resolve_pathUnder st.fs.cwd cfg course _ hc hn,
          hcwd, ← hk2]
      refine ⟨hwf.names k i hl, ?_, ?_⟩
      · intro hd
        by_contra hnot
        have hs : walkPath (courseRootOf cfg course) (k.drop (rootKey cwd cfg course).length) ∈
            staleDirs st visited := (mem_staleDirs st visited _).2 ⟨i, hvis, hd, hnot⟩
        exact a5 _ ((mem_removalOrder _ _ _).2 (Or.inr ⟨_, hs, rfl⟩)) k hres i hk
      · intro hd
        by_contra hnot
        have hs : walkPath (courseRootOf cfg course) (k.drop (rootKey cwd cfg course).length) ∈
            staleFiles st visited := (mem_staleFiles st visited _).2 ⟨i, hvis, hd, hnot⟩
        exact a5 _ ((mem_removalOrder _ _ _).2 (Or.inl ⟨_, hs, rfl⟩)) k hres i hk

/-- When every entry below the course root has a current path, the pruner removes nothing:
it completes in the state it started from, or the walk fails because the course root does
not exist. -/
theorem prunePass_nothing_stale (cfg : Config) (course : Course) (cwd : Key)
    (hc : plainName (normalizeName cfg.normalize course.CourseCode) = true)
    (st : State) (hcwd : st.fs.cwd = cwd)
    (hconv : ∀ k i, (k, i) ∈ st.fs.entries → rootKey cwd cfg course <+: k →
      (i.isDir = true →
        walkPath (courseRootOf cfg course) (k.drop (rootKey cwd cfg course).length) ∈
          st.currentDirs) ∧
      (i.isDir = false →
        walkPath (courseRootOf cfg course) (k.drop (rootKey cwd cfg course).length) ∈
          st.currentFiles)) :
    prunePass cfg course st = Except.ok st ∨
      (prunePass cfg course st = Except.error (Fatal.walkError, st) ∧
        Stat st.fs (courseRootOf cfg course) = none) := by
  unfold prunePass
  cases hw : Walk st.fs (courseRootOf cfg course) with
  | none => exact Or.inr ⟨rfl, (Walk_isSome_iff _ _).1 hw⟩
  | some visited =>
    left
    simp only
    have hres := resolve_courseRoot st.fs.cwd cfg course hc
    rw [hcwd] at hres
    have hv : ∀ p i, (p, i) ∈ visited →
        (i.isDir = true → p ∈ st.currentDirs) ∧ (i.isDir = false → p ∈ st.currentFiles) := by
      intro p i hm
      obtain ⟨k, hk, hpre, hp⟩ := Walk_visited st.fs _ _ visited (by rw [hcwd]; exact hres) hw
        p i hm
      rw [hp]
      exact hconv k i hk hpre
    have e1 : staleFiles st visited = [] := by
      apply List.eq_nil_iff_forall_not_mem.2
      intro p hp
      obtain ⟨i, hi, hd, hn⟩ := (mem_staleFiles st visited p).1 hp
      exact hn ((hv p i hi).2 hd)
    have e2 : staleDirs st visited = [] := by
      apply List.eq_nil_iff_forall_not_mem.2
      intro p hp
      obtain ⟨i, hi, hd, hn⟩ := (mem_staleDirs st visited p).1 hp
      exact hn ((hv p i hi).1 hd)
    rw [e1, e2]
    rfl

/-- The state in which the planning loop of a run that downloads ends. -/
theorem planLoop_PlanInv {lowerRune : Char → Char} (cfg : Config) (hdry : cfg.dry = false)
    (submissionsOf : Int → Except Fatal (List Submission))
    (download : Str → Except Fatal (List Nat)) (course : Course) (terms : List Str) (fs : FS)
    (assignments : List Assignment) (hwf : WF fs)
    (hP : PlainNames lowerRune cfg course submissionsOf terms assignments)
    (hA : Agree lowerRune cfg course submissionsOf terms assignments)
    (hN : NoDirAt lowerRune fs cfg course submissionsOf terms assignments) (st : State)
    (h : planLoop lowerRune cfg submissionsOf download course terms (initialState fs) assignments =
      Except.ok st) :
    PlanInv lowerRune cfg course submissionsOf terms assignments fs.cwd st := by
  refine planLoop_inv (PlanInv lowerRune cfg course submissionsOf terms assignments fs.cwd) cfg
    submissionsOf download course terms assignments ?_ (initialState fs) st ?_ h
  · intro asst submission attachment s s1 hR hs hproc
    exact processAttachment_inv cfg hdry download course submissionsOf terms assignments fs.cwd
      hP hA asst submission attachment hR s s1 hs hproc
  · refine ⟨hwf, rfl, ?_, ?_⟩
    · intro asst submission attachment hR i hi
      apply hN asst submission attachment hR i
      rw [Stat_pathOf fs cfg course asst submission attachment hP.1 (hP.2 _ _ _ hR)]
      exact hi
    · intro asst submission attachment _ hmem
      simp [initialState] at hmem

theorem syncCourse_eq {lowerRune : Char → Char}
    (cfg : Config) (remote : Remote) (terms : List Str) (fs : FS)
    (course : Course) (assignments : List Assignment)
    (hc : mustFetch cfg.token remote.course none = Except.ok course)
    (ha : mustFetch cfg.token remote.assignments none = Except.ok assignments) :
    syncCourse lowerRune cfg remote terms fs =
      match planLoop lowerRune cfg (submissionsFrom cfg remote) (downloadFrom cfg remote) course
          terms
          (initialState fs) assignments with
      | Except.error e => Except.error e
      | Except.ok st => prunePass cfg course (markCourseRoot cfg course st) := by
  unfold syncCourse planningPass
  simp only [hc, ha]
  cases h : planLoop lowerRune cfg (fun id => mustFetch cfg.token (remote.submissions id) none)
      (fun url => mustFetch cfg.token (remote.attachment url) (some id)) course terms
      (initialState fs) assignments with
  | error e =>
    have h2 : planLoop lowerRune cfg (submissionsFrom cfg remote) (downloadFrom cfg remote) course
        terms
        (initialState fs) assignments = Except.error e := h
    rw [h2]
  | ok st =>
    have h2 : planLoop lowerRune cfg (submissionsFrom cfg remote) (downloadFrom cfg remote) course
        terms
        (initialState fs) assignments = Except.ok st := h
    rw [h2]

/-- A second run after a run that completed, from a well-formed tree and for a listing in
which names are plain and attachments that share a path agree, leaves the tree as it is and
reports unchanged attachments only; it completes when the course root still exists. -/
theorem second_run_idle {lowerRune : Char → Char}
    (cfg : Config) (remote : Remote) (terms : List Str) (fs : FS)
    (course : Course) (assignments : List Assignment) (st1 : State)
    (hdry : cfg.dry = false) (hwf : WF fs)
    (hc : mustFetch cfg.token remote.course none = Except.ok course)
    (ha : mustFetch cfg.token remote.assignments none = Except.ok assignments)
    (hP : PlainNames lowerRune cfg course (submissionsFrom cfg remote) terms assignments)
    (hA : Agree lowerRune cfg course (submissionsFrom cfg remote) terms assignments)
    (hN : NoDirAt lowerRune fs cfg course (submissionsFrom cfg remote) terms assignments)
    (hrun : syncCourse lowerRune cfg remote terms fs = Except.ok st1) :
    Idle st1.fs (finalState (syncCourse lowerRune cfg remote terms st1.fs)) ∧
      (Stat st1.fs (courseRootOf cfg course) ≠ none →
        ∃ st2, syncCourse lowerRune cfg remote terms st1.fs = Except.ok st2) := by
  rw [syncCourse_eq cfg remote terms fs course assignments hc ha] at hrun
  cases hpl : planLoop lowerRune cfg (submissionsFrom cfg remote) (downloadFrom cfg remote) course
      terms
      (initialState fs) assignments with
  | error e => rw [hpl] at hrun; cases hrun
  | ok stL =>
    rw [hpl] at hrun
    simp only at hrun
    obtain ⟨wfL, cwdL, h4, h5⟩ := planLoop_PlanInv cfg hdry _ _ course terms fs assignments hwf
      hP hA hN stL hpl
    have hfilesL := planLoop_currentFiles cfg _ _ course terms fs assignments stL hpl
    have hdirsL := planLoop_currentDirs cfg _ _ course terms fs assignments stL hpl
    have hin : ∀ asst submission attachment,
        Reached lowerRune (submissionsFrom cfg remote) terms assignments asst submission attachment
            →
        pathOf cfg course asst submission attachment ∈ stL.currentFiles :=
      fun asst submission attachment hR => (hfilesL _).2 ⟨asst, submission, attachment, hR, rfl⟩
    obtain ⟨c1, keep, conv⟩ := prunePass_converges cfg hdry course fs.cwd _ terms assignments
      hP (markCourseRoot cfg course stL) st1 wfL cwdL h4 hin hrun
    have hfetch := planLoop_ok_fetch cfg _ _ course terms assignments _ stL hpl
    have hun : ∀ asst submission attachment,
        Reached lowerRune (submissionsFrom cfg remote) terms assignments asst submission attachment
            →
        isUnchanged (Stat st1.fs (pathOf cfg course asst submission attachment)) attachment =
          true := by
      intro asst submission attachment hR
      rw [Stat_pathOf st1.fs cfg course asst submission attachment hP.1 (hP.2 _ _ _ hR), c1,
        keep _ _ _ hR]
      obtain ⟨i, hi, hm⟩ := h5 _ _ _ hR (hin _ _ _ hR)
      exact (isUnchanged_iff _ _).2 ⟨i, hi, hm.2.1, hm.2.2⟩
    obtain ⟨st2L, hpl2, idle2⟩ := planLoop_all_unchanged cfg (submissionsFrom cfg remote)
      (downloadFrom cfg remote) course terms assignments st1.fs hfetch hun
      (initialState st1.fs) ⟨rfl, by simp [initialState]⟩
    have hfiles2 := planLoop_currentFiles cfg _ _ course terms st1.fs assignments st2L hpl2
    have hdirs2 := planLoop_currentDirs cfg _ _ course terms st1.fs assignments st2L hpl2
    have hfs2 : st2L.fs = st1.fs := idle2.1
    have hprune2 := prunePass_nothing_stale cfg course fs.cwd hP.1
      (markCourseRoot cfg course st2L) (by show st2L.fs.cwd = fs.cwd; rw [hfs2, c1]) (by
        intro k i hk hpre
        have hk1 : (k, i) ∈ st1.fs.entries := by
          have : (k, i) ∈ st2L.fs.entries := hk
          rw [hfs2] at this
          exact this
        obtain ⟨_, g1, g2⟩ := conv k i hk1 hpre
        constructor
        · intro hd
          have := g1 hd
          simp only [markCourseRoot, List.mem_cons] at this ⊢
          rw [hdirsL] at this
          rw [hdirs2]
          exact this
        · intro hd
          have := g2 hd
          simp only [markCourseRoot] at this ⊢
          rw [hfilesL] at this
          rw [hfiles2]
          exact this)
    rw [syncCourse_eq cfg remote terms st1.fs course assignments hc ha, hpl2]
    simp only
    rcases hprune2 with e | ⟨e, hnone⟩
    · rw [e]
      exact ⟨⟨hfs2, idle2.2⟩, fun _ => ⟨_, rfl⟩⟩
    · rw [e]
      refine ⟨⟨hfs2, idle2.2⟩, fun hne => ?_⟩
      exfalso
      apply hne
      have : Stat st2L.fs (courseRootOf cfg course) = none := hnone
      rw [hfs2] at this
      exact this

/-! ## Theorems: the second run -/

/-- C3, counterexample: two attachments of one submission, `my report.txt` of three bytes
and `my_report.txt` of five bytes, have the same path; the first run completes, and the
second run, started from the tree it left, downloads again. The runs have no filter terms,
so that they are the same for every case table (`syncCourse_terms_nil`). -/
theorem second_run_downloads_colliding_attachments :
    ∃ st1 st2, syncCourse asciiLower exCfg twinRemote [] exTree = Except.ok st1 ∧
      syncCourse asciiLower exCfg twinRemote [] st1.fs = Except.ok st2 ∧
      Event.downloaded "mirror/CS_1/Lab_1_Report/alice99:Alice_Smith/my_report.txt".toList ∈
        st2.events :=
  ⟨_, _, rfl, rfl, by decide⟩

/-- C3, amended: in a run that is not dry, from a well-formed tree, when the normalised
course code and the normalised names of the attachments reached are plain names, the
attachments reached that share a path agree in size and (to the second) in modification
time, and no path of an attachment reached is a directory of the tree: if the run
completes, a second run from the tree it left, with the same replies and terms, ends in
that same tree, every event of it reports an unchanged attachment (nothing is downloaded,
no file and no directory is removed), and it completes when the course root exists. -/
theorem second_run_changes_nothing (lowerRune : Char → Char)
    (cfg : Config) (remote : Remote) (terms : List Str)
    (fs : FS) (course : Course) (assignments : List Assignment) (st1 : State)
    (hdry : cfg.dry = false) (hwf : wellFormed fs = true)
    (hc : mustFetch cfg.token remote.course none = Except.ok course)
    (ha : mustFetch cfg.token remote.assignments none = Except.ok assignments)
    (hP : PlainNames lowerRune cfg course (submissionsFrom cfg remote) terms assignments)
    (hA : Agree lowerRune cfg course (submissionsFrom cfg remote) terms assignments)
    (hN : NoDirAt lowerRune fs cfg course (submissionsFrom cfg remote) terms assignments)
    (hrun : syncCourse lowerRune cfg remote terms fs = Except.ok st1) :
    (finalState (syncCourse lowerRune cfg remote terms st1.fs)).fs = st1.fs ∧
      (∀ e ∈ (finalState (syncCourse lowerRune cfg remote terms st1.fs)).events,
        ∃ p, e = Event.unchanged p) ∧
      (Stat st1.fs (Join [cfg.directory, normalizeName cfg.normalize course.CourseCode]) ≠
          none →
        ∃ st2, syncCourse lowerRune cfg remote terms st1.fs = Except.ok st2) := by
  obtain ⟨⟨h1, h2⟩, h3⟩ := second_run_idle cfg remote terms fs course assignments st1 hdry
    (WF_of_wellFormed fs hwf) hc ha hP hA hN hrun
  exact ⟨h1, h2, h3⟩

theorem exReached (asst : Assignment) (submission : Submission) (attachment : Attachment)
    (h : Reached asciiLower (submissionsFrom exCfg exRemote) [] [labReport] asst submission
        attachment) :
    asst = labReport ∧ submission = exSubmission ∧ attachment = exAttachment := by
  obtain ⟨h1, _, _, ⟨subs, hs, hsub⟩, _, _, hatt⟩ := h
  have e1 : asst = labReport := by simpa using h1
  subst e1
  have e2 : submissionsFrom exCfg exRemote labReport.ID = Except.ok [exSubmission] := rfl
  rw [e2] at hs
  cases hs
  have e3 : submission = exSubmission := by simpa using hsub
  subst e3
  have e4 : attachment = exAttachment := by
    have : attachment ∈ [exAttachment] := hatt
    simpa using this
  exact ⟨rfl, rfl, e4⟩

/-- C3, witness: the run that downloads one attachment into an empty tree, and the run
after it. -/
theorem second_run_changes_nothing_witness :
    exCfg.dry = false ∧ wellFormed exTree = true ∧
      ∃ st1, syncCourse asciiLower exCfg exRemote [] exTree = Except.ok st1 ∧
        (finalState (syncCourse asciiLower exCfg exRemote [] st1.fs)).fs = st1.fs ∧
        (∀ e ∈ (finalState (syncCourse asciiLower exCfg exRemote [] st1.fs)).events,
          ∃ p, e = Event.unchanged p) ∧
        (Stat st1.fs (Join [exCfg.directory,
            normalizeName exCfg.normalize exCourse.CourseCode]) ≠ none →
          ∃ st2, syncCourse asciiLower exCfg exRemote [] st1.fs = Except.ok st2) :=
  ⟨rfl, by decide, _, rfl,
    second_run_changes_nothing asciiLower exCfg exRemote [] exTree exCourse [labReport] _ rfl
      (by decide)
      rfl rfl
      ⟨by decide, fun asst submission attachment hR => by
        obtain ⟨rfl, rfl, rfl⟩ := exReached asst submission attachment hR
        decide⟩
      (fun asst submission attachment asst1 submission1 attachment1 hR hR1 _ => by
        obtain ⟨rfl, rfl, rfl⟩ := exReached asst submission attachment hR
        obtain ⟨rfl, rfl, rfl⟩ := exReached asst1 submission1 attachment1 hR1
        exact ⟨rfl, rfl⟩)
      (fun asst submission attachment hR => by
        obtain ⟨rfl, rfl, rfl⟩ := exReached asst submission attachment hR
        decide)
      rfl⟩

/-! ## The walk meets every entry: removals keep every entry in a directory -/

theorem hasEntryBelow_of_mem (k k1 : Key) (i : Info) (es : List (Key × Info))
    (hm : (k1, i) ∈ es) (hpre : k <+: k1) (hne : k1 ≠ k) : hasEntryBelow k es = true := by
  unfold hasEntryBelow
  rw [List.any_eq_true]
  exact ⟨(k1, i), hm, by simp [hpre, hne]⟩

/-- After `os.Remove` every entry still lies in a directory of the tree. -/
theorem Remove_keeps_parents (fs fs1 : FS) (path : Str) (hwf : WF fs)
    (h : Remove fs path = some fs1) :
    ∀ k i, lookup k fs1.entries = some i → k ≠ [] → parentIsDir k fs1.entries = true := by
  unfold Remove at h
  cases hk : resolve fs.cwd path with
  | none => rw [hk] at h; cases h
  | some k0 =>
    rw [hk] at h
    simp only at h
    cases hl : lookup k0 fs.entries with
    | none => rw [hl] at h; cases h
    | some old =>
      rw [hl] at h
      simp only at h
      split at h
      · cases h
      · rename_i hcond
        simp only [Option.some.injEq] at h
        subst h
        intro k i hki hne
        simp only at hki ⊢
        rw [lookup_erase] at hki
        by_cases e : k0 = k
        · rw [if_pos e] at hki; cases hki
        · rw [if_neg e] at hki
          have hp := hwf.parent k i hki hne
          unfold parentIsDir at hp ⊢
          rw [lookup_erase]
          by_cases e2 : k0 = k.dropLast
          · exfalso
            rw [← e2, hl] at hp
            simp only at hp
            apply hcond
            rw [hp, Bool.true_and]
            refine hasEntryBelow_of_mem k0 k i _ (mem_of_lookup k i _ hki) ?_ (fun x => e x.symm)
            rw [e2]
            exact List.dropLast_prefix k
          · rw [if_neg e2]
            exact hp

/-- The order of the walk on a small tree: a directory, then what it holds, names in
the order of strings. -/
theorem Walk_order_example :
    (Walk
      { cwd := [], newDir := exDirInfo, clock := 0,
        entries := [(["r".toList, "b".toList], exDirInfo), ([], exDirInfo),
          (["r".toList, "a".toList, "y".toList], Info.mk false 1 0),
          (["r".toList], exDirInfo), (["r".toList, "a".toList], exDirInfo),
          (["r".toList, "a-".toList], Info.mk false 2 0),
          (["other".toList], exDirInfo)] }
      "r".toList).map (fun l => l.map Prod.fst) =
    some ["r".toList, "r/a".toList, "r/a/y".toList, "r/a-".toList, "r/b".toList] := by
  decide

/-! ## Theorems: a directory where a file belongs -/

/-- The test of line 216 does not look at `IsDir`: an empty directory that stands where
the file of an attachment belongs, with the size and the modification time of the
attachment, is reported unchanged; the pruner, which does look at `IsDir`, then removes it
as a stale directory, and the run completes without the file. -/
theorem directory_at_file_path_counts_as_unchanged :
    wellFormed exDirAtFileTree = true ∧
    ∃ st, syncCourse asciiLower exCfg emptyRemote [] exDirAtFileTree = Except.ok st ∧
      st.currentFiles = ["mirror/CS_1/Lab_1_Report/alice99:Alice_Smith/my_report.txt".toList] ∧
      st.events =
        [Event.unchanged "mirror/CS_1/Lab_1_Report/alice99:Alice_Smith/my_report.txt".toList,
         Event.deletedDir "mirror/CS_1/Lab_1_Report/alice99:Alice_Smith/my_report.txt".toList] ∧
      Stat st.fs "mirror/CS_1/Lab_1_Report/alice99:Alice_Smith/my_report.txt".toList = none :=
  ⟨by decide, _, rfl, by decide, by decide, by decide⟩

/-- The run after it downloads the attachment. -/
theorem directory_at_file_path_second_run :
    ∃ st1 st2, syncCourse asciiLower exCfg emptyRemote [] exDirAtFileTree = Except.ok st1 ∧
      syncCourse asciiLower exCfg emptyRemote [] st1.fs = Except.ok st2 ∧
      st2.events =
        [Event.downloaded
          "mirror/CS_1/Lab_1_Report/alice99:Alice_Smith/my_report.txt".toList] :=
  ⟨_, _, rfl, rfl, by decide⟩

/-! ## The case table

The filter consults the case table only through the lower-cased description: two tables
that agree on the characters of the description give the same verdict, and with an empty
term list the table is not consulted at all. The examples of this file are stated for the
table `asciiLower`; by these lemmas they hold for every table that agrees with it on the
ASCII characters, which the table of the package `unicode` does.
-/

theorem filterSkip_congr (lower1 lower2 : Char → Char) (terms : List Str) (asst : Assignment)
    (submission : Submission)
    (h : ∀ c ∈ asst.Name ++ ",".toList ++ asst.Description ++ ",".toList ++
      submission.User.LoginID ++ ",".toList ++ submission.User.Name ++ ",".toList ++
      submission.User.ShortName ++ ",".toList ++ submission.User.Email, lower1 c = lower2 c) :
    filterSkip lower1 terms asst submission = filterSkip lower2 terms asst submission := by
  unfold filterSkip filterDesc toLower
  rw [List.map_congr_left h]

theorem processSubmission_terms_nil (lower1 lower2 : Char → Char) (cfg : Config)
    (download : Str → Except Fatal (List Nat)) (course : Course) :
    processSubmission lower1 cfg download course [] =
      processSubmission lower2 cfg download course [] := by
  funext asst st submission
  rfl

/-- With no filter terms a run does not depend on the case table. -/
theorem syncCourse_terms_nil (lower1 lower2 : Char → Char) (cfg : Config) (remote : Remote)
    (fs : FS) : syncCourse lower1 cfg remote [] fs = syncCourse lower2 cfg remote [] fs := by
  unfold syncCourse planningPass planLoop processAssignment
  simp only [processSubmission_terms_nil lower1 lower2]

/-- The filter follows the case table: under a table that sends `É` to `é`, the term
`étude` is found in the assignment name `ÉTUDE 1`, and the submission is processed. -/
theorem filter_follows_case_table :
    filterSkip accentLower ["étude".toList] etudeAssignment aliceSubmission = none := by
  decide

/-- The filter example, for every case table that lower-cases the ASCII letters and leaves
the other ASCII characters as they are. -/
theorem filter_example_for_every_table (lowerRune : Char → Char)
    (h : ∀ c : Char, c.val < 128 → lowerRune c = asciiLower c) :
    filterSkip lowerRune ["alice".toList, "lab1".toList] labReport aliceSubmission =
        some "lab1".toList ∧
      filterSkip lowerRune ["alice".toList, "lab 1".toList] labReport aliceSubmission = none ∧
      filterSkip lowerRune ["alice".toList, "lab1".toList] labReport bobSubmission =
        some "alice".toList := by
  have ha : ∀ terms, filterSkip lowerRune terms labReport aliceSubmission =
      filterSkip asciiLower terms labReport aliceSubmission := fun terms =>
    filterSkip_congr lowerRune asciiLower terms labReport aliceSubmission
      (fun c hc => h c ((by decide : ∀ c ∈ labReport.Name ++ ",".toList ++
        labReport.Description ++ ",".toList ++ aliceSubmission.User.LoginID ++ ",".toList ++
        aliceSubmission.User.Name ++ ",".toList ++ aliceSubmission.User.ShortName ++
        ",".toList ++ aliceSubmission.User.Email, c.val < 128) c hc))
  have hb : ∀ terms, filterSkip lowerRune terms labReport bobSubmission =
      filterSkip asciiLower terms labReport bobSubmission := fun terms =>
    filterSkip_congr lowerRune asciiLower terms labReport bobSubmission
      (fun c hc => h c ((by decide : ∀ c ∈ labReport.Name ++ ",".toList ++
        labReport.Description ++ ",".toList ++ bobSubmission.User.LoginID ++ ",".toList ++
        bobSubmission.User.Name ++ ",".toList ++ bobSubmission.User.ShortName ++
        ",".toList ++ bobSubmission.User.Email, c.val < 128) c hc))
  rw [ha, ha, hb]
  decide

end CanvasRsync
